import Mathlib

/-!
# detools `examples/dump_restore/main.c`: the dump/restore driver

A shallow embedding of the driver in `src/c/examples/dump_restore/main.c`.

* The C library (`fopen`, `fread`, `fwrite`, `fseek`, `ftell`, `ftruncate`,
  `malloc`, `remove`, `atoi`, `exit`) is modelled over an explicit `World`.
* The patch engine `detools_apply_patch_*` lives in `detools.c`, which the
  driver only calls.  It is a parameter (`Engine`): every engine operation is a
  program over the callbacks the driver hands to it, interpreted with the
  driver's own callbacks `from_read`, `from_seek`, `to_write`, `state_read`
  and `state_write`.
* `exit(1)` is an explicit outcome (`Run.exit`), so a function that calls
  `clean_and_exit` does not return.

Modelling conventions.  Bytes are natural numbers.  File sizes and offsets
(`size_t`, `long`, `off_t`) are natural numbers that do not wrap; `int` values
are integers in the 32-bit range wherever the source narrows to `int` (`atoi`,
the `(int)` cast in `restore`), and an `int` passed where a `size_t` is expected
is converted modulo `2^64`.  The sum `offset + size` of two `int`s is the
integer sum (signed overflow is undefined in C).  The three file arguments name
three distinct files, none of them `state.bin`.

Output streams are fully buffered, as `fopen` leaves them (the driver calls
neither `setvbuf` nor `fflush`): `fwrite` stores the bytes in the buffer of the
stream while they fit, and the stream transmits them to its file when the
buffer overflows, at `fclose` and at `exit`.  The medium takes the bytes that
fit below the size limit of the file and loses the others; the driver learns of
a loss only from an `fwrite` that had to transmit.
-/

namespace Detools

/-! ## Files, host and process state -/

/-- The four streams of the driver: `from_file_p`, `patch_file_p`, `to_file_p`
and `state_file_p`. -/
inductive Handle where
  | from
  | patch
  | to
  | state
  deriving DecidableEq, Repr

/-- Calls whose order, number and results the claims speak about: the engine
calls with the value they returned, `ftruncate` with its length, the driver's
`dump()` and `remove_state()`. -/
inductive Event where
  | init (res : Int)
  | restore (res : Int)
  | ftruncate (length : Nat)
  | process (size : Nat) (res : Int)
  | finalize (res : Int)
  | dump
  | remove_state
  deriving DecidableEq, Repr

/-- What outlives a run: the files, and the limits of the machine.  A file
that is `none` cannot be opened (for `state.bin`: does not exist). -/
structure Host where
  from_file : Option (List Nat)
  patch_file : Option (List Nat)
  to_file : Option (List Nat)
  state_bin : Option (List Nat)
  /-- Largest size the output file can grow to by writing. -/
  to_capacity : Nat
  /-- Largest size `state.bin` can grow to by writing. -/
  state_capacity : Nat
  /-- Whether `state.bin` can be created or opened for writing. -/
  state_writable : Bool
  /-- Largest block `malloc` grants. -/
  heap : Nat
  /-- Size of the buffer of an output stream (`BUFSIZ`). -/
  bufsiz : Nat
  deriving DecidableEq

/-- The state of one run of the program. -/
structure World where
  host : Host
  from_pos : Nat
  patch_pos : Nat
  state_pos : Nat
  /-- The global `to_offset`. -/
  to_offset : Nat
  /-- Bytes written to `to_file_p` that are still in the buffer of the stream. -/
  to_buf : List Nat
  /-- Bytes written to `state_file_p` that are still in the buffer of the stream. -/
  state_buf : List Nat
  /-- Number of bytes the medium did not take when a stream transmitted them. -/
  lost : Nat
  stdout : List String
  trace : List Event
  deriving DecidableEq

/-- A freshly started process: globals are zero, nothing written or printed. -/
def World.boot (h : Host) : World :=
  { host := h, from_pos := 0, patch_pos := 0, state_pos := 0, to_offset := 0,
    to_buf := [], state_buf := [], lost := 0, stdout := [], trace := [] }

def Host.file (h : Host) : Handle → Option (List Nat)
  | .from => h.from_file
  | .patch => h.patch_file
  | .to => h.to_file
  | .state => h.state_bin

def Host.setFile (h : Host) (f : Handle) (v : Option (List Nat)) : Host :=
  match f with
  | .from => { h with from_file := v }
  | .patch => { h with patch_file := v }
  | .to => { h with to_file := v }
  | .state => { h with state_bin := v }

/-- Bytes of the file behind a stream (empty when there is none). -/
def World.data (w : World) (f : Handle) : List Nat :=
  (w.host.file f).getD []

/-- Bytes a stream holds in its buffer, not yet transmitted to its file.  Only
the two streams that are written to hold any. -/
def World.buf (w : World) : Handle → List Nat
  | .to => w.to_buf
  | .state => w.state_buf
  | _ => []

def World.setBuf (w : World) (f : Handle) (b : List Nat) : World :=
  match f with
  | .to => { w with to_buf := b }
  | .state => { w with state_buf := b }
  | _ => w

def World.pos (w : World) : Handle → Nat
  | .from => w.from_pos
  | .patch => w.patch_pos
  | .to => (w.data .to).length + w.to_buf.length
  | .state => w.state_pos

def World.setPos (w : World) (f : Handle) (p : Nat) : World :=
  match f with
  | .from => { w with from_pos := p }
  | .patch => { w with patch_pos := p }
  | .to => w
  | .state => { w with state_pos := p }

def World.setData (w : World) (f : Handle) (d : List Nat) : World :=
  { w with host := w.host.setFile f (some d) }

/-- Size limit for writes through a stream. -/
def World.capacity (w : World) : Handle → Nat
  | .to => w.host.to_capacity
  | .state => w.host.state_capacity
  | _ => 0

/-- The stream `f` transmits `bytes` to its file: the medium appends the bytes
that fit below the size limit of the file, the others are lost.  A file that
has been removed takes all the bytes with it. -/
def World.transmit (w : World) (f : Handle) (bytes : List Nat) : World :=
  match w.host.file f with
  | some d =>
    { w.setData f (d ++ bytes.take (w.capacity f - d.length)) with
        lost := w.lost + (bytes.length - (w.capacity f - d.length)) }
  | none => { w with lost := w.lost + bytes.length }

/-- The stream `f` empties its buffer into its file; with an empty buffer there
is nothing to do. -/
def World.flush (w : World) (f : Handle) : World :=
  if w.buf f = [] then w else (w.transmit f (w.buf f)).setBuf f []

/-- All output streams flushed, as `exit` does. -/
def World.flushed (w : World) : World := (w.flush .to).flush .state

/-- Whether a write of `n` bytes to stream `f` is reported as successful: the
bytes fit in the buffer, or the file can take the buffered bytes and them. -/
def World.takes (w : World) (f : Handle) (n : Nat) : Prop :=
  (w.buf f).length + n ≤ w.host.bufsiz ∨
    (w.data f).length + ((w.buf f).length + n) ≤ w.capacity f

instance (w : World) (f : Handle) (n : Nat) : Decidable (w.takes f n) :=
  inferInstanceAs (Decidable (_ ∨ _))

/-- The world after a write of `buf` to stream `f`: the bytes are in the
buffer when they fit there, otherwise the buffered bytes and they have been
transmitted and the buffer is empty. -/
def World.written (w : World) (f : Handle) (buf : List Nat) : World :=
  if (w.buf f).length + buf.length ≤ w.host.bufsiz then w.setBuf f (w.buf f ++ buf)
  else (w.transmit f (w.buf f ++ buf)).setBuf f []

def World.log (w : World) (e : Event) : World :=
  { w with trace := w.trace ++ [e] }

/-! ## Outcomes: return or `exit` -/

/-- Outcome of a piece of the program: it returns a value, or the process has
exited with a status. -/
inductive Run (α : Type) where
  | ret (a : α) (w : World)
  | exit (code : Int) (w : World)
  deriving DecidableEq

def Run.world {α : Type} : Run α → World
  | .ret _ w => w
  | .exit _ w => w

/-- Exit status of a finished `main`. -/
def Run.status : Run Int → Int
  | .ret a _ => a
  | .exit c _ => c

def Run.returned {α : Type} : Run α → Bool
  | .ret _ _ => true
  | .exit _ _ => false

/-- A piece of the program. -/
def M (α : Type) : Type := World → Run α

def M.pure {α : Type} (a : α) : M α := fun w => .ret a w

def M.bind {α β : Type} (m : M α) (f : α → M β) : M β := fun w =>
  match m w with
  | .ret a w1 => f a w1
  | .exit c w1 => .exit c w1

instance : Monad M where
  pure := M.pure
  bind := M.bind

/-! ## The C library -/

/-- Conversion of an `int` to `size_t`. -/
def to_size_t (i : Int) : Nat := (i % 2 ^ 64).toNat

/-- Conversion to `int` (two's complement, 32 bits). -/
def to_int (i : Int) : Int := (i + 2 ^ 31) % 2 ^ 32 - 2 ^ 31

def PTRDIFF_MAX : Nat := 2 ^ 63 - 1

/-- The call `printf(...)`: the text is appended to standard output (arguments
of the format are not rendered). -/
def printf (s : String) : M Unit := fun w =>
  .ret () { w with stdout := w.stdout ++ [s] }

/-- The call `exit(status)`: the open streams are flushed, the process ends. -/
def exit {α : Type} (status : Int) : M α := fun w => .exit status w.flushed

/-- The call `remove("state.bin")`. -/
def remove_state_bin : M Unit := fun w =>
  .ret () { w with host := { w.host with state_bin := none } }

/-- The call `malloc(size)`: whether a block is granted.  No block larger
than `PTRDIFF_MAX` is ever granted. -/
def malloc (size : Nat) : M Bool := fun w =>
  .ret (decide (size ≤ w.host.heap ∧ size ≤ PTRDIFF_MAX)) w

/-- The call `fread(buf_p, size, 1, file_p)`: the number of members read
(1 or 0) and the bytes stored in the buffer.  With `size = 0` it returns 0 and
touches nothing; a short read leaves the cursor after the bytes read. -/
def fread (f : Handle) (size : Nat) : M (Nat × List Nat) := fun w =>
  if size = 0 then .ret (0, []) w
  else
    let got := ((w.data f).drop (w.pos f)).take size
    if got.length = size then .ret (1, got) (w.setPos f (w.pos f + size))
    else .ret (0, got) (w.setPos f (w.pos f + got.length))

/-- The call `fwrite(buf_p, size, 1, file_p)` on a stream that writes at the
end of its file (`"ab"`, or `"wb"` right after creation): the number of
members written (1 or 0).  With `size = 0` it returns 0.  Bytes that fit in
the buffer are stored there and reported as written; when they do not fit, the
stream transmits its buffer and them, and reports 0 when the medium did not
take them all. -/
def fwrite (f : Handle) (buf : List Nat) : M Nat := fun w =>
  if buf.length = 0 then .ret 0 w
  else .ret (if w.takes f buf.length then 1 else 0) (w.written f buf)

/-- The call `fclose(file_p)`: the bytes still in the buffer are transmitted;
the result is 0, or `EOF` (-1) when the medium did not take them all. -/
def fclose (f : Handle) : M Int := fun w =>
  .ret (if (w.flush f).lost = w.lost then 0 else -1) (w.flush f)

inductive Whence where
  | SEEK_SET
  | SEEK_CUR
  | SEEK_END
  deriving DecidableEq, Repr

/-- The call `fseek(file_p, offset, whence)`: 0 and the cursor moved, or -1 and
the cursor unchanged when the target is negative.  A target beyond the end of
the file is allowed. -/
def fseek (f : Handle) (offset : Int) (whence : Whence) : M Int := fun w =>
  let base : Int :=
    match whence with
    | .SEEK_SET => 0
    | .SEEK_CUR => (w.pos f : Int)
    | .SEEK_END => ((w.data f).length : Int)
  if 0 ≤ base + offset then .ret 0 (w.setPos f (base + offset).toNat)
  else .ret (-1) w

/-- The call `ftell(file_p)`. -/
def ftell (f : Handle) : M Int := fun w => .ret (w.pos f : Int) w

/-- The call `ftruncate(fileno(to_file_p), length)`: the file becomes exactly
`length` bytes long, cut or padded with zero bytes. -/
def ftruncate_to (length : Nat) : M Unit := fun w =>
  .ret () ((w.setData .to ((w.data .to).take length ++
    List.replicate (length - (w.data .to).length) 0)).log (.ftruncate length))

/-- The call `fopen(name, mode)`, `mode` one of `"rb"`, `"ab"`, `"wb"`: whether
a stream was obtained; its buffer is empty.  `"wb"` (only used for `state.bin`)
empties the file. -/
inductive Mode where
  | rb
  | ab
  | wb
  deriving DecidableEq, Repr

def fopen (f : Handle) (mode : Mode) : M Bool := fun w =>
  match mode with
  | .rb =>
    match w.host.file f with
    | some _ => .ret true ((w.setPos f 0).setBuf f [])
    | none => .ret false w
  | .ab =>
    match w.host.file f with
    | some _ => .ret true (w.setBuf f [])
    | none => .ret false w
  | .wb =>
    if w.host.state_writable then .ret true (((w.setData f []).setPos f 0).setBuf f [])
    else .ret false w

/-- A C string argument: where it lives and its text. -/
structure CStr where
  addr : Nat
  text : String

def atoi_digits : List Char → Nat → Nat
  | [], acc => acc
  | c :: cs, acc =>
    if 48 ≤ c.toNat ∧ c.toNat ≤ 57 then atoi_digits cs (acc * 10 + (c.toNat - 48))
    else acc

def isspace (c : Char) : Bool :=
  c.toNat = 32 || (9 ≤ c.toNat && c.toNat ≤ 13)

def LONG_MAX : Int := 2 ^ 63 - 1

def LONG_MIN : Int := -2 ^ 63

/-- The call `strtol(s, NULL, 10)`: optional white space, optional sign,
decimal digits; a value outside the range of `long` is replaced by the nearest
bound. -/
def strtol (s : String) : Int :=
  let v : Int :=
    match s.toList.dropWhile isspace with
    | '-' :: cs => -(atoi_digits cs 0 : Int)
    | '+' :: cs => (atoi_digits cs 0 : Int)
    | cs => (atoi_digits cs 0 : Int)
  max LONG_MIN (min LONG_MAX v)

/-- The call `atoi(s)`, that is `(int)strtol(s, NULL, 10)`. -/
def atoi (s : String) : Int := to_int (strtol s)

/-! ## The driver, lines 47-206 -/

def remove_state : M Unit := do
  printf "Removing state 'state.bin'.\n"
  remove_state_bin
  fun w => .ret () (w.log .remove_state)

/-- The world after `remove_state()`. -/
def World.removed (w : World) : World :=
  { w with stdout := w.stdout ++ ["Removing state 'state.bin'.\n"],
           host := { w.host with state_bin := none },
           trace := w.trace ++ [.remove_state] }

def clean_and_exit {α : Type} : M α := do
  remove_state
  exit 1

def print_usage_and_exit {α : Type} : M α := do
  printf "Usage: %s <from-file> <patch-file> <to-file> <size> <size-after-dump\n"
  clean_and_exit

def open_file (filename : Handle) (mode : Mode) : M Unit := do
  let file_p ← fopen filename mode
  if file_p = false then
    printf "error: Failed to open '%s' with '%s'.\n"
    clean_and_exit
  return ()

def parse_non_negative_integer (value_p : CStr) : M Int := do
  let value := atoi value_p.text
  if (value_p.addr : Int) < 0 then
    printf "error: Non-negative integer expected.\n"
    clean_and_exit
  return value

def get_file_size (file_p : Handle) : M Nat := do
  let res ← fseek file_p 0 .SEEK_END
  if res ≠ 0 then
    printf "error: Seek failed.\n"
    clean_and_exit
  let size ← ftell file_p
  if size ≤ 0 then
    printf "error: Tell failed.\n"
    clean_and_exit
  let res ← fseek file_p 0 .SEEK_SET
  if res ≠ 0 then
    printf "error: Seek failed.\n"
    clean_and_exit
  return size.toNat

/-- The callback `from_read`: result code and the bytes stored in the buffer. -/
def from_read (size : Nat) : M (Int × List Nat) := do
  if size > 0 then
    let r ← fread .from size
    if r.1 ≠ 1 then
      return (-1, r.2)
    return (0, r.2)
  return (0, [])

def from_seek (offset : Int) : M Int :=
  fseek .from offset .SEEK_CUR

def to_write (buf : List Nat) : M Int := do
  if buf.length > 0 then
    fun w => .ret () { w with to_offset := w.to_offset + buf.length }
    let n ← fwrite .to buf
    if n ≠ 1 then
      return (-1)
    return 0
  return 0

def read_file (file_p : Handle) (offset : Int) (size : Int) : M (List Nat) := do
  let buf_p ← malloc (to_size_t size)
  if buf_p = false then
    printf "error: Alloc failed.\n"
    clean_and_exit
  if (← fseek file_p offset .SEEK_SET) ≠ 0 then
    printf "error: Seek failed.\n"
    clean_and_exit
  let r ← fread file_p (to_size_t size)
  if r.1 ≠ 1 then
    printf "error: Read failed.\n"
    clean_and_exit
  return r.2

def parse_args (argv : List CStr) : M (Int × Int) := do
  if argv.length ≠ 6 then
    print_usage_and_exit
  open_file .from .rb
  open_file .patch .rb
  open_file .to .ab
  let size ← parse_non_negative_integer (argv.getD 4 ⟨0, ""⟩)
  let size_after_dump ← parse_non_negative_integer (argv.getD 5 ⟨0, ""⟩)
  return (size, size_after_dump)

def state_read (size : Nat) : M (Int × List Nat) := do
  let r ← fread .state size
  if r.1 ≠ 1 then
    return (-1, r.2)
  return (0, r.2)

def state_write (buf : List Nat) : M Int := do
  let n ← fwrite .state buf
  if n ≠ 1 then
    return (-1)
  return 0

/-! ## The patch engine

`detools_apply_patch_*` is not part of the driver.  An engine is given by its
state and, for each operation, the program it runs over the callbacks it holds:
`process` and `finalize` hold the callbacks registered by `init` (`from_read`,
`from_seek`, `to_write`); `dump` holds the sink `state_write`; `restore` holds
`state_read` and may position the source with `from_seek`. -/

/-- Engine code over the callbacks registered by `detools_apply_patch_init`.
`done res st` returns `res` with the engine in state `st`. -/
inductive Prog (σ : Type) where
  | done (res : Int) (st : σ)
  | from_read (size : Nat) (k : Int → List Nat → Prog σ)
  | from_seek (offset : Int) (k : Int → Prog σ)
  | to_write (buf : List Nat) (k : Int → Prog σ)

/-- Engine code of `detools_apply_patch_dump`, over the sink. -/
inductive DumpProg where
  | done (res : Int)
  | state_write (buf : List Nat) (k : Int → DumpProg)

/-- Engine code of `detools_apply_patch_restore`. -/
inductive RestoreProg (σ : Type) where
  | done (res : Int) (st : σ)
  | state_read (size : Nat) (k : Int → List Nat → RestoreProg σ)
  | from_seek (offset : Int) (k : Int → RestoreProg σ)

structure Engine where
  σ : Type
  /-- The call `detools_apply_patch_init(&apply_patch, from_read, from_seek,
  patch_size, to_write, NULL)`: result and the initialised object. -/
  init : Nat → Int × σ
  process : σ → List Nat → Prog σ
  finalize : σ → Prog σ
  dump : σ → DumpProg
  restore : σ → RestoreProg σ
  get_to_offset : σ → Nat
  get_patch_offset : σ → Nat

/-- Run engine code against the driver's callbacks. -/
def exec {σ : Type} : Prog σ → M (Int × σ)
  | .done res st => pure (res, st)
  | .from_read size k => do
    let r ← from_read size
    exec (k r.1 r.2)
  | .from_seek offset k => do
    let r ← from_seek offset
    exec (k r)
  | .to_write buf k => do
    let r ← to_write buf
    exec (k r)

def execDump : DumpProg → M Int
  | .done res => pure res
  | .state_write buf k => do
    let r ← state_write buf
    execDump (k r)

def execRestore {σ : Type} : RestoreProg σ → M (Int × σ)
  | .done res st => pure (res, st)
  | .state_read size k => do
    let r ← state_read size
    execRestore (k r.1 r.2)
  | .from_seek offset k => do
    let r ← from_seek offset
    execRestore (k r)

def log (e : Event) : M Unit := fun w => .ret () (w.log e)

def detools_apply_patch_init (E : Engine) (patch_size : Nat) : M (Int × E.σ) := do
  log (.init (E.init patch_size).1)
  return E.init patch_size

def detools_apply_patch_process (E : Engine) (self : E.σ) (patch : List Nat) :
    M (Int × E.σ) := do
  let r ← exec (E.process self patch)
  log (.process patch.length r.1)
  return r

def detools_apply_patch_finalize (E : Engine) (self : E.σ) : M (Int × E.σ) := do
  let r ← exec (E.finalize self)
  log (.finalize r.1)
  return r

def detools_apply_patch_dump (E : Engine) (self : E.σ) : M Int :=
  execDump (E.dump self)

def detools_apply_patch_restore (E : Engine) (self : E.σ) : M (Int × E.σ) := do
  let r ← execRestore (E.restore self)
  log (.restore r.1)
  return r

/-! ## The driver, lines 238-377 -/

def DETOOLS_OK : Int := 0

def dump (E : Engine) (apply_patch : E.σ) (_patch_offset : Int) : M Unit := do
  log .dump
  printf "Storing state in 'state.bin'.\n"
  open_file .state .wb
  let res ← detools_apply_patch_dump E apply_patch
  if res ≠ DETOOLS_OK then
    printf "error: Dump failed with '%s'.\n"
    clean_and_exit
  let _ ← fclose .state

/-- The function `restore`: the engine object afterwards and `*patch_offset_p`. -/
def restore (E : Engine) (apply_patch : E.σ) : M (E.σ × Int) := do
  let state_file_p ← fopen .state .rb
  let r ← (if state_file_p then do
      printf "Restoring state from 'state.bin'.\n"
      let r ← detools_apply_patch_restore E apply_patch
      if r.1 ≠ DETOOLS_OK then
        printf "error: Restore failed.\n"
        clean_and_exit
      fun w => .ret () { w with to_offset := E.get_to_offset r.2 }
      let patch_offset := to_int (E.get_patch_offset r.2)
      let _ ← fclose .state
      return (r.2, patch_offset)
    else do
      printf "No state to restore.\n"
      fun w => .ret () { w with to_offset := 0 }
      return (apply_patch, (0 : Int)))
  fun w => ftruncate_to w.to_offset w
  return r

/-- Local variables of `main` after the first `detools_apply_patch_process`
call has succeeded (line 332). -/
structure Locals (E : Engine) where
  apply_patch : E.σ
  res : Int
  offset : Int
  size : Int
  size_after_dump : Int
  patch_size : Nat
  patch_buf : List Nat

instance (E : Engine) [DecidableEq E.σ] : DecidableEq (Locals E) := fun a b =>
  decidable_of_iff
    (a.apply_patch = b.apply_patch ∧ a.res = b.res ∧ a.offset = b.offset ∧ a.size = b.size ∧
      a.size_after_dump = b.size_after_dump ∧ a.patch_size = b.patch_size ∧
      a.patch_buf = b.patch_buf)
    (by cases a; cases b; simp)

/-- Lines 296-332 of `main`: up to and including the check of the first
`detools_apply_patch_process` call. -/
def main_begin (E : Engine) (argv : List CStr) : M (Locals E) := do
  let args ← parse_args argv
  let size := args.1
  let size_after_dump := args.2
  let patch_size ← get_file_size .patch
  let r ← detools_apply_patch_init E patch_size
  if r.1 ≠ 0 then
    printf "error: Init failed.\n"
    clean_and_exit
  let s ← restore E r.2
  let offset := s.2
  printf "Processing %d byte(s) patch data starting at offset %d.\n"
  let patch_buf ← read_file .patch offset size
  let r ← detools_apply_patch_process E s.1 patch_buf
  if r.1 < 0 then
    printf "error: Process failed with '%s'.\n"
    clean_and_exit
  return { apply_patch := r.2, res := r.1, offset := offset, size := size,
           size_after_dump := size_after_dump, patch_size := patch_size,
           patch_buf := patch_buf }

/-- Lines 350-368 of `main`: processing after the dump. -/
def main_after_dump (E : Engine) (v : Locals E) : M Int := do
  if v.size_after_dump > 0 then
    printf "Processing %d byte(s) patch data after dump starting at offset %d.\n"
    let patch_buf ← read_file .patch (v.offset + v.size) v.size_after_dump
    let r ← detools_apply_patch_process E v.apply_patch patch_buf
    if r.1 < 0 then
      printf "error: Process after dump failed with '%s'.\n"
      clean_and_exit
    return r.1
  return v.res

/-- Lines 334-376 of `main`: finalize or dump, then return `res`. -/
def main_end (E : Engine) (v : Locals E) : M Int := do
  let res ← (if to_size_t (v.offset + v.size) = v.patch_size then do
      let r ← detools_apply_patch_finalize E v.apply_patch
      if r.1 < 0 then
        printf "error: Finalize failed with '%s'.\n"
        clean_and_exit
      remove_state
      printf "Patch successfully applied. To-file is %d bytes.\n"
      return (0 : Int)
    else do
      dump E v.apply_patch (v.offset + v.size)
      main_after_dump E v)
  let _ ← fclose .from
  let _ ← fclose .patch
  let _ ← fclose .to
  return res

def main (E : Engine) (argv : List CStr) : M Int := do
  let v ← main_begin E argv
  main_end E v

/-! ## A small engine and concrete hosts, for evaluating the driver

Each patch byte `b` other than 255 is a difference: the engine reads one
source byte `x` and writes `(b + x) % 256`.  The patch byte 255 is malformed.
`ok` is the value `process` returns on success. -/

structure AddState where
  patch_size : Nat
  patch_offset : Nat
  to_offset : Nat
  from_offset : Nat
  deriving DecidableEq, Repr

def addProcess (ok : Int) (st : AddState) : List Nat → Prog AddState
  | [] => .done ok st
  | b :: bs =>
    if b = 255 then .done (-1) st
    else .from_read 1 (fun r x =>
      if r ≠ 0 then .done (-2) st
      else .to_write [(b + x.headD 0) % 256] (fun r2 =>
        if r2 ≠ 0 then .done (-3) st
        else addProcess ok
          { st with patch_offset := st.patch_offset + 1, to_offset := st.to_offset + 1,
                    from_offset := st.from_offset + 1 } bs))

def addFinalize (st : AddState) : Prog AddState :=
  if st.patch_offset = st.patch_size then .done st.to_offset st else .done (-4) st

def addDump (st : AddState) : DumpProg :=
  .state_write [st.patch_size, st.patch_offset, st.to_offset, st.from_offset]
    (fun r => .done r)

def addRestore (st : AddState) : RestoreProg AddState :=
  .state_read 4 (fun r buf =>
    if r ≠ 0 then .done (-5) st
    else
      match buf with
      | [a, b, c, d] =>
        .from_seek d (fun r2 =>
          if r2 ≠ 0 then .done (-6) st else .done 0 ⟨a, b, c, d⟩)
      | _ => .done (-7) st)

/-- The engine whose `process` returns 0 on success. -/
def addEngine : Engine :=
  { σ := AddState
    init := fun patch_size => (0, ⟨patch_size, 0, 0, 0⟩)
    process := fun st buf => addProcess 0 st buf
    finalize := addFinalize
    dump := addDump
    restore := addRestore
    get_to_offset := fun st => st.to_offset
    get_patch_offset := fun st => st.patch_offset }

instance : DecidableEq addEngine.σ := inferInstanceAs (DecidableEq AddState)

/-- The same engine with `process` returning the number of bytes consumed. -/
def countEngine : Engine :=
  { addEngine with process := fun st buf => addProcess buf.length st buf }

instance : DecidableEq countEngine.σ := inferInstanceAs (DecidableEq AddState)

/-- Source `"ABCDABCD"`, a six byte patch, an empty output, no `state.bin`. -/
def host0 : Host :=
  { from_file := some [65, 66, 67, 68, 65, 66, 67, 68]
    patch_file := some [1, 2, 3, 4, 5, 6]
    to_file := some []
    state_bin := none
    to_capacity := 1000
    state_capacity := 1000
    state_writable := true
    heap := 1000
    bufsiz := 4096 }

/-- The host with its output file emptied. -/
def Host.emptied (h : Host) : Host := { h with to_file := some [] }

/-- The command line `main from patch to size size_after_dump`. -/
def argv0 (size size_after_dump : String) : List CStr :=
  [⟨1000, "main"⟩, ⟨1010, "from"⟩, ⟨1020, "patch"⟩, ⟨1030, "to"⟩,
   ⟨1040, size⟩, ⟨1050, size_after_dump⟩]

/-! ## The engine contract assumed by the resumption claim -/

/-- Bytes handed to the output stream and not lost: those in the file followed
by those in the buffer of the stream. -/
def World.sent (w : World) : List Nat := w.data .to ++ w.to_buf

/-- Contents of the output file once the output stream is flushed, as `fclose`
and `exit` do when a piece of the program has ended. -/
def output {α : Type} (r : Run α) : Option (List Nat) := (r.world.flush .to).host.to_file

/-- What `state_write` returns for a buffer its stream accepts: 0, and -1 for
an empty buffer, for which `fwrite` reports no member written. -/
def accepted (buf : List Nat) : Int := if buf.length = 0 then -1 else 0

/-- The bytes the engine code of a dump hands to `state_write` when the stream
accepts every write: the state dumped. -/
def dumped : DumpProg → List Nat
  | .done _ => []
  | .state_write buf k => buf ++ dumped (k (accepted buf))

/-- Feed the chunks to `process` one call after the other, stopping at the
first call that reports an error. -/
def feed (E : Engine) : E.σ → List (List Nat) → M (Int × E.σ)
  | st, [] => pure (0, st)
  | st, c :: cs => do
    let r ← exec (E.process st c)
    if r.1 < 0 then
      return r
    feed E r.2 cs

/-- Feed the chunks and, when no call reported an error, finalize. -/
def thenFinalize (E : Engine) (st : E.σ) (cs : List (List Nat)) : M (Int × E.σ) := do
  let r ← feed E st cs
  if r.1 < 0 then
    return r
  exec (E.finalize r.2)

/-- Two worlds in which the callbacks of `process` and `finalize` behave the
same: same source and source cursor, same output file, output buffer and
output medium. -/
structure SameStreams (w w1 : World) : Prop where
  from_file : w.host.from_file = w1.host.from_file
  from_pos : w.from_pos = w1.from_pos
  to_file : w.host.to_file = w1.host.to_file
  to_buf : w.to_buf = w1.to_buf
  to_capacity : w.host.to_capacity = w1.host.to_capacity
  bufsiz : w.host.bufsiz = w1.host.bufsiz

/-- The part of the spec's engine contract the resumption claim rests on, for
an engine freshly initialised for a patch of any size, with the source cursor
at 0.

* `offsets`: after a successful first `process` call on an open output file
  the patch offset is the number of bytes fed and the to-offset is the number
  of bytes handed to the output stream.
* `chunk_invariant`: feeding `a ++ b` in one call or in two calls, then
  finalizing, leaves the same output.
* `fidelity`: the state dumped after a successful first `process` call,
  restored into a freshly initialised engine whose source is reopened at 0,
  restores with result 0, puts the source cursor back where it was, has the
  dumped to-offset and patch-offset, and yields the same output for every
  continuation (further `process` calls, then finalize). -/
structure Contract (E : Engine) : Prop where
  offsets : ∀ (P : Nat) (st0 : E.σ) (c : List Nat) (w : World) (r : Int) (st1 : E.σ)
    (w1 : World), E.init P = (0, st0) → w.host.to_file ≠ none →
    exec (E.process st0 c) w = .ret (r, st1) w1 → 0 ≤ r →
      E.get_patch_offset st1 = c.length ∧
      w.sent.length + E.get_to_offset st1 = w1.sent.length
  chunk_invariant : ∀ (P : Nat) (st0 : E.σ) (a b : List Nat) (w : World),
    E.init P = (0, st0) →
      output (thenFinalize E st0 [a ++ b] w) = output (thenFinalize E st0 [a, b] w)
  fidelity : ∀ (P : Nat) (st0 : E.σ) (c : List Nat) (w : World) (r : Int) (st1 : E.σ)
    (w1 : World), E.init P = (0, st0) → w.from_pos = 0 →
    exec (E.process st0 c) w = .ret (r, st1) w1 → 0 ≤ r →
    ∀ (wr : World), wr.host.state_bin = some (dumped (E.dump st1)) → wr.state_pos = 0 →
    wr.from_pos = 0 → wr.host.from_file = w.host.from_file →
      ∃ (st2 : E.σ) (wr1 : World),
        execRestore (E.restore st0) wr = .ret (0, st2) wr1 ∧
        wr1.from_pos = w1.from_pos ∧
        E.get_to_offset st2 = E.get_to_offset st1 ∧
        E.get_patch_offset st2 = E.get_patch_offset st1 ∧
        ∀ (cs : List (List Nat)) (w2 : World),
          output (thenFinalize E st2 cs w2) = output (thenFinalize E st1 cs w2)

/-! ## Vocabulary of the statements -/

def Event.isFinalize : Event → Bool
  | .finalize _ => true
  | _ => false

def Event.isRestore : Event → Bool
  | .restore _ => true
  | _ => false

def Event.isFtruncate : Event → Bool
  | .ftruncate _ => true
  | _ => false

/-- Number of `detools_apply_patch_finalize` calls in a trace. -/
def finalizeCalls (t : List Event) : Nat := t.countP Event.isFinalize

/-- Number of `dump()` calls in a trace. -/
def dumpCalls (t : List Event) : Nat := t.count .dump

/-- Size and result of the last `detools_apply_patch_process` call in a trace. -/
def lastProcess : List Event → Option (Nat × Int)
  | [] => none
  | e :: t =>
    match lastProcess t with
    | some r => some r
    | none =>
      match e with
      | .process n res => some (n, res)
      | _ => none

/-- The first `ftruncate` of a trace comes before its first
`detools_apply_patch_restore` call. -/
def truncatesBeforeRestore (t : List Event) : Prop :=
  t.findIdx Event.isFtruncate < t.findIdx Event.isRestore

instance (t : List Event) : Decidable (truncatesBeforeRestore t) :=
  inferInstanceAs (Decidable (_ < _))

/-- The first `detools_apply_patch_restore` call of a trace comes before its
first `ftruncate`. -/
def restoreBeforeTruncate (t : List Event) : Prop :=
  t.findIdx Event.isRestore < t.findIdx Event.isFtruncate

instance (t : List Event) : Decidable (restoreBeforeTruncate t) :=
  inferInstanceAs (Decidable (_ < _))

/-- Events of the part of `main` before it finalizes or dumps. -/
def Event.early : Event → Prop
  | .finalize _ => False
  | .dump => False
  | _ => True

/-- A piece of the program that only adds events satisfying `S` to the trace
and only exits through `clean_and_exit`: status 1, `state.bin` removed. -/
def Sound {α : Type} (S : Event → Prop) (m : M α) : Prop :=
  ∀ w, (∃ t, (m w).world.trace = w.trace ++ t ∧ ∀ e ∈ t, S e) ∧
    (∀ c w1, m w = .exit c w1 → c = 1 ∧ w1.host.state_bin = none)

/-- The output file exists and is within the size limit of its medium. -/
def World.within (w : World) : Prop :=
  ∃ d, w.host.to_file = some d ∧ d.length ≤ w.host.to_capacity

/-- What the callbacks of `process` and `finalize` leave untouched, and how
the output changes: the file by appending, and as long as nothing is lost the
bytes handed to the stream by appending. -/
structure ProcFrame (w w1 : World) : Prop where
  trace : w1.trace = w.trace
  stdout : w1.stdout = w.stdout
  from_file : w1.host.from_file = w.host.from_file
  patch_file : w1.host.patch_file = w.host.patch_file
  state_bin : w1.host.state_bin = w.host.state_bin
  to_capacity : w1.host.to_capacity = w.host.to_capacity
  state_capacity : w1.host.state_capacity = w.host.state_capacity
  state_writable : w1.host.state_writable = w.host.state_writable
  heap : w1.host.heap = w.host.heap
  bufsiz : w1.host.bufsiz = w.host.bufsiz
  patch_pos : w1.patch_pos = w.patch_pos
  state_pos : w1.state_pos = w.state_pos
  state_buf : w1.state_buf = w.state_buf
  lost : w.lost ≤ w1.lost
  to_file : w1.host.to_file = w.host.to_file ∨
    ∃ app, w1.host.to_file = some (w.data .to ++ app)
  sent : w1.lost = w.lost → ∃ app, w1.sent = w.sent ++ app
  within : w.within → w1.within

/-- Two worlds with the same source and source cursor whose output streams
hold the same bytes, divided between file and buffer in any way, on media with
the same size limit. -/
structure SameSent (w w1 : World) : Prop where
  from_file : w.host.from_file = w1.host.from_file
  from_pos : w.from_pos = w1.from_pos
  to_capacity : w.host.to_capacity = w1.host.to_capacity
  sent : w.sent = w1.sent
  within : w.within
  within1 : w1.within

/-- The output medium was full in `w`, and `w1` comes later: it is still full,
and what it can hold of the bytes handed to the stream is the same. -/
structure StillFull (w w1 : World) : Prop where
  to_capacity : w1.host.to_capacity = w.host.to_capacity
  within : w1.within
  full : w1.host.to_capacity ≤ w1.sent.length
  same : w1.sent.take w1.host.to_capacity = w.sent.take w.host.to_capacity

/-- Two worlds whose output media are full and can hold the same bytes. -/
structure FullAlike (w w1 : World) : Prop where
  to_capacity : w.host.to_capacity = w1.host.to_capacity
  within : w.within
  within1 : w1.within
  full : w.host.to_capacity ≤ w.sent.length
  full1 : w1.host.to_capacity ≤ w1.sent.length
  same : w.sent.take w.host.to_capacity = w1.sent.take w1.host.to_capacity

/-- How engine code run in two worlds related by `SameSent` ends: with the same
value in worlds still so related, or in two worlds whose output media are full
with the same bytes. -/
def Agree {α : Type} (a b : Run α) : Prop :=
  (∃ r w w1, a = .ret r w ∧ b = .ret r w1 ∧ SameSent w w1) ∨ FullAlike a.world b.world

/-- Two hosts that are the same machine with the same source and patch: they
differ at most in the output file and in `state.bin`. -/
structure SameMachine (h h1 : Host) : Prop where
  from_file : h1.from_file = h.from_file
  patch_file : h1.patch_file = h.patch_file
  to_capacity : h1.to_capacity = h.to_capacity
  state_capacity : h1.state_capacity = h.state_capacity
  state_writable : h1.state_writable = h.state_writable
  heap : h1.heap = h.heap
  bufsiz : h1.bufsiz = h.bufsiz

/-! ## Worlds and conditions named in the lemmas -/

/-- The conditions under which `read_file` returns. -/
def read_file_ok (f : Handle) (offset size : Int) (w : World) : Prop :=
  to_size_t size ≤ w.host.heap ∧ to_size_t size ≤ PTRDIFF_MAX ∧ 0 ≤ offset ∧
    0 < to_size_t size ∧ offset.toNat + to_size_t size ≤ (w.data f).length

def World.truncated (w : World) (length : Nat) : World :=
  (w.setData .to ((w.data .to).take length ++
    List.replicate (length - (w.data .to).length) 0)).log (.ftruncate length)

/-- The world in which the engine's dump runs: `state.bin` just created. -/
def World.dumping (w : World) : World :=
  { w with trace := w.trace ++ [.dump],
           stdout := w.stdout ++ ["Storing state in 'state.bin'.\n"],
           state_pos := 0,
           state_buf := [],
           host := { w.host with state_bin := some [] } }

/-- The world in which the chunk after the dump is read. -/
def World.announced (w : World) : World :=
  { w with stdout := w.stdout ++
      ["Processing %d byte(s) patch data after dump starting at offset %d.\n"] }

/-- The world when `main` returns on the finalize path. -/
def World.applied (w : World) (res : Int) : World :=
  { (w.log (.finalize res)).removed with
      stdout := (w.log (.finalize res)).removed.stdout ++
        ["Patch successfully applied. To-file is %d bytes.\n"] }.flush .to

/-- The world in which the engine's restore runs: `state.bin` just opened. -/
def World.restoring (w : World) : World :=
  { w with state_pos := 0,
           state_buf := [],
           stdout := w.stdout ++ ["Restoring state from 'state.bin'.\n"] }

/-- The world when `restore` returns after a successful engine restore to a
state with to-offset `n`. -/
def World.restored (w : World) (n : Nat) : World :=
  { w.log (.restore 0) with to_offset := n }.truncated n

/-- The host left by `main from patch to 2 3` on `host0`: five bytes of
output, the state dumped after two patch bytes. -/
def host1 : Host :=
  { host0 with to_file := some [66, 68, 70, 72, 70], state_bin := some [6, 2, 2, 2] }

/-- The world after `addProcess` has handled one well-formed byte `b` with
source byte `x`. -/
def World.added (w : World) (b x : Nat) : World :=
  { w with from_pos := w.from_pos + 1, to_offset := w.to_offset + 1 }.written .to
    [(b + x) % 256]

/-- The engine state after one well-formed byte. -/
def AddState.next (st : AddState) : AddState :=
  { st with patch_offset := st.patch_offset + 1, to_offset := st.to_offset + 1,
            from_offset := st.from_offset + 1 }

/-- A source and a patch whose last byte is malformed. -/
def hostBad : Host := { host0 with patch_file := some [1, 2, 3, 255] }

/-- The host `host0` with a `state.bin` that cannot grow beyond three bytes. -/
def hostSmallState : Host := { host0 with state_capacity := 3 }

/-- The host `host0` on a machine that grants no block larger than four bytes. -/
def hostSmallHeap : Host := { host0 with heap := 4 }

@[simp] theorem bind_apply {α β : Type} (m : M α) (f : α → M β) (w : World) :
    (m >>= f) w = match m w with
      | .ret a w1 => f a w1
      | .exit c w1 => .exit c w1 := rfl

@[simp] theorem pure_apply {α : Type} (a : α) (w : World) :
    (pure a : M α) w = .ret a w := rfl

@[simp] theorem ite_app {α : Type} (c : Prop) [Decidable c] (m1 m2 : M α) (w : World) :
    (if c then m1 else m2) w = if c then m1 w else m2 w := by
  split <;> rfl

@[simp] theorem printf_apply (s : String) (w : World) :
    printf s w = .ret () { w with stdout := w.stdout ++ [s] } := rfl

@[simp] theorem exit_apply {α : Type} (c : Int) (w : World) :
    (exit c : M α) w = .exit c w.flushed := rfl

@[simp] theorem log_apply (e : Event) (w : World) : log e w = .ret () (w.log e) := rfl

@[simp] theorem fclose_apply (f : Handle) (w : World) :
    fclose f w = .ret (if (w.flush f).lost = w.lost then 0 else -1) (w.flush f) := rfl

@[simp] theorem remove_state_apply (w : World) : remove_state w = .ret () w.removed := rfl

@[simp] theorem clean_and_exit_apply {α : Type} (w : World) :
    (clean_and_exit : M α) w = .exit 1 w.removed.flushed := rfl

@[simp] theorem removed_state_bin (w : World) : w.removed.host.state_bin = none := rfl

/-! ## Streams: buffer, transmission, flush -/

@[simp] theorem setBuf_trace (w : World) (f : Handle) (b : List Nat) :
    (w.setBuf f b).trace = w.trace := by
  cases f <;> rfl

@[simp] theorem setBuf_stdout (w : World) (f : Handle) (b : List Nat) :
    (w.setBuf f b).stdout = w.stdout := by
  cases f <;> rfl

@[simp] theorem setBuf_host (w : World) (f : Handle) (b : List Nat) :
    (w.setBuf f b).host = w.host := by
  cases f <;> rfl

@[simp] theorem setBuf_lost (w : World) (f : Handle) (b : List Nat) :
    (w.setBuf f b).lost = w.lost := by
  cases f <;> rfl

@[simp] theorem transmit_trace (w : World) (f : Handle) (b : List Nat) :
    (w.transmit f b).trace = w.trace := by
  unfold World.transmit
  split <;> rfl

@[simp] theorem transmit_stdout (w : World) (f : Handle) (b : List Nat) :
    (w.transmit f b).stdout = w.stdout := by
  unfold World.transmit
  split <;> rfl

@[simp] theorem flush_trace (w : World) (f : Handle) : (w.flush f).trace = w.trace := by
  unfold World.flush
  split
  · rfl
  · rw [setBuf_trace, transmit_trace]

@[simp] theorem flush_stdout (w : World) (f : Handle) : (w.flush f).stdout = w.stdout := by
  unfold World.flush
  split
  · rfl
  · rw [setBuf_stdout, transmit_stdout]

@[simp] theorem flushed_trace (w : World) : w.flushed.trace = w.trace := by
  simp [World.flushed]

@[simp] theorem flushed_stdout (w : World) : w.flushed.stdout = w.stdout := by
  simp [World.flushed]

@[simp] theorem written_trace (w : World) (f : Handle) (b : List Nat) :
    (w.written f b).trace = w.trace := by
  unfold World.written
  split
  · rw [setBuf_trace]
  · rw [setBuf_trace, transmit_trace]

/-- A stream whose buffer is empty has nothing to flush. -/
theorem flush_of_empty (w : World) (f : Handle) (h : w.buf f = []) : w.flush f = w := by
  simp [World.flush, h]

@[simp] theorem flush_from (w : World) : w.flush .from = w := flush_of_empty w _ rfl

@[simp] theorem flush_patch (w : World) : w.flush .patch = w := flush_of_empty w _ rfl

/-- Transmission to the output file, when there is one. -/
theorem transmit_to (w : World) (b d : List Nat) (h : w.host.to_file = some d) :
    w.transmit .to b =
      { w with host := { w.host with
                  to_file := some (d ++ b.take (w.host.to_capacity - d.length)) },
               lost := w.lost + (b.length - (w.host.to_capacity - d.length)) } := by
  simp [World.transmit, Host.file, h, World.setData, Host.setFile, World.capacity]

/-- Transmission to `state.bin`, when it exists. -/
theorem transmit_state (w : World) (b d : List Nat) (h : w.host.state_bin = some d) :
    w.transmit .state b =
      { w with host := { w.host with
                  state_bin := some (d ++ b.take (w.host.state_capacity - d.length)) },
               lost := w.lost + (b.length - (w.host.state_capacity - d.length)) } := by
  simp [World.transmit, Host.file, h, World.setData, Host.setFile, World.capacity]

theorem transmit_none (w : World) (f : Handle) (b : List Nat) (h : w.host.file f = none) :
    w.transmit f b = { w with lost := w.lost + b.length } := by
  simp [World.transmit, h]

theorem transmit_lost (w : World) (f : Handle) (b : List Nat) :
    w.lost ≤ (w.transmit f b).lost := by
  unfold World.transmit
  split <;> simp

theorem flush_lost (w : World) (f : Handle) : w.lost ≤ (w.flush f).lost := by
  unfold World.flush
  split
  · exact le_refl _
  · rw [setBuf_lost]
    exact transmit_lost _ _ _

theorem flushed_lost (w : World) : w.lost ≤ w.flushed.lost :=
  le_trans (flush_lost w .to) (flush_lost _ .state)

theorem transmit_state_bin_none (w : World) (f : Handle) (b : List Nat)
    (h : w.host.state_bin = none) : (w.transmit f b).host.state_bin = none := by
  unfold World.transmit
  cases f <;> simp only [Host.file] <;> split <;>
    simp_all [World.setData, Host.setFile]

theorem flush_state_bin_none (w : World) (f : Handle) (h : w.host.state_bin = none) :
    (w.flush f).host.state_bin = none := by
  unfold World.flush
  split
  · exact h
  · rw [setBuf_host]
    exact transmit_state_bin_none _ _ _ h

theorem flushed_state_bin_none (w : World) (h : w.host.state_bin = none) :
    w.flushed.host.state_bin = none :=
  flush_state_bin_none _ _ (flush_state_bin_none _ _ h)

@[simp] theorem removed_flushed_state_bin (w : World) :
    w.removed.flushed.host.state_bin = none :=
  flushed_state_bin_none _ rfl

/-- The output stream flushed, when the output file exists. -/
theorem flush_to (w : World) (d : List Nat) (h : w.host.to_file = some d) :
    w.flush .to =
      { w with host := { w.host with
                  to_file := some (d ++ w.to_buf.take (w.host.to_capacity - d.length)) },
               to_buf := [],
               lost := w.lost + (w.to_buf.length - (w.host.to_capacity - d.length)) } := by
  unfold World.flush
  simp only [World.buf]
  split
  · rename_i hb
    cases w with
    | mk host from_pos patch_pos state_pos to_offset to_buf state_buf lost stdout trace =>
      cases host
      simp_all
  · rw [transmit_to _ _ d h]
    rfl

/-- The stream of `state.bin` flushed, when the file exists. -/
theorem flush_state (w : World) (d : List Nat) (h : w.host.state_bin = some d) :
    w.flush .state =
      { w with host := { w.host with
                  state_bin := some (d ++ w.state_buf.take (w.host.state_capacity - d.length)) },
               state_buf := [],
               lost := w.lost + (w.state_buf.length - (w.host.state_capacity - d.length)) } := by
  unfold World.flush
  simp only [World.buf]
  split
  · rename_i hb
    cases w with
    | mk host from_pos patch_pos state_pos to_offset to_buf state_buf lost stdout trace =>
      cases host
      simp_all
  · rw [transmit_state _ _ d h]
    rfl

theorem flush_to_state_bin (w : World) : (w.flush .to).host.state_bin = w.host.state_bin := by
  unfold World.flush World.transmit
  simp only [World.buf, Host.file]
  split
  · rfl
  · split <;> rfl

theorem flush_state_to_file (w : World) : (w.flush .state).host.to_file = w.host.to_file := by
  unfold World.flush World.transmit
  simp only [World.buf, Host.file]
  split
  · rfl
  · split <;> rfl

theorem flush_state_to_buf (w : World) : (w.flush .state).to_buf = w.to_buf := by
  unfold World.flush World.transmit
  simp only [World.buf, Host.file]
  split
  · rfl
  · split <;> rfl

theorem flush_state_to_capacity (w : World) :
    (w.flush .state).host.to_capacity = w.host.to_capacity := by
  unfold World.flush World.transmit
  simp only [World.buf, Host.file]
  split
  · rfl
  · split <;> rfl

theorem flush_to_buf (w : World) : (w.flush .to).to_buf = [] := by
  unfold World.flush
  simp only [World.buf]
  split
  · assumption
  · rfl

/-! ## The C library model -/

@[simp] theorem malloc_apply (n : Nat) (w : World) :
    malloc n w = .ret (decide (n ≤ w.host.heap ∧ n ≤ PTRDIFF_MAX)) w := rfl

@[simp] theorem ftell_apply (f : Handle) (w : World) : ftell f w = .ret (w.pos f : Int) w := rfl

theorem fseek_set_apply (f : Handle) (offset : Int) (w : World) :
    fseek f offset .SEEK_SET w =
      if 0 ≤ offset then .ret 0 (w.setPos f offset.toNat) else .ret (-1) w := by
  simp [fseek]

theorem fseek_end_apply (f : Handle) (w : World) :
    fseek f 0 .SEEK_END w = .ret 0 (w.setPos f (w.data f).length) := by
  simp [fseek]

@[simp] theorem fread_zero (f : Handle) (w : World) : fread f 0 w = .ret (0, []) w := by
  simp [fread]

theorem fread_full (f : Handle) (w : World) (n : Nat) (hn : 0 < n)
    (h : w.pos f + n ≤ (w.data f).length) :
    fread f n w =
      .ret (1, ((w.data f).drop (w.pos f)).take n) (w.setPos f (w.pos f + n)) := by
  have hlen : (List.take n (List.drop (w.pos f) (w.data f))).length = n := by
    simp; omega
  simp [fread, hlen]; omega

theorem fread_short (f : Handle) (w : World) (n : Nat)
    (h : n = 0 ∨ (w.data f).length < w.pos f + n) :
    ∃ buf p, fread f n w = .ret (0, buf) (w.setPos f p) ∧ (n = 0 → p = w.pos f) := by
  by_cases hn : n = 0
  · refine ⟨[], w.pos f, ?_, fun _ => rfl⟩
    simp only [fread, hn, ↓reduceIte]
    cases f <;> rfl
  · have hlen : (List.take n (List.drop (w.pos f) (w.data f))).length ≠ n := by
      simp; omega
    exact ⟨List.take n (List.drop (w.pos f) (w.data f)),
      w.pos f + (List.take n (List.drop (w.pos f) (w.data f))).length,
      by simp only [fread, hn, hlen, ↓reduceIte], fun h0 => absurd h0 hn⟩

/-! ## Composition of `Sound` -/

theorem sound_bind {α β : Type} {S : Event → Prop} {m : M α} {f : α → M β}
    (hm : Sound S m) (hf : ∀ a, Sound S (f a)) : Sound S (m >>= f) := by
  intro w
  obtain ⟨⟨t, ht, hS⟩, hx⟩ := hm w
  simp only [bind_apply]
  cases hmw : m w with
  | ret a w1 =>
    rw [hmw] at ht
    obtain ⟨⟨t2, ht2, hS2⟩, hx2⟩ := hf a w1
    refine ⟨⟨t ++ t2, ?_, ?_⟩, ?_⟩
    · simp only [Run.world] at ht
      rw [ht2, ht, List.append_assoc]
    · intro e he
      rcases List.mem_append.mp he with h | h
      · exact hS e h
      · exact hS2 e h
    · intro c w2 h
      exact hx2 c w2 h
  | exit c w1 =>
    rw [hmw] at ht
    refine ⟨⟨t, ht, hS⟩, ?_⟩
    intro c2 w2 h
    cases h
    exact hx _ _ hmw

theorem sound_ite {α : Type} {S : Event → Prop} {c : Prop} [Decidable c] {m1 m2 : M α}
    (h1 : Sound S m1) (h2 : Sound S m2) : Sound S (if c then m1 else m2) := by
  split
  · exact h1
  · exact h2

theorem sound_pure {α : Type} {S : Event → Prop} (a : α) : Sound S (pure a : M α) := by
  intro w
  exact ⟨⟨[], by simp [Run.world], by simp⟩, by simp⟩

/-- A step that returns and leaves the trace alone is sound. -/
theorem sound_quiet {α : Type} {S : Event → Prop} (m : M α)
    (h : ∀ w, ∃ a w1, m w = .ret a w1 ∧ w1.trace = w.trace) : Sound S m := by
  intro w
  obtain ⟨a, w1, he, ht⟩ := h w
  rw [he]
  exact ⟨⟨[], by simp [Run.world, ht], by simp⟩, by simp⟩

theorem sound_fun {α : Type} {S : Event → Prop} (a : α) (g : World → World)
    (h : ∀ w, (g w).trace = w.trace) : Sound S (fun w => Run.ret a (g w)) :=
  sound_quiet _ (fun w => ⟨a, g w, rfl, h w⟩)

theorem sound_printf {S : Event → Prop} (s : String) : Sound S (printf s) :=
  sound_quiet _ (fun _ => ⟨_, _, rfl, rfl⟩)

theorem sound_log {S : Event → Prop} (e : Event) (he : S e) : Sound S (log e) := by
  intro w
  exact ⟨⟨[e], rfl, by simpa using he⟩, by simp⟩

theorem sound_clean_and_exit {α : Type} {S : Event → Prop} (hS : S .remove_state) :
    Sound S (clean_and_exit : M α) := by
  intro w
  refine ⟨⟨[.remove_state], by simp [Run.world, World.removed], by simpa using hS⟩, ?_⟩
  intro c w1 h
  simp only [clean_and_exit_apply] at h
  cases h
  exact ⟨rfl, removed_flushed_state_bin w⟩

theorem setPos_trace (w : World) (f : Handle) (p : Nat) : (w.setPos f p).trace = w.trace := by
  cases f <;> rfl

theorem setData_trace (w : World) (f : Handle) (d : List Nat) :
    (w.setData f d).trace = w.trace := rfl

theorem sound_fopen {S : Event → Prop} (f : Handle) (mode : Mode) : Sound S (fopen f mode) := by
  apply sound_quiet
  intro w
  cases mode <;> simp only [fopen]
  · cases w.host.file f
    · exact ⟨_, _, rfl, rfl⟩
    · exact ⟨_, _, rfl, by rw [setBuf_trace, setPos_trace]⟩
  · cases w.host.file f
    · exact ⟨_, _, rfl, rfl⟩
    · exact ⟨_, _, rfl, setBuf_trace _ _ _⟩
  · cases w.host.state_writable
    · exact ⟨_, _, rfl, rfl⟩
    · exact ⟨_, _, rfl, by rw [setBuf_trace, setPos_trace, setData_trace]⟩

theorem sound_fseek {S : Event → Prop} (f : Handle) (o : Int) (wh : Whence) :
    Sound S (fseek f o wh) := by
  apply sound_quiet
  intro w
  simp only [fseek]
  split
  · exact ⟨_, _, rfl, setPos_trace _ _ _⟩
  · exact ⟨_, _, rfl, rfl⟩

theorem sound_fread {S : Event → Prop} (f : Handle) (n : Nat) : Sound S (fread f n) := by
  apply sound_quiet
  intro w
  simp only [fread]
  split
  · exact ⟨_, _, rfl, rfl⟩
  · split
    · exact ⟨_, _, rfl, setPos_trace _ _ _⟩
    · exact ⟨_, _, rfl, setPos_trace _ _ _⟩

theorem sound_fwrite {S : Event → Prop} (f : Handle) (b : List Nat) : Sound S (fwrite f b) := by
  apply sound_quiet
  intro w
  simp only [fwrite]
  split
  · exact ⟨_, _, rfl, rfl⟩
  · exact ⟨_, _, rfl, written_trace _ _ _⟩

theorem sound_malloc {S : Event → Prop} (n : Nat) : Sound S (malloc n) :=
  sound_quiet _ (fun _ => ⟨_, _, rfl, rfl⟩)

theorem sound_ftell {S : Event → Prop} (f : Handle) : Sound S (ftell f) :=
  sound_quiet _ (fun _ => ⟨_, _, rfl, rfl⟩)

theorem sound_fclose {S : Event → Prop} (f : Handle) : Sound S (fclose f) :=
  sound_quiet _ (fun w => ⟨_, _, rfl, flush_trace w f⟩)

theorem sound_open_file {S : Event → Prop} (hS : S .remove_state) (f : Handle) (mode : Mode) :
    Sound S (open_file f mode) := by
  unfold open_file
  repeat' first
    | exact sound_clean_and_exit hS
    | exact sound_printf _
    | exact sound_pure _
    | exact sound_fopen _ _
    | apply sound_bind
    | apply sound_ite
    | intro _

theorem sound_parse_args {S : Event → Prop} (hS : S .remove_state) (argv : List CStr) :
    Sound S (parse_args argv) := by
  unfold parse_args print_usage_and_exit parse_non_negative_integer
  repeat' first
    | exact sound_clean_and_exit hS
    | exact sound_printf _
    | exact sound_pure _
    | exact sound_open_file hS _ _
    | apply sound_bind
    | apply sound_ite
    | intro _

theorem sound_get_file_size {S : Event → Prop} (hS : S .remove_state) (f : Handle) :
    Sound S (get_file_size f) := by
  unfold get_file_size
  repeat' first
    | exact sound_clean_and_exit hS
    | exact sound_printf _
    | exact sound_pure _
    | exact sound_fseek _ _ _
    | exact sound_ftell _
    | apply sound_bind
    | apply sound_ite
    | intro _

theorem sound_read_file {S : Event → Prop} (hS : S .remove_state) (f : Handle) (o n : Int) :
    Sound S (read_file f o n) := by
  unfold read_file
  repeat' first
    | exact sound_clean_and_exit hS
    | exact sound_printf _
    | exact sound_pure _
    | exact sound_fseek _ _ _
    | exact sound_fread _ _
    | exact sound_malloc _
    | apply sound_bind
    | apply sound_ite
    | intro _

/-! ## The callbacks and the engine code -/

theorem procFrame_refl (w : World) : ProcFrame w w :=
  { trace := rfl, stdout := rfl, from_file := rfl, patch_file := rfl, state_bin := rfl,
    to_capacity := rfl, state_capacity := rfl, state_writable := rfl, heap := rfl,
    bufsiz := rfl, patch_pos := rfl, state_pos := rfl, state_buf := rfl, lost := le_refl _,
    to_file := Or.inl rfl, sent := fun _ => ⟨[], by simp⟩, within := id }

theorem procFrame_data_to {w w1 : World} (h : ProcFrame w w1) :
    ∃ app, w1.data .to = w.data .to ++ app := by
  rcases h.to_file with h1 | ⟨app, h1⟩
  · exact ⟨[], by simp [World.data, Host.file, h1]⟩
  · exact ⟨app, by simp [World.data, Host.file, h1]⟩

theorem procFrame_trans {w w1 w2 : World} (h1 : ProcFrame w w1) (h2 : ProcFrame w1 w2) :
    ProcFrame w w2 := by
  refine ⟨h2.trace.trans h1.trace, h2.stdout.trans h1.stdout, h2.from_file.trans h1.from_file,
    h2.patch_file.trans h1.patch_file, h2.state_bin.trans h1.state_bin,
    h2.to_capacity.trans h1.to_capacity, h2.state_capacity.trans h1.state_capacity,
    h2.state_writable.trans h1.state_writable, h2.heap.trans h1.heap,
    h2.bufsiz.trans h1.bufsiz, h2.patch_pos.trans h1.patch_pos,
    h2.state_pos.trans h1.state_pos, h2.state_buf.trans h1.state_buf,
    le_trans h1.lost h2.lost, ?_, ?_, fun h => h2.within (h1.within h)⟩
  · rcases h2.to_file with e2 | ⟨a2, e2⟩
    · rcases h1.to_file with e1 | ⟨a1, e1⟩
      · exact Or.inl (e2.trans e1)
      · exact Or.inr ⟨a1, e2.trans e1⟩
    · obtain ⟨a1, e1⟩ := procFrame_data_to h1
      exact Or.inr ⟨a1 ++ a2, by rw [e2, e1, List.append_assoc]⟩
  · intro hl
    have l1 := h1.lost
    have l2 := h2.lost
    obtain ⟨a1, e1⟩ := h1.sent (by omega)
    obtain ⟨a2, e2⟩ := h2.sent (by omega)
    exact ⟨a1 ++ a2, by rw [e2, e1, List.append_assoc]⟩

theorem from_read_frame (n : Nat) (w : World) :
    ∃ r p, from_read n w = .ret r { w with from_pos := p } := by
  unfold from_read
  by_cases hn : n > 0
  · have h0 : n ≠ 0 := by omega
    simp only [hn, ↓reduceIte, bind_apply, fread, h0]
    by_cases hl : (List.take n (List.drop (w.pos .from) (w.data .from))).length = n
    · exact ⟨_, _, by simp only [hl, ↓reduceIte]; rfl⟩
    · exact ⟨_, _, by simp only [hl, ↓reduceIte]; rfl⟩
  · exact ⟨(0, []), w.from_pos, by simp [hn]⟩

theorem from_seek_frame (d : Int) (w : World) :
    ∃ r p, from_seek d w = .ret r { w with from_pos := p } := by
  simp only [from_seek, fseek]
  split
  · exact ⟨_, _, rfl⟩
  · exact ⟨_, w.from_pos, rfl⟩

theorem procFrame_from_pos (w : World) (p : Nat) : ProcFrame w { w with from_pos := p } :=
  { trace := rfl, stdout := rfl, from_file := rfl, patch_file := rfl, state_bin := rfl,
    to_capacity := rfl, state_capacity := rfl, state_writable := rfl, heap := rfl,
    bufsiz := rfl, patch_pos := rfl, state_pos := rfl, state_buf := rfl, lost := le_refl _,
    to_file := Or.inl rfl, sent := fun _ => ⟨[], by simp [World.sent, World.data]⟩,
    within := id }

/-- The three ways a call of `to_write` ends: nothing to write; the stream
accepts the bytes; the stream had to transmit and the medium did not take all
the bytes.  The bytes are counted in `to_offset` in both of the latter. -/
theorem to_write_cases (buf : List Nat) (w : World) :
    (buf.length = 0 ∧ to_write buf w = .ret 0 w) ∨
    (0 < buf.length ∧ w.takes .to buf.length ∧
      to_write buf w = .ret 0
        ({ w with to_offset := w.to_offset + buf.length }.written .to buf)) ∨
    (0 < buf.length ∧ ¬ w.takes .to buf.length ∧
      to_write buf w = .ret (-1)
        ({ w with to_offset := w.to_offset + buf.length }.written .to buf)) := by
  unfold to_write
  by_cases hn : buf.length > 0
  · have h0 : buf.length ≠ 0 := by omega
    simp only [hn, ↓reduceIte, bind_apply, fwrite, h0]
    by_cases hc : w.takes .to buf.length
    · refine Or.inr (Or.inl ⟨trivial, hc, ?_⟩)
      have hc2 : ({ w with to_offset := w.to_offset + buf.length } : World).takes .to
        buf.length := hc
      simp only [hc2, ↓reduceIte]
      rfl
    · refine Or.inr (Or.inr ⟨trivial, hc, ?_⟩)
      have hc2 : ¬ ({ w with to_offset := w.to_offset + buf.length } : World).takes .to
        buf.length := hc
      simp only [hc2, ↓reduceIte]
      rfl
  · exact Or.inl ⟨by omega, by simp [hn]⟩

/-- A write to the output stream that is counted in `to_offset`: what it
leaves untouched. -/
theorem procFrame_written (w : World) (n : Nat) (buf : List Nat) :
    ProcFrame w ({ w with to_offset := n }.written .to buf) := by
  unfold World.written
  simp only [World.buf]
  split
  · exact { trace := rfl, stdout := rfl, from_file := rfl, patch_file := rfl, state_bin := rfl,
            to_capacity := rfl, state_capacity := rfl, state_writable := rfl, heap := rfl,
            bufsiz := rfl, patch_pos := rfl, state_pos := rfl, state_buf := rfl,
            lost := le_refl _, to_file := Or.inl rfl,
            sent := fun _ => ⟨buf, by simp [World.sent, World.setBuf, World.data]⟩,
            within := id }
  · rename_i hbig
    cases hto : w.host.to_file with
    | none =>
      rw [transmit_none { w with to_offset := n } _ _ (by simpa [Host.file] using hto)]
      exact { trace := rfl, stdout := rfl, from_file := rfl, patch_file := rfl,
              state_bin := rfl, to_capacity := rfl, state_capacity := rfl,
              state_writable := rfl, heap := rfl, bufsiz := rfl, patch_pos := rfl,
              state_pos := rfl, state_buf := rfl,
              lost := by simp [World.setBuf], to_file := Or.inl rfl,
              sent := fun h => by
                simp only [World.setBuf, List.length_append] at h hbig
                omega,
              within := id }
    | some d =>
      rw [transmit_to { w with to_offset := n } _ d hto]
      exact { trace := rfl, stdout := rfl, from_file := rfl, patch_file := rfl,
              state_bin := rfl, to_capacity := rfl, state_capacity := rfl,
              state_writable := rfl, heap := rfl, bufsiz := rfl, patch_pos := rfl,
              state_pos := rfl, state_buf := rfl,
              lost := by simp [World.setBuf],
              to_file := Or.inr ⟨(w.to_buf ++ buf).take (w.host.to_capacity - d.length),
                by simp [World.setBuf, World.data, Host.file, hto]⟩,
              sent := fun h => by
                simp only [World.setBuf, List.length_append] at h
                refine ⟨buf, ?_⟩
                have hk : w.to_buf.length + buf.length ≤ w.host.to_capacity - d.length := by
                  omega
                simp only [World.sent, World.setBuf, World.data, Host.file, hto,
                  Option.getD_some, List.append_nil, List.append_assoc]
                rw [List.take_of_length_le (by simpa using hk)],
              within := fun h => by
                obtain ⟨d2, hd2, hlen⟩ := h
                rw [hto] at hd2
                cases hd2
                refine ⟨_, rfl, ?_⟩
                show (d ++ List.take (w.host.to_capacity - d.length) (w.to_buf ++ buf)).length ≤
                  w.host.to_capacity
                simp only [List.length_append, List.length_take]
                omega }

theorem to_write_frame (buf : List Nat) (w : World) :
    ∃ r w1, to_write buf w = .ret r w1 ∧ ProcFrame w w1 := by
  rcases to_write_cases buf w with ⟨_, e⟩ | ⟨_, _, e⟩ | ⟨_, _, e⟩
  · exact ⟨_, _, e, procFrame_refl w⟩
  · exact ⟨_, _, e, procFrame_written w _ buf⟩
  · exact ⟨_, _, e, procFrame_written w _ buf⟩

theorem exec_frame {σ : Type} (p : Prog σ) :
    ∀ w, ∃ r w1, exec p w = .ret r w1 ∧ ProcFrame w w1 := by
  induction p with
  | done res st => intro w; exact ⟨_, _, rfl, procFrame_refl w⟩
  | from_read size k ih =>
    intro w
    obtain ⟨r, p, he⟩ := from_read_frame size w
    obtain ⟨r2, w2, he2, hf2⟩ := ih r.1 r.2 { w with from_pos := p }
    exact ⟨r2, w2, by simp only [exec, bind_apply, he, he2],
      procFrame_trans (procFrame_from_pos w p) hf2⟩
  | from_seek offset k ih =>
    intro w
    obtain ⟨r, p, he⟩ := from_seek_frame offset w
    obtain ⟨r2, w2, he2, hf2⟩ := ih r { w with from_pos := p }
    exact ⟨r2, w2, by simp only [exec, bind_apply, he, he2],
      procFrame_trans (procFrame_from_pos w p) hf2⟩
  | to_write buf k ih =>
    intro w
    obtain ⟨r, w1, he, hf1⟩ := to_write_frame buf w
    obtain ⟨r2, w2, he2, hf2⟩ := ih r w1
    exact ⟨r2, w2, by simp only [exec, bind_apply, he, he2], procFrame_trans hf1 hf2⟩

theorem sound_exec {σ : Type} {S : Event → Prop} (p : Prog σ) : Sound S (exec p) :=
  sound_quiet _ (fun w => by
    obtain ⟨r, w1, he, hf⟩ := exec_frame p w
    exact ⟨r, w1, he, hf.trace⟩)

/-- The three ways a call of `state_write` ends: an empty buffer is reported
as not written; the stream accepts the bytes; the stream had to transmit and
the medium did not take all the bytes. -/
theorem state_write_cases (buf : List Nat) (w : World) :
    (buf.length = 0 ∧ state_write buf w = .ret (-1) w) ∨
    (0 < buf.length ∧ w.takes .state buf.length ∧
      state_write buf w = .ret 0 (w.written .state buf)) ∨
    (0 < buf.length ∧ ¬ w.takes .state buf.length ∧
      state_write buf w = .ret (-1) (w.written .state buf)) := by
  unfold state_write
  by_cases hn : buf.length = 0
  · exact Or.inl ⟨hn, by simp [fwrite, hn]⟩
  · by_cases hc : w.takes .state buf.length
    · exact Or.inr (Or.inl ⟨by omega, hc, by simp [fwrite, hn, hc]⟩)
    · exact Or.inr (Or.inr ⟨by omega, hc, by simp [fwrite, hn, hc]⟩)

/-- A write to the stream of `state.bin` changes the file, the buffer of the
stream and the count of lost bytes, nothing else; a file that exists still
exists. -/
theorem written_state_shape (w : World) (buf : List Nat) :
    ∃ sb b l, w.written .state buf =
        { w with host := { w.host with state_bin := sb }, state_buf := b, lost := l } ∧
      w.lost ≤ l ∧ (w.host.state_bin = none ↔ sb = none) := by
  unfold World.written
  simp only [World.buf]
  split
  · exact ⟨w.host.state_bin, _, w.lost, rfl, le_refl _, Iff.rfl⟩
  · cases hsb : w.host.state_bin with
    | none =>
      rw [transmit_none _ _ _ (by simpa [Host.file] using hsb)]
      refine ⟨none, [], w.lost + (w.state_buf ++ buf).length, ?_, by simp, by simp⟩
      simp only [World.setBuf]
      rw [← hsb]
    | some d =>
      rw [transmit_state _ _ d hsb]
      exact ⟨_, [], w.lost + ((w.state_buf ++ buf).length - (w.host.state_capacity - d.length)),
        rfl, by simp, by simp⟩

theorem state_write_frame (buf : List Nat) (w : World) :
    ∃ r sb b l, state_write buf w =
        .ret r { w with host := { w.host with state_bin := sb }, state_buf := b, lost := l } ∧
      w.lost ≤ l ∧ (w.host.state_bin = none ↔ sb = none) := by
  obtain ⟨sb, b, l, e, hl, hs⟩ := written_state_shape w buf
  rcases state_write_cases buf w with ⟨_, e1⟩ | ⟨_, _, e1⟩ | ⟨_, _, e1⟩
  · exact ⟨_, w.host.state_bin, w.state_buf, w.lost, e1, le_refl _, Iff.rfl⟩
  · exact ⟨_, sb, b, l, by rw [e1, e], hl, hs⟩
  · exact ⟨_, sb, b, l, by rw [e1, e], hl, hs⟩

theorem execDump_frame (p : DumpProg) :
    ∀ w, ∃ r sb b l, execDump p w =
        .ret r { w with host := { w.host with state_bin := sb }, state_buf := b, lost := l } ∧
      w.lost ≤ l ∧ (w.host.state_bin = none ↔ sb = none) := by
  induction p with
  | done res => intro w; exact ⟨res, w.host.state_bin, w.state_buf, w.lost, rfl, le_refl _, Iff.rfl⟩
  | state_write buf k ih =>
    intro w
    obtain ⟨r, sb, b, l, he, hl, hs⟩ := state_write_frame buf w
    obtain ⟨r2, sb2, b2, l2, he2, hl2, hs2⟩ := ih r
      { w with host := { w.host with state_bin := sb }, state_buf := b, lost := l }
    exact ⟨r2, sb2, b2, l2, by simp only [execDump, bind_apply, he, he2], le_trans hl hl2,
      hs.trans hs2⟩

theorem execRestore_frame {σ : Type} (p : RestoreProg σ) :
    ∀ w, ∃ r fp sp, execRestore p w = .ret r { w with from_pos := fp, state_pos := sp } := by
  induction p with
  | done res st => intro w; exact ⟨_, w.from_pos, w.state_pos, rfl⟩
  | state_read size k ih =>
    intro w
    have h1 : ∃ r sp, state_read size w = .ret r { w with state_pos := sp } := by
      simp only [state_read, bind_apply, fread]
      by_cases h0 : size = 0
      · exact ⟨_, w.state_pos, by simp only [h0, ↓reduceIte]; rfl⟩
      · by_cases hl : (List.take size (List.drop (w.pos .state) (w.data .state))).length = size
        · exact ⟨_, _, by simp only [h0, hl, ↓reduceIte]; rfl⟩
        · exact ⟨_, _, by simp only [h0, hl, ↓reduceIte]; rfl⟩
    obtain ⟨r, sp, he⟩ := h1
    obtain ⟨r2, fp2, sp2, he2⟩ := ih r.1 r.2 { w with state_pos := sp }
    exact ⟨r2, fp2, sp2, by simp only [execRestore, bind_apply, he, he2]⟩
  | from_seek offset k ih =>
    intro w
    obtain ⟨r, p, he⟩ := from_seek_frame offset w
    obtain ⟨r2, fp2, sp2, he2⟩ := ih r { w with from_pos := p }
    exact ⟨r2, fp2, sp2, by simp only [execRestore, bind_apply, he, he2]⟩

theorem sound_execRestore {σ : Type} {S : Event → Prop} (p : RestoreProg σ) :
    Sound S (execRestore p) :=
  sound_quiet _ (fun w => by
    obtain ⟨r, fp, sp, he⟩ := execRestore_frame p w
    exact ⟨r, _, he, rfl⟩)

theorem sound_ftruncate {S : Event → Prop} (hS : ∀ n, S (.ftruncate n)) :
    Sound S (fun w => ftruncate_to w.to_offset w) := by
  intro w
  exact ⟨⟨[.ftruncate w.to_offset], rfl, by simpa using hS _⟩, by simp [ftruncate_to]⟩

theorem sound_restore {S : Event → Prop} (h1 : S .remove_state) (h2 : ∀ n, S (.ftruncate n))
    (h3 : ∀ r, S (.restore r)) (E : Engine) (st : E.σ) : Sound S (restore E st) := by
  unfold restore detools_apply_patch_restore
  repeat' first
    | exact sound_clean_and_exit h1
    | exact sound_printf _
    | exact sound_pure _
    | exact sound_fopen _ _
    | exact sound_fclose _
    | exact sound_execRestore _
    | exact sound_ftruncate h2
    | exact sound_log _ (h3 _)
    | exact sound_fun _ _ (fun _ => rfl)
    | apply sound_bind
    | apply sound_ite
    | intro _

theorem sound_process {S : Event → Prop} (h : ∀ n r, S (.process n r)) (E : Engine)
    (st : E.σ) (buf : List Nat) : Sound S (detools_apply_patch_process E st buf) := by
  unfold detools_apply_patch_process
  repeat' first
    | exact sound_pure _
    | exact sound_exec _
    | exact sound_log _ (h _ _)
    | apply sound_bind
    | intro _

theorem sound_main_begin (E : Engine) (argv : List CStr) :
    Sound Event.early (main_begin E argv) := by
  unfold main_begin detools_apply_patch_init
  repeat' first
    | exact sound_clean_and_exit trivial
    | exact sound_printf _
    | exact sound_pure _
    | exact sound_parse_args trivial _
    | exact sound_get_file_size trivial _
    | exact sound_read_file trivial _ _ _
    | exact sound_restore trivial (fun _ => trivial) (fun _ => trivial) _ _
    | exact sound_process (fun _ _ => trivial) _ _ _
    | exact sound_log _ trivial
    | apply sound_bind
    | apply sound_ite
    | intro _

theorem sound_main_after_dump {S : Event → Prop} (h1 : S .remove_state)
    (h : ∀ n r, S (.process n r)) (E : Engine) (v : Locals E) :
    Sound S (main_after_dump E v) := by
  unfold main_after_dump
  repeat' first
    | exact sound_clean_and_exit h1
    | exact sound_printf _
    | exact sound_pure _
    | exact sound_read_file h1 _ _ _
    | exact sound_process h _ _ _
    | apply sound_bind
    | apply sound_ite
    | intro _

theorem to_int_range (i : Int) : -2 ^ 31 ≤ to_int i ∧ to_int i < 2 ^ 31 := by
  unfold to_int
  omega

theorem to_int_of_lt (n : Nat) (h : n < 2 ^ 31) : to_int (n : Int) = (n : Int) := by
  unfold to_int
  omega

theorem atoi_range (s : String) : -2 ^ 31 ≤ atoi s ∧ atoi s < 2 ^ 31 := by
  unfold atoi
  exact to_int_range _

theorem to_size_t_nonneg (i : Int) (h0 : 0 ≤ i) (h1 : i < 2 ^ 64) : to_size_t i = i.toNat := by
  unfold to_size_t
  omega

theorem to_size_t_neg (i : Int) (h0 : i < 0) (h1 : -2 ^ 31 ≤ i) : PTRDIFF_MAX < to_size_t i := by
  unfold to_size_t PTRDIFF_MAX
  omega

theorem open_file_rb (f : Handle) (w : World) :
    (∃ d, w.host.file f = some d ∧
      open_file f .rb w = .ret () ((w.setPos f 0).setBuf f [])) ∨
    (w.host.file f = none ∧ ∃ wx, open_file f .rb w = .exit 1 wx) := by
  cases h : w.host.file f with
  | none => exact Or.inr ⟨rfl, _, by simp [open_file, fopen, h]; rfl⟩
  | some d => exact Or.inl ⟨d, rfl, by simp [open_file, fopen, h]⟩

theorem open_file_ab (f : Handle) (w : World) :
    (∃ d, w.host.file f = some d ∧ open_file f .ab w = .ret () (w.setBuf f [])) ∨
    (w.host.file f = none ∧ ∃ wx, open_file f .ab w = .exit 1 wx) := by
  cases h : w.host.file f with
  | none => exact Or.inr ⟨rfl, _, by simp [open_file, fopen, h]; rfl⟩
  | some d => exact Or.inl ⟨d, rfl, by simp [open_file, fopen, h]⟩

theorem open_file_wb (f : Handle) (w : World) :
    (w.host.state_writable = true ∧
      open_file f .wb w = .ret () (((w.setData f []).setPos f 0).setBuf f [])) ∨
    (w.host.state_writable = false ∧ ∃ wx, open_file f .wb w = .exit 1 wx) := by
  cases h : w.host.state_writable with
  | false => exact Or.inr ⟨rfl, _, by simp [open_file, fopen, h]; rfl⟩
  | true => exact Or.inl ⟨rfl, by simp [open_file, fopen, h]⟩

theorem parse_non_negative_integer_apply (value_p : CStr) (w : World) :
    parse_non_negative_integer value_p w = .ret (atoi value_p.text) w := by
  have h : ¬ ((value_p.addr : Int) < 0) := by omega
  simp [parse_non_negative_integer, h]

/-- The world after a successful `parse_args`. -/
theorem parse_args_cases (argv : List CStr) (w : World) :
    (argv.length = 6 ∧ (∃ d, w.host.from_file = some d) ∧ (∃ d, w.host.patch_file = some d) ∧
      (∃ d, w.host.to_file = some d) ∧
      parse_args argv w =
        .ret (atoi (argv.getD 4 ⟨0, ""⟩).text, atoi (argv.getD 5 ⟨0, ""⟩).text)
          { w with from_pos := 0, patch_pos := 0, to_buf := [] }) ∨
    ∃ wx, parse_args argv w = .exit 1 wx := by
  unfold parse_args
  by_cases hl : argv.length = 6
  · simp only [hl, ne_eq, not_true_eq_false, ↓reduceIte, bind_apply, pure_apply]
    rcases open_file_rb .from w with ⟨d1, h1, e1⟩ | ⟨_, wx, e1⟩
    · simp only [e1]
      rcases open_file_rb .patch ((w.setPos .from 0).setBuf .from []) with
        ⟨d2, h2, e2⟩ | ⟨_, wx, e2⟩
      · simp only [e2]
        rcases open_file_ab .to
          ((((w.setPos .from 0).setBuf .from []).setPos .patch 0).setBuf .patch []) with
          ⟨d3, h3, e3⟩ | ⟨_, wx, e3⟩
        · simp only [e3, parse_non_negative_integer_apply]
          refine Or.inl ⟨trivial, ⟨d1, ?_⟩, ⟨d2, ?_⟩, ⟨d3, ?_⟩, rfl⟩
          · exact h1
          · exact h2
          · exact h3
        · simp only [e3]
          exact Or.inr ⟨wx, rfl⟩
      · simp only [e2]
        exact Or.inr ⟨wx, rfl⟩
    · simp only [e1]
      exact Or.inr ⟨wx, rfl⟩
  · exact Or.inr ⟨_, by simp [hl, print_usage_and_exit]; rfl⟩

theorem pos_setPos (w : World) (f : Handle) (p : Nat) (hf : f ≠ .to) :
    (w.setPos f p).pos f = p := by
  cases f <;> simp_all [World.setPos, World.pos]

theorem data_setPos (w : World) (f g : Handle) (p : Nat) :
    (w.setPos f p).data g = w.data g := by
  cases f <;> rfl

theorem setPos_setPos (w : World) (f : Handle) (p q : Nat) :
    (w.setPos f p).setPos f q = w.setPos f q := by
  cases f <;> rfl

theorem get_file_size_cases (f : Handle) (w : World) (hf : f ≠ .to) :
    (0 < (w.data f).length ∧
      get_file_size f w = .ret (w.data f).length (w.setPos f 0)) ∨
    ((w.data f).length = 0 ∧ ∃ wx, get_file_size f w = .exit 1 wx) := by
  unfold get_file_size
  simp only [bind_apply, fseek_end_apply, fseek_set_apply, ite_app, ftell_apply, pure_apply,
    pos_setPos _ _ _ hf, data_setPos, ne_eq, not_true_eq_false, ↓reduceIte, le_refl,
    setPos_setPos, Int.toNat_zero]
  by_cases h0 : (w.data f).length = 0
  · exact Or.inr ⟨h0, _, by simp [h0]; rfl⟩
  · refine Or.inl ⟨by omega, ?_⟩
    have h1 : ¬ (((w.data f).length : Int) ≤ 0) := by omega
    simp [h1]

theorem read_file_cases (f : Handle) (offset size : Int) (w : World) (hf : f ≠ .to) :
    (read_file_ok f offset size w ∧
      read_file f offset size w =
        .ret (((w.data f).drop offset.toNat).take (to_size_t size))
          (w.setPos f (offset.toNat + to_size_t size))) ∨
    (¬ read_file_ok f offset size w ∧ ∃ wx, read_file f offset size w = .exit 1 wx) := by
  unfold read_file read_file_ok
  simp only [bind_apply, ite_app, malloc_apply, fseek_set_apply, pure_apply]
  by_cases hm : to_size_t size ≤ w.host.heap ∧ to_size_t size ≤ PTRDIFF_MAX
  · by_cases ho : 0 ≤ offset
    · by_cases hn : 0 < to_size_t size
      · by_cases hfit : offset.toNat + to_size_t size ≤ (w.data f).length
        · refine Or.inl ⟨⟨hm.1, hm.2, ho, hn, hfit⟩, ?_⟩
          have e := fread_full f (w.setPos f offset.toNat) (to_size_t size) hn
            (by rw [pos_setPos _ _ _ hf, data_setPos]; exact hfit)
          simp [hm, ho, e, pos_setPos _ _ _ hf, data_setPos, setPos_setPos]
        · refine Or.inr ⟨fun h => hfit h.2.2.2.2, ?_⟩
          obtain ⟨buf, p, e, _⟩ := fread_short f (w.setPos f offset.toNat) (to_size_t size)
            (Or.inr (by rw [pos_setPos _ _ _ hf, data_setPos]; omega))
          exact ⟨_, by simp [hm, ho, e]; rfl⟩
      · refine Or.inr ⟨fun h => hn h.2.2.2.1, ?_⟩
        have h0 : to_size_t size = 0 := by omega
        exact ⟨_, by simp [hm, ho, h0]; rfl⟩
    · exact Or.inr ⟨fun h => ho h.2.2.1, _, by simp [hm, ho]; rfl⟩
  · exact Or.inr ⟨fun h => hm ⟨h.1, h.2.1⟩, _, by simp [hm]; rfl⟩

@[simp] theorem ftruncate_to_apply (n : Nat) (w : World) :
    ftruncate_to n w = .ret () (w.truncated n) := rfl

theorem restore_none (E : Engine) (st : E.σ) (w : World) (h : w.host.state_bin = none) :
    restore E st w = .ret (st, 0)
      ({ w with stdout := w.stdout ++ ["No state to restore.\n"],
                to_offset := 0 }.truncated 0) := by
  simp [restore, fopen, Host.file, h]

theorem restore_some (E : Engine) (st : E.σ) (w : World) (d : List Nat)
    (h : w.host.state_bin = some d) (r : Int) (st1 : E.σ) (w2 : World)
    (he : execRestore (E.restore st) w.restoring = .ret (r, st1) w2) :
    (r = 0 → restore E st w = .ret (st1, to_int (E.get_patch_offset st1))
      (w2.restored (E.get_to_offset st1))) ∧
    (r ≠ 0 → restore E st w = .exit 1
      { (w2.log (.restore r)) with
          stdout := w2.stdout ++ ["error: Restore failed.\n"] }.removed.flushed) := by
  have hbuf : w2.state_buf = [] := by
    obtain ⟨r1, fp, sp, hfr⟩ := execRestore_frame (E.restore st) w.restoring
    rw [hfr] at he
    cases he
    rfl
  simp only [World.restoring] at he
  constructor
  · intro hr
    subst hr
    simp [restore, fopen, Host.file, h, World.setPos, World.setBuf, detools_apply_patch_restore,
      he, DETOOLS_OK, World.flush, World.buf, World.restored, World.log, hbuf]
  · intro hr
    simp [restore, fopen, Host.file, h, World.setPos, World.setBuf, detools_apply_patch_restore,
      he, DETOOLS_OK, hr]
    rfl

theorem main_begin_ret (E : Engine) (argv : List CStr) (w0 : World) (v : Locals E) (w1 : World)
    (h : main_begin E argv w0 = .ret v w1) :
    ∃ wa wb st0 str wr wp,
      parse_args argv w0 = .ret (v.size, v.size_after_dump) wa ∧
      get_file_size .patch wa = .ret v.patch_size wb ∧
      E.init v.patch_size = (0, st0) ∧
      restore E st0 (wb.log (.init 0)) = .ret (str, v.offset) wr ∧
      read_file .patch v.offset v.size
        { wr with stdout := wr.stdout ++
            ["Processing %d byte(s) patch data starting at offset %d.\n"] } =
          .ret v.patch_buf wp ∧
      detools_apply_patch_process E str v.patch_buf wp = .ret (v.res, v.apply_patch) w1 ∧
      0 ≤ v.res := by
  cases h1 : parse_args argv w0 with
  | exit c wx => simp [main_begin, h1] at h
  | ret args wa =>
    cases h2 : get_file_size .patch wa with
    | exit c wx => simp [main_begin, h1, h2] at h
    | ret P wb =>
      by_cases h3 : (E.init P).1 = 0
      · cases h4 : restore E (E.init P).2 (wb.log (.init 0)) with
        | exit c wx => simp [main_begin, h1, h2, h3, detools_apply_patch_init, h4] at h
        | ret s wr =>
          cases h5 : read_file .patch s.2 args.1
              { wr with stdout := wr.stdout ++
                ["Processing %d byte(s) patch data starting at offset %d.\n"] } with
          | exit c wx => simp [main_begin, h1, h2, h3, detools_apply_patch_init, h4, h5] at h
          | ret buf wp =>
            cases h6 : detools_apply_patch_process E s.1 buf wp with
            | exit c wx =>
              simp [main_begin, h1, h2, h3, detools_apply_patch_init, h4, h5, h6] at h
            | ret r w2 =>
              by_cases h7 : r.1 < 0
              · simp [main_begin, h1, h2, h3, detools_apply_patch_init, h4, h5, h6, h7] at h
              · simp [main_begin, h1, h2, h3, detools_apply_patch_init, h4, h5, h6, h7] at h
                obtain ⟨hv, hw⟩ := h
                subst hv hw
                refine ⟨wa, wb, (E.init P).2, s.1, wr, wp, rfl, h2, ?_, h4, h5, h6, ?_⟩
                · exact Prod.ext h3 rfl
                · simpa using h7
      · simp [main_begin, h1, h2, h3, detools_apply_patch_init] at h

theorem dump_cases (E : Engine) (st : E.σ) (o : Int) (w : World) :
    (∃ wd, execDump (E.dump st) w.dumping = .ret 0 wd ∧
      dump E st o w = .ret () (wd.flush .state)) ∨
    (∃ wx, dump E st o w = .exit 1 wx ∧ wx.trace = w.trace ++ [.dump, .remove_state]) := by
  cases hw : w.host.state_writable with
  | false =>
    refine Or.inr ⟨_, by simp [dump, open_file, fopen, World.log, hw]; rfl, ?_⟩
    simp [World.removed]
  | true =>
    have hopen : (((({ (w.log .dump) with stdout := w.stdout ++
        ["Storing state in 'state.bin'.\n"] } : World).setData .state []).setPos .state 0).setBuf
        .state []) = w.dumping := rfl
    obtain ⟨r, sb, b, l, he, _⟩ := execDump_frame (E.dump st) w.dumping
    by_cases hr : r = 0
    · subst hr
      refine Or.inl ⟨_, he, ?_⟩
      simp only [World.log] at hopen
      simp [dump, open_file, fopen, World.log, hw, hopen, detools_apply_patch_dump, he,
        DETOOLS_OK]
    · simp only [World.log] at hopen
      refine Or.inr ⟨_, by simp [dump, open_file, fopen, World.log, hw, hopen,
        detools_apply_patch_dump, he, DETOOLS_OK, hr]; rfl, ?_⟩
      simp [World.removed, World.dumping]

theorem process_apply (E : Engine) (st : E.σ) (buf : List Nat) (w : World) :
    ∃ r w2, exec (E.process st buf) w = .ret r w2 ∧ ProcFrame w w2 ∧
      detools_apply_patch_process E st buf w = .ret r (w2.log (.process buf.length r.1)) := by
  obtain ⟨r, w2, he, hf⟩ := exec_frame (E.process st buf) w
  exact ⟨r, w2, he, hf, by simp [detools_apply_patch_process, he]⟩

theorem finalize_apply (E : Engine) (st : E.σ) (w : World) :
    ∃ r w2, exec (E.finalize st) w = .ret r w2 ∧ ProcFrame w w2 ∧
      detools_apply_patch_finalize E st w = .ret r (w2.log (.finalize r.1)) := by
  obtain ⟨r, w2, he, hf⟩ := exec_frame (E.finalize st) w
  exact ⟨r, w2, he, hf, by simp [detools_apply_patch_finalize, he]⟩

theorem main_after_dump_cases (E : Engine) (v : Locals E) (w : World) :
    (¬ 0 < v.size_after_dump ∧ main_after_dump E v w = .ret v.res w) ∨
    (0 < v.size_after_dump ∧ ∃ wx, main_after_dump E v w = .exit 1 wx) ∨
    (0 < v.size_after_dump ∧ ∃ buf wp r w2,
      read_file .patch (v.offset + v.size) v.size_after_dump w.announced = .ret buf wp ∧
      exec (E.process v.apply_patch buf) wp = .ret r w2 ∧ ProcFrame wp w2 ∧ 0 ≤ r.1 ∧
      main_after_dump E v w = .ret r.1 (w2.log (.process buf.length r.1))) := by
  by_cases hs : 0 < v.size_after_dump
  · refine Or.inr ?_
    rcases read_file_cases .patch (v.offset + v.size) v.size_after_dump w.announced
      (by decide) with ⟨_, e1⟩ | ⟨_, wx, e1⟩
    · obtain ⟨r, w2, he, hf, e2⟩ := process_apply E v.apply_patch
        (List.take (to_size_t v.size_after_dump)
          (List.drop (v.offset + v.size).toNat (w.announced.data Handle.patch)))
        (w.announced.setPos Handle.patch ((v.offset + v.size).toNat +
          to_size_t v.size_after_dump))
      by_cases hr : r.1 < 0
      · refine Or.inl ⟨hs, ?_⟩
        simp only [main_after_dump, gt_iff_lt, hs, ↓reduceIte, bind_apply, printf_apply]
        rw [show ({ w with stdout := w.stdout ++
          ["Processing %d byte(s) patch data after dump starting at offset %d.\n"] } : World) =
          w.announced from rfl, e1]
        simp only [e2, hr, ↓reduceIte, ite_app, bind_apply, printf_apply, clean_and_exit_apply]
        exact ⟨_, rfl⟩
      · refine Or.inr ⟨hs, _, _, r, w2, e1, he, hf, by omega, ?_⟩
        simp only [main_after_dump, gt_iff_lt, hs, ↓reduceIte, bind_apply, printf_apply]
        rw [show ({ w with stdout := w.stdout ++
          ["Processing %d byte(s) patch data after dump starting at offset %d.\n"] } : World) =
          w.announced from rfl, e1]
        simp only [e2, hr, ↓reduceIte, ite_app, bind_apply, pure_apply]
    · refine Or.inl ⟨hs, wx, ?_⟩
      simp only [main_after_dump, gt_iff_lt, hs, ↓reduceIte, bind_apply, printf_apply]
      rw [show ({ w with stdout := w.stdout ++
        ["Processing %d byte(s) patch data after dump starting at offset %d.\n"] } : World) =
        w.announced from rfl, e1]
  · exact Or.inl ⟨hs, by simp [main_after_dump, hs]⟩

theorem main_end_finalize (E : Engine) (v : Locals E) (w1 : World)
    (hc : to_size_t (v.offset + v.size) = v.patch_size) :
    ∃ r w2, exec (E.finalize v.apply_patch) w1 = .ret r w2 ∧ ProcFrame w1 w2 ∧
      ((r.1 < 0 ∧ ∃ wx, main_end E v w1 = .exit 1 wx ∧
          wx.trace = w1.trace ++ [.finalize r.1, .remove_state]) ∨
       (0 ≤ r.1 ∧ main_end E v w1 = .ret 0 (w2.applied r.1))) := by
  obtain ⟨r, w2, he, hf, e⟩ := finalize_apply E v.apply_patch w1
  refine ⟨r, w2, he, hf, ?_⟩
  by_cases hr : r.1 < 0
  · refine Or.inl ⟨hr, ?_⟩
    simp only [main_end, hc, ↓reduceIte, bind_apply, e, hr, ite_app, printf_apply,
      clean_and_exit_apply]
    exact ⟨_, rfl, by simp [World.removed, World.log, hf.trace]⟩
  · refine Or.inr ⟨by omega, ?_⟩
    simp only [main_end, hc, ↓reduceIte, bind_apply, e, hr, ite_app, printf_apply,
      remove_state_apply, pure_apply, fclose_apply, flush_from, flush_patch]
    rfl

theorem applied_trace (w1 w2 : World) (r : Int) (hf : ProcFrame w1 w2) :
    (w2.applied r).trace = w1.trace ++ [.finalize r, .remove_state] := by
  simp [World.applied, World.removed, World.log, hf.trace]

theorem main_end_dump (E : Engine) (v : Locals E) (w1 : World)
    (hc : to_size_t (v.offset + v.size) ≠ v.patch_size) :
    (∃ wx t, main_end E v w1 = .exit 1 wx ∧ wx.trace = w1.trace ++ .dump :: t ∧
        ∀ e ∈ t, e.early) ∨
    (∃ wd r wf, execDump (E.dump v.apply_patch) w1.dumping = .ret 0 wd ∧
        wd.trace = w1.trace ++ [.dump] ∧
        main_after_dump E v (wd.flush .state) = .ret r wf ∧
        main_end E v w1 = .ret r (wf.flush .to)) := by
  rcases dump_cases E v.apply_patch (v.offset + v.size) w1 with ⟨wd, he, e1⟩ | ⟨wx, e1, ht⟩
  · have hwdt : wd.trace = w1.trace ++ [.dump] := by
      obtain ⟨r, sb, b, l, hfr, _⟩ := execDump_frame (E.dump v.apply_patch) w1.dumping
      rw [hfr] at he
      cases he
      rfl
    cases h2 : main_after_dump E v (wd.flush .state) with
    | ret r wf =>
      refine Or.inr ⟨wd, r, wf, he, hwdt, h2, ?_⟩
      simp only [main_end, hc, ↓reduceIte, bind_apply, e1, h2, fclose_apply, pure_apply,
        flush_from, flush_patch]
    | exit c wx =>
      obtain ⟨⟨t, ht, hS⟩, hx⟩ := sound_main_after_dump (S := Event.early) trivial
        (fun _ _ => trivial) E v (wd.flush .state)
      rw [h2] at ht
      obtain ⟨hc1, _⟩ := hx c wx h2
      subst hc1
      refine Or.inl ⟨wx, t, ?_, ?_, hS⟩
      · simp only [main_end, hc, ↓reduceIte, bind_apply, e1, h2]
      · simpa [Run.world, hwdt] using ht
  · refine Or.inl ⟨wx, [.remove_state], ?_, by simpa using ht, ?_⟩
    · simp only [main_end, hc, ↓reduceIte, bind_apply, e1]
    · intro e he
      simp at he
      subst he
      trivial

/-! ## C6: `from_read` -/

/-- C6: `from_read` returns 0 exactly when `n = 0` or `n` bytes remain at the
cursor `p`; with result 0 and `n > 0` the buffer holds the `n` source bytes at
`p .. p+n-1` and the cursor becomes `p + n`; with `n = 0` nothing is read and
the world is unchanged; any other result is -1. -/
theorem from_read_exact (w : World) (n : Nat) :
    ∃ res buf w1, from_read n w = .ret (res, buf) w1 ∧
      (res = 0 ↔ (n = 0 ∨ w.from_pos + n ≤ (w.data .from).length)) ∧
      (res = 0 ∨ res = -1) ∧
      (res = 0 → 0 < n →
        buf.length = n ∧ (∀ i, i < n → buf[i]? = (w.data .from)[w.from_pos + i]?) ∧
        w1 = { w with from_pos := w.from_pos + n }) ∧
      (n = 0 → w1 = w) := by
  by_cases hn : n = 0
  · subst hn
    exact ⟨0, [], w, by simp [from_read], by simp, by simp, by simp, fun _ => rfl⟩
  · have hpos : 0 < n := Nat.pos_of_ne_zero hn
    by_cases hfit : w.from_pos + n ≤ (w.data .from).length
    · refine ⟨0, _, _, by simp only [from_read, gt_iff_lt, hpos, ↓reduceIte, bind_apply,
        fread_full .from w n hpos hfit]; rfl, by simp [hfit], by simp, ?_,
        fun h0 => absurd h0 hn⟩
      intro _ _
      refine ⟨?_, ?_, rfl⟩
      · simp [World.pos]; omega
      · intro i hi
        simp [World.pos, List.getElem?_take, hi]
    · obtain ⟨buf, p, he, _⟩ :=
        fread_short .from w n (Or.inr (by simp [World.pos]; omega))
      refine ⟨-1, buf, w.setPos .from p, ?_, by simp [hfit, hn], by simp, by simp,
        fun h0 => absurd h0 hn⟩
      simp only [from_read, gt_iff_lt, hpos, ↓reduceIte, bind_apply, he]
      rfl

/-! ## C7: `from_seek` -/

/-- C7, the claim as stated fails: on a 3 byte source with the cursor at 0,
`from_seek(5)` targets position 5 > 3 and still returns 0, leaving the cursor
at 5. -/
theorem from_seek_past_end_succeeds :
    ((World.boot { host0 with from_file := some [1, 2, 3] }).data .from).length <
        (World.boot { host0 with from_file := some [1, 2, 3] }).from_pos + 5 ∧
      from_seek 5 (World.boot { host0 with from_file := some [1, 2, 3] }) =
        .ret 0 { World.boot { host0 with from_file := some [1, 2, 3] } with from_pos := 5 } := by
  decide!

/-- C7, amended: with the cursor at `p`, `from_seek d` returns 0 and moves the
cursor to `p + d` whenever `0 ≤ p + d`, also beyond the end of the source; it
returns the non-zero value -1 and leaves the cursor where it was when
`p + d < 0`. -/
theorem from_seek_relative (w : World) (d : Int) :
    (0 ≤ (w.from_pos : Int) + d →
      from_seek d w = .ret 0 { w with from_pos := ((w.from_pos : Int) + d).toNat }) ∧
    ((w.from_pos : Int) + d < 0 → from_seek d w = .ret (-1) w) := by
  constructor
  · intro h
    simp [from_seek, fseek, World.pos, World.setPos, h]
  · intro h
    have h2 : ¬ (0 ≤ (w.from_pos : Int) + d) := by omega
    simp [from_seek, fseek, World.pos, h2]

/-! ## C8: `read_file` -/

/-- C8, failing input: with `size = 0` the read of a chunk never returns a
buffer: `fread(buf_p, 0, 1, file_p)` returns 0, not 1.  For every file, offset
and world `read_file` exits with status 1; on the patch `[1,2,3,4,5,6]`,
offset 0, it prints "Read failed", and `main ... 0 3` exits with status 1
before any patch data is processed. -/
theorem read_file_size_zero_exits :
    (∀ (f : Handle) (offset : Int) (w : World),
        ∃ w1, read_file f offset 0 w = .exit 1 w1) ∧
      (read_file .patch 0 0 (World.boot host0)).world.stdout =
        ["error: Read failed.\n", "Removing state 'state.bin'.\n"] ∧
      (main addEngine (argv0 "0" "3") (World.boot host0)).status = 1 ∧
      (main addEngine (argv0 "0" "3") (World.boot host0)).world.trace =
        [.init 0, .ftruncate 0, .remove_state] := by
  refine ⟨?_, by decide!, by decide!, by decide!⟩
  intro f offset w
  have h0 : to_size_t 0 = 0 := by decide
  simp only [read_file, h0, bind_apply, ite_app, malloc_apply, fseek_set_apply]
  by_cases hs : (0 : Int) ≤ offset
  · simp [hs]
  · simp [hs]

/-! ## C9: `parse_non_negative_integer` -/

/-- C9, failing input: the test is made on the pointer `value_p`, not on the
value, so nothing is rejected: for every argument the function returns
`atoi` of its text with the world untouched, and for the text "-1" it returns
-1; `main ... -1 3` then asks `read_file` for `(size_t)-1` bytes. -/
theorem parse_non_negative_integer_accepts_negative :
    (∀ (value_p : CStr) (w : World),
        parse_non_negative_integer value_p w = .ret (atoi value_p.text) w) ∧
      (∀ (addr : Nat) (w : World),
        parse_non_negative_integer ⟨addr, "-1"⟩ w = .ret (-1) w) ∧
      (parse_args (argv0 "-1" "-3") (World.boot host0)) =
        .ret (-1, -3) (World.boot host0) := by
  have key : ∀ (value_p : CStr) (w : World),
      parse_non_negative_integer value_p w = .ret (atoi value_p.text) w := by
    intro value_p w
    have h : ¬ ((value_p.addr : Int) < 0) := by omega
    simp [parse_non_negative_integer, h]
  refine ⟨key, ?_, by decide!⟩
  intro addr w
  rw [key]
  have : atoi "-1" = -1 := by decide
  simp [this]

theorem restore_cases (E : Engine) (st : E.σ) (w : World) :
    (w.host.state_bin = none ∧
      restore E st w = .ret (st, 0)
        ({ w with stdout := w.stdout ++ ["No state to restore.\n"],
                  to_offset := 0 }.truncated 0)) ∨
    (∃ d r w2, w.host.state_bin = some d ∧
      execRestore (E.restore st) w.restoring = .ret r w2 ∧
      ((r.1 = 0 ∧ restore E st w = .ret (r.2, to_int (E.get_patch_offset r.2))
          (w2.restored (E.get_to_offset r.2))) ∨
       (r.1 ≠ 0 ∧ restore E st w = .exit 1
          { (w2.log (.restore r.1)) with
              stdout := w2.stdout ++ ["error: Restore failed.\n"] }.removed.flushed))) := by
  cases h : w.host.state_bin with
  | none => exact Or.inl ⟨rfl, restore_none E st w h⟩
  | some d =>
    obtain ⟨r, fp, sp, he⟩ := execRestore_frame (E.restore st) w.restoring
    have hs := restore_some E st w d h r.1 r.2 _ he
    refine Or.inr ⟨d, r, _, rfl, he, ?_⟩
    by_cases hr : r.1 = 0
    · exact Or.inl ⟨hr, hs.1 hr⟩
    · exact Or.inr ⟨hr, hs.2 hr⟩

theorem restored_trace (w w2 : World) (n : Nat) (h : w2.trace = w.trace) :
    (w2.restored n).trace = w.trace ++ [.restore 0, .ftruncate n] := by
  simp [World.restored, World.truncated, World.log, World.setData, h]

theorem execRestore_trace {σ : Type} (p : RestoreProg σ) (w : World) (r : Int × σ) (w2 : World)
    (h : execRestore p w = .ret r w2) : w2.trace = w.trace ∧ w2.host = w.host := by
  obtain ⟨r1, fp, sp, he⟩ := execRestore_frame p w
  rw [he] at h
  cases h
  exact ⟨rfl, rfl⟩

/-! ## C3: order of `ftruncate` and the engine's restore -/

/-- C3, the claim as stated fails: resuming on `host1`, where `state.bin`
exists, the engine's restore is called first and the `ftruncate` of the output
file follows it. -/
theorem truncation_follows_restore_example :
    host1.state_bin = some [6, 2, 2, 2] ∧
      (main addEngine (argv0 "4" "0") (World.boot host1)).world.trace =
        [.init 0, .restore 0, .ftruncate 2, .process 4 0, .finalize 6, .remove_state] ∧
      ¬ truncatesBeforeRestore
        (main addEngine (argv0 "4" "0") (World.boot host1)).world.trace := by
  decide!

/-- C3, amended: when `state.bin` exists, `restore()` first calls
`detools_apply_patch_restore`; if that succeeds it then trims the output file
with `ftruncate` to the to-offset of the restored engine, and these are its
only two events; if the engine's restore fails there is no `ftruncate` at all
before the exit. -/
theorem restore_then_truncate (E : Engine) (st : E.σ) (w : World) (d : List Nat)
    (h : w.host.state_bin = some d) :
    match restore E st w with
    | .ret r w1 =>
      w1.trace = w.trace ++ [.restore 0, .ftruncate (E.get_to_offset r.1)] ∧
      w1.data .to = (w.data .to).take (E.get_to_offset r.1) ++
        List.replicate (E.get_to_offset r.1 - (w.data .to).length) 0
    | .exit _ w1 => ∃ res, res ≠ 0 ∧ w1.trace = w.trace ++ [.restore res, .remove_state] := by
  rcases restore_cases E st w with ⟨hn, _⟩ | ⟨d2, r, w2, _, he, ⟨hr, e⟩ | ⟨hr, e⟩⟩
  · rw [h] at hn
    cases hn
  · obtain ⟨ht, hh⟩ := execRestore_trace _ _ _ _ he
    rw [e]
    refine ⟨restored_trace w.restoring w2 _ ht, ?_⟩
    simp [World.restored, World.truncated, World.log, World.setData, World.data, Host.setFile,
      Host.file, hh, World.restoring]
  · obtain ⟨ht, hh⟩ := execRestore_trace _ _ _ _ he
    rw [e]
    exact ⟨r.1, hr, by simp [World.removed, World.log, ht, World.restoring]⟩

theorem restore_then_truncate_witness :
    (World.boot host1).host.state_bin = some [6, 2, 2, 2] ∧
      match restore addEngine ⟨6, 0, 0, 0⟩ (World.boot host1) with
      | .ret r w1 =>
        w1.trace = (World.boot host1).trace ++
          [.restore 0, .ftruncate (addEngine.get_to_offset r.1)] ∧
        w1.data .to = ((World.boot host1).data .to).take (addEngine.get_to_offset r.1) ++
          List.replicate (addEngine.get_to_offset r.1 - ((World.boot host1).data .to).length) 0
      | .exit _ w1 =>
        ∃ res, res ≠ 0 ∧ w1.trace = (World.boot host1).trace ++ [.restore res, .remove_state] :=
  ⟨rfl, restore_then_truncate addEngine ⟨6, 0, 0, 0⟩ (World.boot host1) [6, 2, 2, 2] rfl⟩

/-! ## C4: `to_offset` and the length of the output file -/

/-- The bytes handed to the output stream after a write the stream accepted. -/
theorem written_sent (w : World) (buf d : List Nat) (hd : w.host.to_file = some d)
    (ht : w.takes .to buf.length) :
    (w.written .to buf).sent = w.sent ++ buf ∧ (w.written .to buf).lost = w.lost ∧
      (w.written .to buf).to_offset = w.to_offset := by
  unfold World.written
  simp only [World.buf]
  split
  · exact ⟨by simp [World.sent, World.setBuf, World.data], rfl, rfl⟩
  · rename_i hbig
    have hfit : d.length + (w.to_buf.length + buf.length) ≤ w.host.to_capacity := by
      rcases ht with h1 | h1
      · exact absurd h1 hbig
      · simpa [World.data, Host.file, hd, World.buf, World.capacity] using h1
    rw [transmit_to _ _ d hd]
    have hk : (w.to_buf ++ buf).length ≤ w.host.to_capacity - d.length := by
      simp only [List.length_append]
      omega
    refine ⟨?_, ?_, rfl⟩
    · simp only [World.sent, World.setBuf, World.data, Host.file, hd, Option.getD_some,
        List.append_nil, List.append_assoc]
      rw [List.take_of_length_le hk]
    · simp only [World.setBuf]
      omega

theorem restore_offset_range (E : Engine) (st : E.σ) (w : World) (r : E.σ × Int) (w1 : World)
    (h : restore E st w = .ret r w1) : -2 ^ 31 ≤ r.2 ∧ r.2 < 2 ^ 31 := by
  rcases restore_cases E st w with ⟨_, e⟩ | ⟨d, r2, w2, _, _, ⟨_, e⟩ | ⟨_, e⟩⟩
  · rw [e] at h
    cases h
    exact ⟨by norm_num, by norm_num⟩
  · rw [e] at h
    cases h
    exact to_int_range _
  · rw [e] at h
    cases h

/-- After `main_begin` has returned, the comparison `(offset + size) ==
patch_size` of the source, made in `size_t`, is the comparison of the
numbers. -/
theorem main_begin_cond (E : Engine) (argv : List CStr) (w0 : World) (v : Locals E)
    (w1 : World) (h : main_begin E argv w0 = .ret v w1) :
    0 ≤ v.offset ∧ 0 < v.size ∧
      (to_size_t (v.offset + v.size) = v.patch_size ↔
        v.offset + v.size = (v.patch_size : Int)) := by
  obtain ⟨wa, wb, st0, str, wr, wp, h1, h2, h3, h4, h5, h6, h7⟩ :=
    main_begin_ret E argv w0 v w1 h
  have hsize : -2 ^ 31 ≤ v.size ∧ v.size < 2 ^ 31 := by
    rcases parse_args_cases argv w0 with ⟨_, _, _, _, e⟩ | ⟨wx, e⟩
    · rw [e] at h1
      simp only [Run.ret.injEq, Prod.mk.injEq] at h1
      rw [← h1.1.1]
      exact atoi_range _
    · rw [e] at h1
      cases h1
  have hoff := restore_offset_range E st0 _ _ _ h4
  simp only at hoff
  rcases read_file_cases .patch v.offset v.size
    { wr with stdout := wr.stdout ++
        ["Processing %d byte(s) patch data starting at offset %d.\n"] } (by decide) with
    ⟨⟨_, hmax, ho, hn, _⟩, _⟩ | ⟨_, wx, e⟩
  · have hs0 : 0 ≤ v.size := by
      by_contra hneg
      have := to_size_t_neg v.size (by omega) hsize.1
      omega
    have hs1 : 0 < v.size := by
      by_contra hle
      have h0 : v.size = 0 := by omega
      rw [h0] at hn
      simp [to_size_t] at hn
    refine ⟨ho, hs1, ?_⟩
    rw [to_size_t_nonneg _ (by omega) (by omega)]
    omega
  · rw [e] at h5
    cases h5

theorem finalizeCalls_append (a b : List Event) :
    finalizeCalls (a ++ b) = finalizeCalls a + finalizeCalls b := by
  simp [finalizeCalls, List.countP_append]

theorem dumpCalls_append (a b : List Event) :
    dumpCalls (a ++ b) = dumpCalls a + dumpCalls b := by
  simp [dumpCalls, List.count_append]

theorem finalizeCalls_dump_cons (t : List Event) :
    finalizeCalls (.dump :: t) = finalizeCalls t := by
  simp [finalizeCalls, List.countP_cons, Event.isFinalize]

theorem dumpCalls_dump_cons (t : List Event) : dumpCalls (.dump :: t) = dumpCalls t + 1 := by
  simp [dumpCalls]

theorem early_counts (t : List Event) (h : ∀ e ∈ t, e.early) :
    finalizeCalls t = 0 ∧ dumpCalls t = 0 := by
  constructor
  · unfold finalizeCalls
    rw [List.countP_eq_zero]
    intro e he
    have := h e he
    cases e <;> simp_all [Event.early, Event.isFinalize]
  · unfold dumpCalls
    rw [List.count_eq_zero]
    intro hd
    exact h _ hd

theorem main_of_begin (E : Engine) (argv : List CStr) (w0 : World) (v : Locals E) (w1 : World)
    (hb : main_begin E argv w0 = .ret v w1) : main E argv w0 = main_end E v w1 := by
  simp [main, hb]

theorem main_ret_begin (E : Engine) (argv : List CStr) (w0 : World) (r : Int) (wf : World)
    (hm : main E argv w0 = .ret r wf) :
    ∃ v w1, main_begin E argv w0 = .ret v w1 ∧ main_end E v w1 = .ret r wf := by
  cases hb : main_begin E argv w0 with
  | exit c wx => simp [main, hb] at hm
  | ret v w1 => exact ⟨v, w1, rfl, by rw [← main_of_begin E argv w0 v w1 hb]; exact hm⟩

/-- The events of a run after its first chunk was processed: one finalize
call and `remove_state`, or `dump()` followed by events that are neither a
finalize call nor `dump()`. -/
theorem main_trace_shape (E : Engine) (argv : List CStr) (h : Host)
    (v : Locals E) (w1 : World) (hb : main_begin E argv (World.boot h) = .ret v w1) :
    (∀ e ∈ w1.trace, e.early) ∧
    (to_size_t (v.offset + v.size) = v.patch_size →
      ∃ r, (main E argv (World.boot h)).world.trace =
        w1.trace ++ [.finalize r, .remove_state]) ∧
    (to_size_t (v.offset + v.size) ≠ v.patch_size →
      ∃ t, (main E argv (World.boot h)).world.trace = w1.trace ++ .dump :: t ∧
        ∀ e ∈ t, e.early) := by
  obtain ⟨⟨t0, ht0, hS0⟩, _⟩ := sound_main_begin E argv (World.boot h)
  rw [hb] at ht0
  simp only [Run.world, World.boot, List.nil_append] at ht0
  rw [main_of_begin E argv _ v w1 hb]
  refine ⟨by rw [ht0]; exact hS0, ?_, ?_⟩
  · intro hc
    obtain ⟨r, w2, _, hfr, ⟨_, wx, e, ht⟩ | ⟨_, e⟩⟩ := main_end_finalize E v w1 hc
    · exact ⟨r.1, by rw [e]; exact ht⟩
    · exact ⟨r.1, by rw [e]; exact applied_trace w1 w2 r.1 hfr⟩
  · intro hc
    rcases main_end_dump E v w1 hc with ⟨wx, t, e, ht, hS⟩ | ⟨wd, r, wf, _, hwd, e2, e⟩
    · exact ⟨t, by rw [e]; exact ht, hS⟩
    · obtain ⟨⟨t, ht, hS⟩, _⟩ := sound_main_after_dump (S := Event.early) trivial
        (fun _ _ => trivial) E v (wd.flush .state)
      rw [e2] at ht
      refine ⟨t, ?_, hS⟩
      rw [e]
      simp only [Run.world, flush_trace] at ht ⊢
      rw [ht, hwd]
      simp

/-- C2: in every run in which init, `restore()`, the read of the first chunk
and the first `detools_apply_patch_process` call succeed, the run calls
`detools_apply_patch_finalize` exactly once if `offset + size == patch_size`
and never otherwise; when they differ it calls `dump()` exactly once, and when
they are equal it never calls `dump()`. -/
theorem finalize_iff_fully_consumed (E : Engine) (argv : List CStr) (h : Host)
    (v : Locals E) (w1 : World) (hb : main_begin E argv (World.boot h) = .ret v w1) :
    (finalizeCalls (main E argv (World.boot h)).world.trace = 1 ↔
      v.offset + v.size = (v.patch_size : Int)) ∧
    (v.offset + v.size ≠ (v.patch_size : Int) →
      finalizeCalls (main E argv (World.boot h)).world.trace = 0 ∧
      dumpCalls (main E argv (World.boot h)).world.trace = 1) ∧
    (v.offset + v.size = (v.patch_size : Int) →
      dumpCalls (main E argv (World.boot h)).world.trace = 0) := by
  obtain ⟨_, _, hcond⟩ := main_begin_cond E argv _ v w1 hb
  obtain ⟨hS0, hfin, hdump⟩ := main_trace_shape E argv h v w1 hb
  obtain ⟨hf0, hd0⟩ := early_counts w1.trace hS0
  by_cases hc : to_size_t (v.offset + v.size) = v.patch_size
  · have hc2 := hcond.mp hc
    obtain ⟨r, ht⟩ := hfin hc
    rw [ht]
    simp only [finalizeCalls_append, dumpCalls_append, hf0, hd0]
    exact ⟨⟨fun _ => hc2, fun _ => rfl⟩, fun h => absurd hc2 h, fun _ => rfl⟩
  · have hc2 : v.offset + v.size ≠ (v.patch_size : Int) := fun h => hc (hcond.mpr h)
    obtain ⟨t, ht, hS⟩ := hdump hc
    obtain ⟨hf1, hd1⟩ := early_counts t hS
    rw [ht]
    simp only [finalizeCalls_append, dumpCalls_append, finalizeCalls_dump_cons,
      dumpCalls_dump_cons, hf0, hd0, hf1, hd1]
    exact ⟨⟨fun h => by omega, fun h => absurd h hc2⟩, fun _ => by simp,
      fun h => absurd h hc2⟩

theorem finalize_iff_fully_consumed_witness :
    main_begin addEngine (argv0 "2" "3") (World.boot host0) =
        .ret { apply_patch := ⟨6, 2, 2, 2⟩, res := 0, offset := 0, size := 2,
               size_after_dump := 3, patch_size := 6, patch_buf := [1, 2] }
          (main_begin addEngine (argv0 "2" "3") (World.boot host0)).world ∧
      ((finalizeCalls (main addEngine (argv0 "2" "3") (World.boot host0)).world.trace = 1 ↔
          (0 : Int) + 2 = ((6 : Nat) : Int)) ∧
        ((0 : Int) + 2 ≠ ((6 : Nat) : Int) →
          finalizeCalls (main addEngine (argv0 "2" "3") (World.boot host0)).world.trace = 0 ∧
          dumpCalls (main addEngine (argv0 "2" "3") (World.boot host0)).world.trace = 1) ∧
        ((0 : Int) + 2 = ((6 : Nat) : Int) →
          dumpCalls (main addEngine (argv0 "2" "3") (World.boot host0)).world.trace = 0)) :=
  ⟨by decide!,
    finalize_iff_fully_consumed addEngine (argv0 "2" "3") host0
      { apply_patch := ⟨6, 2, 2, 2⟩, res := 0, offset := 0, size := 2,
        size_after_dump := 3, patch_size := 6, patch_buf := [1, 2] }
      (main_begin addEngine (argv0 "2" "3") (World.boot host0)).world (by decide!)⟩

/-! ## C10: the value `main` returns -/

theorem lastProcess_append (t : List Event) (e : Event) :
    lastProcess (t ++ [e]) =
      match e with
      | .process n r => some (n, r)
      | _ => lastProcess t := by
  induction t with
  | nil => cases e <;> rfl
  | cons a t ih =>
    rw [List.cons_append]
    show (match lastProcess (t ++ [e]) with
      | some r => some r
      | none =>
        match a with
        | .process n res => some (n, res)
        | _ => none) = _
    rw [ih]
    cases e <;> rfl

/-- C10, the claim as stated fails: with an engine whose `process` returns the
number of bytes it consumed, the run `main from patch to 2 0` meets no error
(every engine call returns a non-negative value, `state.bin` is written) and
`main` returns 2. -/
theorem dump_path_returns_process_result :
    (main countEngine (argv0 "2" "0") (World.boot host0)).returned = true ∧
      (main countEngine (argv0 "2" "0") (World.boot host0)).world.trace =
        [.init 0, .ftruncate 0, .process 2 2, .dump] ∧
      (main countEngine (argv0 "2" "0") (World.boot host0)).status = 2 := by
  decide!

/-- C10, amended: when `main` returns, on the finalize path
(`offset + size == patch_size`) it returns 0, and on the dump path it returns
the value of its last `detools_apply_patch_process` call: that of the first
call when no patch data is processed after the dump. -/
theorem main_returns (E : Engine) (argv : List CStr) (h : Host) (r : Int) (wf : World)
    (hm : main E argv (World.boot h) = .ret r wf) :
    ∃ v w1, main_begin E argv (World.boot h) = .ret v w1 ∧
      (v.offset + v.size = (v.patch_size : Int) → r = 0) ∧
      (v.offset + v.size ≠ (v.patch_size : Int) →
        (∃ n, lastProcess wf.trace = some (n, r)) ∧
        (¬ 0 < v.size_after_dump → r = v.res)) := by
  obtain ⟨v, w1, hb, he⟩ := main_ret_begin E argv _ r wf hm
  obtain ⟨_, _, hcond⟩ := main_begin_cond E argv _ v w1 hb
  refine ⟨v, w1, hb, ?_, ?_⟩
  · intro hc
    obtain ⟨r2, w2, _, _, ⟨_, wx, e, _⟩ | ⟨_, e⟩⟩ := main_end_finalize E v w1 (hcond.mpr hc)
    · rw [e] at he
      cases he
    · rw [e] at he
      cases he
      rfl
  · intro hc
    have hc1 : to_size_t (v.offset + v.size) ≠ v.patch_size := fun h => hc (hcond.mp h)
    rcases main_end_dump E v w1 hc1 with ⟨wx, t, e, _⟩ | ⟨wd, r2, wf2, _, hwd, e2, e⟩
    · rw [e] at he
      cases he
    · rw [e] at he
      simp only [Run.ret.injEq] at he
      obtain ⟨he1, he2⟩ := he
      subst he1 he2
      rw [flush_trace]
      rcases main_after_dump_cases E v (wd.flush .state) with ⟨hs, e3⟩ | ⟨_, wx, e3⟩ |
        ⟨hs, buf, wp, r3, w3, _, _, _, _, e3⟩
      · rw [e3] at e2
        cases e2
        refine ⟨?_, fun _ => rfl⟩
        obtain ⟨wa, wb, st0, str, wr, wp, _, _, _, _, _, h6, _⟩ :=
          main_begin_ret E argv _ v w1 hb
        obtain ⟨r4, w4, _, _, e4⟩ := process_apply E str v.patch_buf wp
        rw [e4] at h6
        simp only [Run.ret.injEq] at h6
        obtain ⟨h6a, h6b⟩ := h6
        refine ⟨v.patch_buf.length, ?_⟩
        rw [flush_trace, hwd, ← h6b, h6a]
        show lastProcess ((w4.trace ++ [Event.process v.patch_buf.length v.res]) ++ [.dump]) = _
        rw [lastProcess_append, lastProcess_append]
      · rw [e3] at e2
        cases e2
      · rw [e3] at e2
        cases e2
        exact ⟨⟨buf.length, by
          show lastProcess (w3.trace ++ [Event.process buf.length r3.1]) = _
          rw [lastProcess_append]⟩, fun h => absurd hs h⟩

theorem main_returns_witness :
    main addEngine (argv0 "2" "3") (World.boot host0) =
        .ret 0 (main addEngine (argv0 "2" "3") (World.boot host0)).world ∧
      ∃ v w1, main_begin addEngine (argv0 "2" "3") (World.boot host0) = .ret v w1 ∧
        (v.offset + v.size = (v.patch_size : Int) → (0 : Int) = 0) ∧
        (v.offset + v.size ≠ (v.patch_size : Int) →
          (∃ n, lastProcess
            (main addEngine (argv0 "2" "3") (World.boot host0)).world.trace = some (n, 0)) ∧
          (¬ 0 < v.size_after_dump → 0 = v.res)) :=
  ⟨by decide!,
    main_returns addEngine (argv0 "2" "3") host0 0
      (main addEngine (argv0 "2" "3") (World.boot host0)).world (by decide!)⟩

/-! ## C5: when `state.bin` is kept -/

theorem accepted_of_pos (buf : List Nat) (h : 0 < buf.length) : accepted buf = 0 := by
  have : buf.length ≠ 0 := by omega
  simp [accepted, this]

theorem accepted_of_empty (buf : List Nat) (h : buf.length = 0) : accepted buf = -1 := by
  simp [accepted, h]

theorem written_state_buffered (w : World) (buf : List Nat)
    (hfit : w.state_buf.length + buf.length ≤ w.host.bufsiz) :
    w.written .state buf = { w with state_buf := w.state_buf ++ buf } := by
  unfold World.written
  simp only [World.buf, hfit, ↓reduceIte, World.setBuf]

theorem written_state_transmitted (w : World) (buf d : List Nat)
    (h : w.host.state_bin = some d)
    (hfit : ¬ w.state_buf.length + buf.length ≤ w.host.bufsiz) :
    w.written .state buf =
      { w with host := { w.host with state_bin := some (d ++
                  (w.state_buf ++ buf).take (w.host.state_capacity - d.length)) },
               state_buf := [],
               lost := w.lost +
                 ((w.state_buf ++ buf).length - (w.host.state_capacity - d.length)) } := by
  unfold World.written
  simp only [World.buf, hfit, ↓reduceIte]
  rw [transmit_state _ _ d h]
  rfl

/-- One call of `state_write` on an existing `state.bin` with contents `d`: the
file still exists; no byte is lost exactly when the call returns what a stream
that accepts the write returns and the bytes in the file and in the buffer are
extended by the buffer written; nothing is lost when the file can take all the
bytes, and nothing is even transmitted when the buffer of the stream can. -/
theorem state_write_step (buf : List Nat) (w : World) (d : List Nat)
    (h : w.host.state_bin = some d) (r : Int) (w1 : World)
    (he : state_write buf w = .ret r w1) :
    ∃ d1, w1.host.state_bin = some d1 ∧
      w1.host.state_capacity = w.host.state_capacity ∧ w1.host.bufsiz = w.host.bufsiz ∧
      w.lost ≤ w1.lost ∧
      (w1.lost = w.lost → r = accepted buf ∧ d1 ++ w1.state_buf = d ++ w.state_buf ++ buf) ∧
      (d.length + w.state_buf.length + buf.length ≤ w.host.state_capacity →
        w1.lost = w.lost) ∧
      (w.state_buf.length + buf.length ≤ w.host.bufsiz →
        d1 = d ∧ w1.state_buf = w.state_buf ++ buf ∧ w1.lost = w.lost) := by
  rcases state_write_cases buf w with ⟨h0, e⟩ | ⟨hp, ht, e⟩ | ⟨hp, ht, e⟩
  · rw [e] at he
    cases he
    have hb : buf = [] := List.length_eq_zero.mp h0
    subst hb
    exact ⟨d, h, rfl, rfl, le_refl _, fun _ => ⟨rfl, by simp⟩, fun _ => rfl,
      fun _ => ⟨rfl, by simp, rfl⟩⟩
  · rw [e] at he
    simp only [Run.ret.injEq] at he
    obtain ⟨hr, hw1⟩ := he
    subst hr hw1
    rw [accepted_of_pos buf hp]
    by_cases hfit : w.state_buf.length + buf.length ≤ w.host.bufsiz
    · rw [written_state_buffered w buf hfit]
      exact ⟨d, h, rfl, rfl, le_refl _, fun _ => ⟨rfl, by simp⟩, fun _ => rfl,
        fun _ => ⟨rfl, rfl, rfl⟩⟩
    · rw [written_state_transmitted w buf d h hfit]
      have hcap : d.length + (w.state_buf.length + buf.length) ≤ w.host.state_capacity := by
        rcases ht with h1 | h1
        · exact absurd h1 hfit
        · simpa [World.data, Host.file, h, World.buf, World.capacity] using h1
      have hk : (w.state_buf ++ buf).length ≤ w.host.state_capacity - d.length := by
        simp only [List.length_append]
        omega
      refine ⟨_, rfl, rfl, rfl, by simp, fun _ => ⟨rfl, ?_⟩, fun _ => ?_,
        fun hb => absurd hb hfit⟩
      · simp only [List.append_nil, List.append_assoc]
        rw [List.take_of_length_le hk]
      · show w.lost + ((w.state_buf ++ buf).length - (w.host.state_capacity - d.length)) = _
        omega
  · rw [e] at he
    simp only [Run.ret.injEq] at he
    obtain ⟨hr, hw1⟩ := he
    subst hr hw1
    have hfit : ¬ w.state_buf.length + buf.length ≤ w.host.bufsiz := fun hb =>
      ht (Or.inl hb)
    have hcap : ¬ d.length + (w.state_buf.length + buf.length) ≤ w.host.state_capacity := by
      intro hc
      apply ht
      right
      simpa [World.data, Host.file, h, World.buf, World.capacity] using hc
    rw [written_state_transmitted w buf d h hfit]
    refine ⟨_, rfl, rfl, rfl, by simp, fun hl => ?_, fun hc => ?_,
      fun hb => absurd hb hfit⟩
    · simp only [List.length_append] at hl
      omega
    · omega

theorem state_write_ret (buf : List Nat) (w : World) : ∃ r w1, state_write buf w = .ret r w1 := by
  rcases state_write_cases buf w with ⟨_, e⟩ | ⟨_, _, e⟩ | ⟨_, _, e⟩ <;> exact ⟨_, _, e⟩

/-- What the engine's dump leaves in `state.bin` and in the buffer of its
stream: as long as no byte is lost, the bytes of `dumped`, in order, after what
was there; nothing is lost when the file can take them all, and all of them are
still in the buffer when the buffer can hold them. -/
theorem execDump_content (p : DumpProg) :
    ∀ (w : World) (d : List Nat) (r : Int) (w1 : World), w.host.state_bin = some d →
      execDump p w = .ret r w1 →
      ∃ d1, w1.host.state_bin = some d1 ∧
        w1.host.state_capacity = w.host.state_capacity ∧ w1.host.bufsiz = w.host.bufsiz ∧
        w.lost ≤ w1.lost ∧
        (w1.lost = w.lost → d1 ++ w1.state_buf = d ++ w.state_buf ++ dumped p) ∧
        (d.length + w.state_buf.length + (dumped p).length ≤ w.host.state_capacity →
          w1.lost = w.lost) ∧
        (w.state_buf.length + (dumped p).length ≤ w.host.bufsiz →
          d1 = d ∧ w1.state_buf = w.state_buf ++ dumped p ∧ w1.lost = w.lost) := by
  induction p with
  | done res =>
    intro w d r w1 h he
    simp only [execDump, pure_apply, Run.ret.injEq] at he
    obtain ⟨_, hw⟩ := he
    subst hw
    exact ⟨d, h, rfl, rfl, le_refl _, fun _ => by simp [dumped], fun _ => rfl,
      fun _ => ⟨rfl, by simp [dumped], rfl⟩⟩
  | state_write buf k ih =>
    intro w d r w1 h he
    obtain ⟨r0, w0, e0⟩ := state_write_ret buf w
    simp only [execDump, bind_apply, e0] at he
    obtain ⟨d0, h0, hc0, hb0, hl0, hkeep0, hcap0, hbuf0⟩ := state_write_step buf w d h r0 w0 e0
    obtain ⟨d1, h1, hc1, hb1, hl1, hkeep1, hcap1, hbuf1⟩ := ih r0 w0 d0 r w1 h0 he
    refine ⟨d1, h1, hc1.trans hc0, hb1.trans hb0, le_trans hl0 hl1, ?_, ?_, ?_⟩
    · intro hl
      obtain ⟨hr0, hs0⟩ := hkeep0 (by omega)
      have hs1 := hkeep1 (by omega)
      rw [hs1, hs0, hr0]
      simp [dumped]
    · intro hfit
      simp only [dumped, List.length_append] at hfit
      have hw0 : w0.lost = w.lost := hcap0 (by omega)
      obtain ⟨hr0, hs0⟩ := hkeep0 hw0
      have hlen : d0.length + w0.state_buf.length = d.length + w.state_buf.length + buf.length := by
        have := congrArg List.length hs0
        simp only [List.length_append] at this
        omega
      rw [hr0] at hcap1
      rw [hcap1 (by rw [hc0]; omega), hw0]
    · intro hfit
      simp only [dumped, List.length_append] at hfit
      obtain ⟨hd0, hsb0, hw0⟩ := hbuf0 (by omega)
      obtain ⟨hr0, _⟩ := hkeep0 hw0
      rw [hr0] at hbuf1
      obtain ⟨hd1, hsb1, hw1⟩ := hbuf1 (by rw [hsb0, hb0, List.length_append]; omega)
      refine ⟨hd1.trans hd0, ?_, hw1.trans hw0⟩
      rw [hsb1, hsb0]
      simp [dumped]

/-! ## C5: when `state.bin` is kept, and what it holds -/

theorem sameStreams_refl (w : World) : SameStreams w w := ⟨rfl, rfl, rfl, rfl, rfl, rfl⟩

theorem sameStreams_symm {w w1 : World} (h : SameStreams w w1) : SameStreams w1 w :=
  ⟨h.from_file.symm, h.from_pos.symm, h.to_file.symm, h.to_buf.symm, h.to_capacity.symm,
    h.bufsiz.symm⟩

theorem sameStreams_data_from {w w1 : World} (h : SameStreams w w1) :
    w.data .from = w1.data .from := by
  simp [World.data, Host.file, h.from_file]

theorem sameStreams_data_to {w w1 : World} (h : SameStreams w w1) :
    w.data .to = w1.data .to := by
  simp [World.data, Host.file, h.to_file]

theorem from_read_congr (n : Nat) (w w1 : World) (h : SameStreams w w1) :
    ∃ r v v1, from_read n w = .ret r v ∧ from_read n w1 = .ret r v1 ∧ SameStreams v v1 := by
  unfold from_read
  by_cases hn : n > 0
  · have h0 : n ≠ 0 := by omega
    simp only [hn, ↓reduceIte, bind_apply, fread, h0, World.pos, ← sameStreams_data_from h,
      ← h.from_pos]
    by_cases hl : (List.take n (List.drop w.from_pos (w.data .from))).length = n
    · simp only [hl, ↓reduceIte]
      exact ⟨_, _, _, rfl, rfl,
        ⟨h.from_file, rfl, h.to_file, h.to_buf, h.to_capacity, h.bufsiz⟩⟩
    · simp only [hl, ↓reduceIte]
      exact ⟨_, _, _, rfl, rfl,
        ⟨h.from_file, rfl, h.to_file, h.to_buf, h.to_capacity, h.bufsiz⟩⟩
  · simp only [hn, ↓reduceIte, pure_apply]
    exact ⟨_, _, _, rfl, rfl, h⟩

theorem from_seek_congr (d : Int) (w w1 : World) (h : SameStreams w w1) :
    ∃ r v v1, from_seek d w = .ret r v ∧ from_seek d w1 = .ret r v1 ∧ SameStreams v v1 := by
  simp only [from_seek, fseek, World.pos, ← h.from_pos]
  by_cases hc : 0 ≤ (w.from_pos : Int) + d
  · simp only [hc, ↓reduceIte]
    exact ⟨_, _, _, rfl, rfl,
      ⟨h.from_file, rfl, h.to_file, h.to_buf, h.to_capacity, h.bufsiz⟩⟩
  · simp only [hc, ↓reduceIte]
    exact ⟨_, _, _, rfl, rfl, h⟩

theorem takes_congr (n : Nat) (w w1 : World) (h : SameStreams w w1) :
    w.takes .to n ↔ w1.takes .to n := by
  simp only [World.takes, World.buf, World.capacity, sameStreams_data_to h, h.to_buf,
    h.to_capacity, h.bufsiz]

theorem written_to_buffered (w : World) (buf : List Nat)
    (hfit : w.to_buf.length + buf.length ≤ w.host.bufsiz) :
    w.written .to buf = { w with to_buf := w.to_buf ++ buf } := by
  unfold World.written
  simp only [World.buf, hfit, ↓reduceIte, World.setBuf]

theorem written_to_transmitted (w : World) (buf d : List Nat) (h : w.host.to_file = some d)
    (hfit : ¬ w.to_buf.length + buf.length ≤ w.host.bufsiz) :
    w.written .to buf =
      { w with host := { w.host with to_file := some (d ++
                  (w.to_buf ++ buf).take (w.host.to_capacity - d.length)) },
               to_buf := [],
               lost := w.lost +
                 ((w.to_buf ++ buf).length - (w.host.to_capacity - d.length)) } := by
  unfold World.written
  simp only [World.buf, hfit, ↓reduceIte]
  rw [transmit_to _ _ d h]
  rfl

theorem written_to_removed (w : World) (buf : List Nat) (h : w.host.to_file = none)
    (hfit : ¬ w.to_buf.length + buf.length ≤ w.host.bufsiz) :
    w.written .to buf =
      { w with to_buf := [], lost := w.lost + (w.to_buf ++ buf).length } := by
  unfold World.written
  simp only [World.buf, hfit, ↓reduceIte]
  rw [transmit_none _ _ _ (by simpa [Host.file] using h)]
  rfl

theorem written_congr (buf : List Nat) (w w1 : World) (a b : Nat) (h : SameStreams w w1) :
    SameStreams ({ w with to_offset := a }.written .to buf)
      ({ w1 with to_offset := b }.written .to buf) := by
  by_cases hfit : w.to_buf.length + buf.length ≤ w.host.bufsiz
  · have hfit1 : w1.to_buf.length + buf.length ≤ w1.host.bufsiz := by
      rw [← h.to_buf, ← h.bufsiz]
      exact hfit
    rw [written_to_buffered { w with to_offset := a } buf hfit,
      written_to_buffered { w1 with to_offset := b } buf hfit1]
    exact ⟨h.from_file, h.from_pos, h.to_file, by simp [h.to_buf], h.to_capacity, h.bufsiz⟩
  · have hfit1 : ¬ w1.to_buf.length + buf.length ≤ w1.host.bufsiz := by
      rw [← h.to_buf, ← h.bufsiz]
      exact hfit
    cases hto : w.host.to_file with
    | none =>
      have hto1 : w1.host.to_file = none := by rw [← h.to_file]; exact hto
      rw [written_to_removed { w with to_offset := a } buf hto hfit,
        written_to_removed { w1 with to_offset := b } buf hto1 hfit1]
      exact ⟨h.from_file, h.from_pos, h.to_file, rfl, h.to_capacity, h.bufsiz⟩
    | some d =>
      have hto1 : w1.host.to_file = some d := by rw [← h.to_file]; exact hto
      rw [written_to_transmitted { w with to_offset := a } buf d hto hfit,
        written_to_transmitted { w1 with to_offset := b } buf d hto1 hfit1]
      exact ⟨h.from_file, h.from_pos, by simp [h.to_capacity, h.to_buf], rfl,
        h.to_capacity, h.bufsiz⟩

theorem to_write_congr (buf : List Nat) (w w1 : World) (h : SameStreams w w1) :
    ∃ r v v1, to_write buf w = .ret r v ∧ to_write buf w1 = .ret r v1 ∧ SameStreams v v1 := by
  have ht := takes_congr buf.length w w1 h
  rcases to_write_cases buf w with ⟨h0, e⟩ | ⟨hp, hc, e⟩ | ⟨hp, hc, e⟩
  · rcases to_write_cases buf w1 with ⟨_, e1⟩ | ⟨hp1, _, _⟩ | ⟨hp1, _, _⟩
    · exact ⟨_, _, _, e, e1, h⟩
    · omega
    · omega
  · rcases to_write_cases buf w1 with ⟨h0, _⟩ | ⟨_, _, e1⟩ | ⟨_, hc1, _⟩
    · omega
    · exact ⟨_, _, _, e, e1, written_congr buf w w1 _ _ h⟩
    · exact absurd (ht.mp hc) hc1
  · rcases to_write_cases buf w1 with ⟨h0, _⟩ | ⟨_, hc1, _⟩ | ⟨_, _, e1⟩
    · omega
    · exact absurd (ht.mpr hc1) hc
    · exact ⟨_, _, _, e, e1, written_congr buf w w1 _ _ h⟩

theorem exec_congr {σ : Type} (p : Prog σ) :
    ∀ (w w1 : World), SameStreams w w1 →
      ∃ r v v1, exec p w = .ret r v ∧ exec p w1 = .ret r v1 ∧ SameStreams v v1 := by
  induction p with
  | done res st => intro w w1 h; exact ⟨_, _, _, rfl, rfl, h⟩
  | from_read size k ih =>
    intro w w1 h
    obtain ⟨r, v, v1, e, e1, hv⟩ := from_read_congr size w w1 h
    obtain ⟨r2, u, u1, f, f1, hu⟩ := ih r.1 r.2 v v1 hv
    exact ⟨r2, u, u1, by simp only [exec, bind_apply, e, f],
      by simp only [exec, bind_apply, e1, f1], hu⟩
  | from_seek offset k ih =>
    intro w w1 h
    obtain ⟨r, v, v1, e, e1, hv⟩ := from_seek_congr offset w w1 h
    obtain ⟨r2, u, u1, f, f1, hu⟩ := ih r v v1 hv
    exact ⟨r2, u, u1, by simp only [exec, bind_apply, e, f],
      by simp only [exec, bind_apply, e1, f1], hu⟩
  | to_write buf k ih =>
    intro w w1 h
    obtain ⟨r, v, v1, e, e1, hv⟩ := to_write_congr buf w w1 h
    obtain ⟨r2, u, u1, f, f1, hu⟩ := ih r v v1 hv
    exact ⟨r2, u, u1, by simp only [exec, bind_apply, e, f],
      by simp only [exec, bind_apply, e1, f1], hu⟩

theorem feed_congr (E : Engine) (cs : List (List Nat)) :
    ∀ (st : E.σ) (w w1 : World), SameStreams w w1 →
      ∃ r v v1, feed E st cs w = .ret r v ∧ feed E st cs w1 = .ret r v1 ∧ SameStreams v v1 := by
  induction cs with
  | nil => intro st w w1 h; exact ⟨_, _, _, rfl, rfl, h⟩
  | cons c cs ih =>
    intro st w w1 h
    obtain ⟨r, v, v1, e, e1, hv⟩ := exec_congr (E.process st c) w w1 h
    by_cases hr : r.1 < 0
    · exact ⟨r, v, v1, by simp [feed, e, hr], by simp [feed, e1, hr], hv⟩
    · obtain ⟨r2, u, u1, f, f1, hu⟩ := ih r.2 v v1 hv
      exact ⟨r2, u, u1, by simp [feed, e, hr, f], by simp [feed, e1, hr, f1], hu⟩

theorem thenFinalize_congr (E : Engine) (st : E.σ) (cs : List (List Nat)) (w w1 : World)
    (h : SameStreams w w1) :
    ∃ r v v1, thenFinalize E st cs w = .ret r v ∧ thenFinalize E st cs w1 = .ret r v1 ∧
      SameStreams v v1 := by
  obtain ⟨r, v, v1, e, e1, hv⟩ := feed_congr E cs st w w1 h
  by_cases hr : r.1 < 0
  · exact ⟨r, v, v1, by simp [thenFinalize, e, hr], by simp [thenFinalize, e1, hr], hv⟩
  · obtain ⟨r2, u, u1, f, f1, hu⟩ := exec_congr (E.finalize r.2) v v1 hv
    exact ⟨r2, u, u1, by simp [thenFinalize, e, hr, f], by simp [thenFinalize, e1, hr, f1], hu⟩

/-- A flush of the output stream leaves a file that depends on the file, the
buffer and the size limit only. -/
theorem flush_to_file_congr (w w1 : World) (h1 : w.host.to_file = w1.host.to_file)
    (h2 : w.to_buf = w1.to_buf) (h3 : w.host.to_capacity = w1.host.to_capacity) :
    (w.flush .to).host.to_file = (w1.flush .to).host.to_file := by
  cases hto : w.host.to_file with
  | none =>
    have hto1 : w1.host.to_file = none := by rw [← h1]; exact hto
    unfold World.flush
    simp only [World.buf, ← h2]
    split
    · rw [hto, hto1]
    · rw [transmit_none w _ _ (by simpa [Host.file] using hto),
        transmit_none w1 _ _ (by simpa [Host.file] using hto1)]
      simp [World.setBuf, hto, hto1]
  | some d =>
    have hto1 : w1.host.to_file = some d := by rw [← h1]; exact hto
    rw [flush_to w d hto, flush_to w1 d hto1, h2, h3]

theorem output_congr (E : Engine) (st : E.σ) (cs : List (List Nat)) (w w1 : World)
    (h : SameStreams w w1) :
    output (thenFinalize E st cs w) = output (thenFinalize E st cs w1) := by
  obtain ⟨r, v, v1, e, e1, hv⟩ := thenFinalize_congr E st cs w w1 h
  rw [e, e1]
  exact flush_to_file_congr v v1 hv.to_file hv.to_buf hv.to_capacity

/-! ## The output does not depend on how the bytes sit in file and buffer -/

theorem sent_of_some (w : World) (d : List Nat) (h : w.host.to_file = some d) :
    w.sent = d ++ w.to_buf := by
  simp [World.sent, World.data, Host.file, h]

theorem take_within (d b : List Nat) (c : Nat) (h : d.length ≤ c) :
    (d ++ b).take c = d ++ b.take (c - d.length) := by
  rw [List.take_append_eq_append_take, List.take_of_length_le h]

/-- What a flush leaves in an output file that is within its size limit: the
first `to_capacity` bytes handed to the stream. -/
theorem output_within (w : World) (h : w.within) :
    (w.flush .to).host.to_file = some (w.sent.take w.host.to_capacity) := by
  obtain ⟨d, hd, hl⟩ := h
  rw [flush_to w d hd, sent_of_some w d hd, take_within d _ _ hl]

@[simp] theorem setBuf_from_pos (w : World) (f : Handle) (b : List Nat) :
    (w.setBuf f b).from_pos = w.from_pos := by
  cases f <;> rfl

@[simp] theorem transmit_from_pos (w : World) (f : Handle) (b : List Nat) :
    (w.transmit f b).from_pos = w.from_pos := by
  unfold World.transmit
  split <;> rfl

theorem written_from_pos (w : World) (f : Handle) (b : List Nat) :
    (w.written f b).from_pos = w.from_pos := by
  unfold World.written
  split
  · rw [setBuf_from_pos]
  · rw [setBuf_from_pos, transmit_from_pos]

/-- A call of `to_write` on an output file within its size limit: it returns 0
and the bytes handed to the stream are extended by the buffer, or it returns -1
and what is left of them is what the medium can hold. -/
theorem to_write_sent (buf : List Nat) (w : World) (hw : w.within) :
    ∃ r w1, to_write buf w = .ret r w1 ∧ ProcFrame w w1 ∧ w1.from_pos = w.from_pos ∧
      ((r = 0 ∧ w1.sent = w.sent ++ buf) ∨
       (r = -1 ∧ w1.sent = (w.sent ++ buf).take w.host.to_capacity ∧
          w.host.to_capacity < (w.sent ++ buf).length)) := by
  obtain ⟨d, hd, hl⟩ := hw
  rcases to_write_cases buf w with ⟨h0, e⟩ | ⟨hp, ht, e⟩ | ⟨hp, ht, e⟩
  · have hb : buf = [] := List.length_eq_zero.mp h0
    subst hb
    exact ⟨0, w, e, procFrame_refl w, rfl, Or.inl ⟨rfl, by simp⟩⟩
  · obtain ⟨h1, _, _⟩ := written_sent { w with to_offset := w.to_offset + buf.length } buf d
      hd ht
    exact ⟨0, _, e, procFrame_written w _ buf, written_from_pos _ _ _, Or.inl ⟨rfl, h1⟩⟩
  · have hfit : ¬ w.to_buf.length + buf.length ≤ w.host.bufsiz := fun hb => ht (Or.inl hb)
    have hcap : ¬ d.length + (w.to_buf.length + buf.length) ≤ w.host.to_capacity := by
      intro hc
      apply ht
      right
      simpa [World.data, Host.file, hd, World.buf, World.capacity] using hc
    refine ⟨-1, _, e, procFrame_written w _ buf, written_from_pos _ _ _,
      Or.inr ⟨rfl, ?_, ?_⟩⟩
    · rw [written_to_transmitted { w with to_offset := w.to_offset + buf.length } buf d hd
        hfit, sent_of_some w d hd, List.append_assoc, take_within d _ _ hl]
      simp [World.sent, World.data, Host.file]
    · rw [sent_of_some w d hd]
      simp only [List.length_append]
      omega

theorem stillFull_refl (w : World) (hw : w.within)
    (hf : w.host.to_capacity ≤ w.sent.length) : StillFull w w :=
  ⟨rfl, hw, hf, rfl⟩

theorem stillFull_trans {w w1 w2 : World} (h1 : StillFull w w1) (h2 : StillFull w1 w2) :
    StillFull w w2 :=
  ⟨h2.to_capacity.trans h1.to_capacity, h2.within, h2.full, h2.same.trans h1.same⟩

theorem to_write_full (buf : List Nat) (w : World) (hw : w.within)
    (hf : w.host.to_capacity ≤ w.sent.length) :
    ∃ r w1, to_write buf w = .ret r w1 ∧ StillFull w w1 := by
  obtain ⟨r, w1, e, hfr, _, hs⟩ := to_write_sent buf w hw
  refine ⟨r, w1, e, hfr.to_capacity, hfr.within hw, ?_, ?_⟩
  · rw [hfr.to_capacity]
    rcases hs with ⟨_, hs⟩ | ⟨_, hs, hlt⟩
    · rw [hs, List.length_append]
      omega
    · rw [hs, List.length_take]
      omega
  · rw [hfr.to_capacity]
    rcases hs with ⟨_, hs⟩ | ⟨_, hs, hlt⟩
    · rw [hs, List.take_append_of_le_length hf]
    · rw [hs, List.take_take, Nat.min_self, List.take_append_of_le_length hf]

/-- Once the output medium is full, engine code leaves it full with the same
bytes. -/
theorem exec_full {σ : Type} (p : Prog σ) :
    ∀ w, w.within → w.host.to_capacity ≤ w.sent.length →
      ∃ r w1, exec p w = .ret r w1 ∧ StillFull w w1 := by
  induction p with
  | done res st => intro w hw hf; exact ⟨_, _, rfl, stillFull_refl w hw hf⟩
  | from_read size k ih =>
    intro w hw hf
    obtain ⟨r, p, he⟩ := from_read_frame size w
    obtain ⟨r2, w2, he2, hs2⟩ := ih r.1 r.2 { w with from_pos := p } hw hf
    exact ⟨r2, w2, by simp only [exec, bind_apply, he, he2],
      ⟨hs2.to_capacity, hs2.within, hs2.full, hs2.same⟩⟩
  | from_seek offset k ih =>
    intro w hw hf
    obtain ⟨r, p, he⟩ := from_seek_frame offset w
    obtain ⟨r2, w2, he2, hs2⟩ := ih r { w with from_pos := p } hw hf
    exact ⟨r2, w2, by simp only [exec, bind_apply, he, he2],
      ⟨hs2.to_capacity, hs2.within, hs2.full, hs2.same⟩⟩
  | to_write buf k ih =>
    intro w hw hf
    obtain ⟨r, w1, he, hs1⟩ := to_write_full buf w hw hf
    obtain ⟨r2, w2, he2, hs2⟩ := ih r w1 hs1.within hs1.full
    exact ⟨r2, w2, by simp only [exec, bind_apply, he, he2], stillFull_trans hs1 hs2⟩

theorem feed_full (E : Engine) (cs : List (List Nat)) :
    ∀ (st : E.σ) (w : World), w.within → w.host.to_capacity ≤ w.sent.length →
      ∃ r w1, feed E st cs w = .ret r w1 ∧ StillFull w w1 := by
  induction cs with
  | nil => intro st w hw hf; exact ⟨_, _, rfl, stillFull_refl w hw hf⟩
  | cons c cs ih =>
    intro st w hw hf
    obtain ⟨r, w1, e, hs1⟩ := exec_full (E.process st c) w hw hf
    by_cases hr : r.1 < 0
    · exact ⟨r, w1, by simp [feed, e, hr], hs1⟩
    · obtain ⟨r2, w2, e2, hs2⟩ := ih r.2 w1 hs1.within hs1.full
      exact ⟨r2, w2, by simp [feed, e, hr, e2], stillFull_trans hs1 hs2⟩

theorem finish_full (E : Engine) (r : Int × E.σ) (w : World) (hw : w.within)
    (hf : w.host.to_capacity ≤ w.sent.length) :
    ∃ r2 w2, (if r.1 < 0 then (pure r : M (Int × E.σ)) else exec (E.finalize r.2)) w =
      .ret r2 w2 ∧ StillFull w w2 := by
  by_cases hr : r.1 < 0
  · exact ⟨r, w, by simp [hr], stillFull_refl w hw hf⟩
  · obtain ⟨r2, w2, e2, hs2⟩ := exec_full (E.finalize r.2) w hw hf
    exact ⟨r2, w2, by simp [hr, e2], hs2⟩

theorem fullAlike_of_stillFull {v v1 u u1 : World} (hv : StillFull v u) (hv1 : StillFull v1 u1)
    (hc : v.host.to_capacity = v1.host.to_capacity)
    (hs : v.sent.take v.host.to_capacity = v1.sent.take v1.host.to_capacity) :
    FullAlike u u1 :=
  ⟨by rw [hv.to_capacity, hv1.to_capacity, hc], hv.within, hv1.within, hv.full, hv1.full,
    by rw [hv.same, hv1.same, hs]⟩

theorem fullAlike_step {v v1 u u1 : World} (h : FullAlike v v1) (hv : StillFull v u)
    (hv1 : StillFull v1 u1) : FullAlike u u1 :=
  fullAlike_of_stillFull hv hv1 h.to_capacity h.same

theorem from_read_sim (n : Nat) (w w1 : World) (h : SameSent w w1) :
    ∃ r p, from_read n w = .ret r { w with from_pos := p } ∧
      from_read n w1 = .ret r { w1 with from_pos := p } := by
  have hd : w.data .from = w1.data .from := by simp [World.data, Host.file, h.from_file]
  unfold from_read
  by_cases hn : n > 0
  · have h0 : n ≠ 0 := by omega
    simp only [hn, ↓reduceIte, bind_apply, fread, h0, World.pos, ← hd, ← h.from_pos]
    by_cases hl : (List.take n (List.drop w.from_pos (w.data .from))).length = n
    · simp only [hl, ↓reduceIte]
      exact ⟨_, _, rfl, rfl⟩
    · simp only [hl, ↓reduceIte]
      exact ⟨_, _, rfl, rfl⟩
  · exact ⟨(0, []), w.from_pos, by simp [hn], by rw [h.from_pos]; simp [hn]⟩

theorem from_seek_sim (d : Int) (w w1 : World) (h : SameSent w w1) :
    ∃ r p, from_seek d w = .ret r { w with from_pos := p } ∧
      from_seek d w1 = .ret r { w1 with from_pos := p } := by
  simp only [from_seek, fseek, World.pos, ← h.from_pos]
  by_cases hc : 0 ≤ (w.from_pos : Int) + d
  · simp only [hc, ↓reduceIte]
    exact ⟨_, _, rfl, rfl⟩
  · simp only [hc, ↓reduceIte]
    exact ⟨_, w.from_pos, rfl, by rw [h.from_pos]⟩

theorem sameSent_from_pos {w w1 : World} (h : SameSent w w1) (p : Nat) :
    SameSent { w with from_pos := p } { w1 with from_pos := p } :=
  ⟨h.from_file, rfl, h.to_capacity, h.sent, h.within, h.within1⟩

/-- Engine code run in two worlds whose output streams hold the same bytes. -/
theorem exec_sim {σ : Type} (p : Prog σ) :
    ∀ (w w1 : World), SameSent w w1 → Agree (exec p w) (exec p w1) := by
  induction p with
  | done res st => intro w w1 h; exact Or.inl ⟨_, _, _, rfl, rfl, h⟩
  | from_read size k ih =>
    intro w w1 h
    obtain ⟨r, p, e, e1⟩ := from_read_sim size w w1 h
    have := ih r.1 r.2 _ _ (sameSent_from_pos h p)
    simpa only [exec, bind_apply, e, e1] using this
  | from_seek offset k ih =>
    intro w w1 h
    obtain ⟨r, p, e, e1⟩ := from_seek_sim offset w w1 h
    have := ih r _ _ (sameSent_from_pos h p)
    simpa only [exec, bind_apply, e, e1] using this
  | to_write buf k ih =>
    intro w w1 h
    obtain ⟨r, v, e, hfr, hp, hs⟩ := to_write_sent buf w h.within
    obtain ⟨r1, v1, e1, hfr1, hp1, hs1⟩ := to_write_sent buf w1 h.within1
    simp only [exec, bind_apply, e, e1]
    have hcap : v.host.to_capacity = v1.host.to_capacity := by
      rw [hfr.to_capacity, hfr1.to_capacity, h.to_capacity]
    have hsame : ∀ (hs2 : v.sent = v1.sent), SameSent v v1 := fun hs2 =>
      ⟨by rw [hfr.from_file, hfr1.from_file, h.from_file], by rw [hp, hp1, h.from_pos], hcap,
        hs2, hfr.within h.within, hfr1.within h.within1⟩
    rcases hs with ⟨hr, hs⟩ | ⟨hr, hs, hlt⟩
    · rcases hs1 with ⟨hr1, hs1⟩ | ⟨hr1, hs1, hlt1⟩
      · subst hr hr1
        exact ih 0 v v1 (hsame (by rw [hs, hs1, h.sent]))
      · subst hr hr1
        have hfv : v.host.to_capacity ≤ v.sent.length := by
          rw [hfr.to_capacity, hs, h.sent, h.to_capacity]
          omega
        have hfv1 : v1.host.to_capacity ≤ v1.sent.length := by
          rw [hfr1.to_capacity, hs1, List.length_take]
          omega
        obtain ⟨r2, u, f, hu⟩ := exec_full (k 0) v (hfr.within h.within) hfv
        obtain ⟨r3, u1, f1, hu1⟩ := exec_full (k (-1)) v1 (hfr1.within h.within1) hfv1
        rw [f, f1]
        refine Or.inr (fullAlike_of_stillFull hu hu1 hcap ?_)
        rw [hfr.to_capacity, hfr1.to_capacity, hs, hs1, List.take_take, Nat.min_self, h.sent,
          h.to_capacity]
    · rcases hs1 with ⟨hr1, hs1⟩ | ⟨hr1, hs1, hlt1⟩
      · subst hr hr1
        have hfv : v.host.to_capacity ≤ v.sent.length := by
          rw [hfr.to_capacity, hs, List.length_take]
          omega
        have hfv1 : v1.host.to_capacity ≤ v1.sent.length := by
          rw [hfr1.to_capacity, hs1, ← h.sent, ← h.to_capacity]
          omega
        obtain ⟨r2, u, f, hu⟩ := exec_full (k (-1)) v (hfr.within h.within) hfv
        obtain ⟨r3, u1, f1, hu1⟩ := exec_full (k 0) v1 (hfr1.within h.within1) hfv1
        rw [f, f1]
        refine Or.inr (fullAlike_of_stillFull hu hu1 hcap ?_)
        rw [hfr.to_capacity, hfr1.to_capacity, hs, hs1, List.take_take, Nat.min_self, h.sent,
          h.to_capacity]
      · subst hr hr1
        exact ih (-1) v v1 (hsame (by rw [hs, hs1, h.sent, h.to_capacity]))

theorem feed_sim (E : Engine) (cs : List (List Nat)) :
    ∀ (st : E.σ) (w w1 : World), SameSent w w1 →
      Agree (feed E st cs w) (feed E st cs w1) := by
  induction cs with
  | nil => intro st w w1 h; exact Or.inl ⟨_, _, _, rfl, rfl, h⟩
  | cons c cs ih =>
    intro st w w1 h
    rcases exec_sim (E.process st c) w w1 h with ⟨r, v, v1, e, e1, hv⟩ | hfull
    · by_cases hr : r.1 < 0
      · exact Or.inl ⟨r, v, v1, by simp [feed, e, hr], by simp [feed, e1, hr], hv⟩
      · have := ih r.2 v v1 hv
        simpa [feed, e, e1, hr] using this
    · obtain ⟨r, v, e, _⟩ := exec_frame (E.process st c) w
      obtain ⟨r1, v1, e1, _⟩ := exec_frame (E.process st c) w1
      rw [e, e1] at hfull
      simp only [Run.world] at hfull
      have hA : ∃ r2 u, feed E st (c :: cs) w = .ret r2 u ∧ StillFull v u := by
        by_cases hr : r.1 < 0
        · exact ⟨r, v, by simp [feed, e, hr], stillFull_refl v hfull.within hfull.full⟩
        · obtain ⟨r2, u, f, hu⟩ := feed_full E cs r.2 v hfull.within hfull.full
          exact ⟨r2, u, by simp [feed, e, hr, f], hu⟩
      have hB : ∃ r2 u, feed E st (c :: cs) w1 = .ret r2 u ∧ StillFull v1 u := by
        by_cases hr : r1.1 < 0
        · exact ⟨r1, v1, by simp [feed, e1, hr], stillFull_refl v1 hfull.within1 hfull.full1⟩
        · obtain ⟨r2, u, f, hu⟩ := feed_full E cs r1.2 v1 hfull.within1 hfull.full1
          exact ⟨r2, u, by simp [feed, e1, hr, f], hu⟩
      obtain ⟨r2, u, f, hu⟩ := hA
      obtain ⟨r3, u1, f1, hu1⟩ := hB
      rw [f, f1]
      exact Or.inr (fullAlike_step hfull hu hu1)

theorem thenFinalize_sim (E : Engine) (st : E.σ) (cs : List (List Nat)) (w w1 : World)
    (h : SameSent w w1) : Agree (thenFinalize E st cs w) (thenFinalize E st cs w1) := by
  rcases feed_sim E cs st w w1 h with ⟨r, v, v1, e, e1, hv⟩ | hfull
  · by_cases hr : r.1 < 0
    · exact Or.inl ⟨r, v, v1, by simp [thenFinalize, e, hr], by simp [thenFinalize, e1, hr],
        hv⟩
    · have := exec_sim (E.finalize r.2) v v1 hv
      simpa [thenFinalize, e, e1, hr] using this
  · cases e : feed E st cs w with
    | exit c wx =>
      obtain ⟨r, v, e2, _⟩ : ∃ r v, feed E st cs w = .ret r v ∧ True := by
        obtain ⟨r, v, v1, f, _⟩ := feed_congr E cs st w w (sameStreams_refl w)
        exact ⟨r, v, f, trivial⟩
      rw [e2] at e
      cases e
    | ret r v =>
      cases e1 : feed E st cs w1 with
      | exit c wx =>
        obtain ⟨r, v, e2, _⟩ : ∃ r v, feed E st cs w1 = .ret r v ∧ True := by
          obtain ⟨r, v, v1, f, _⟩ := feed_congr E cs st w1 w1 (sameStreams_refl w1)
          exact ⟨r, v, f, trivial⟩
        rw [e2] at e1
        cases e1
      | ret r1 v1 =>
        rw [e, e1] at hfull
        simp only [Run.world] at hfull
        obtain ⟨r2, u, f, hu⟩ := finish_full E r v hfull.within hfull.full
        obtain ⟨r3, u1, f1, hu1⟩ := finish_full E r1 v1 hfull.within1 hfull.full1
        have g : thenFinalize E st cs w = .ret r2 u := by
          simp only [thenFinalize, bind_apply, e]
          simpa using f
        have g1 : thenFinalize E st cs w1 = .ret r3 u1 := by
          simp only [thenFinalize, bind_apply, e1]
          simpa using f1
        rw [g, g1]
        exact Or.inr (fullAlike_step hfull hu hu1)

/-- The output of a continuation does not depend on how the bytes handed to
the output stream so far are divided between the file and the buffer. -/
theorem output_sim (E : Engine) (st : E.σ) (cs : List (List Nat)) (w w1 : World)
    (h : SameSent w w1) :
    output (thenFinalize E st cs w) = output (thenFinalize E st cs w1) := by
  rcases thenFinalize_sim E st cs w w1 h with ⟨r, v, v1, e, e1, hv⟩ | hfull
  · rw [e, e1]
    show (v.flush .to).host.to_file = (v1.flush .to).host.to_file
    rw [output_within v hv.within, output_within v1 hv.within1, hv.sent, hv.to_capacity]
  · show ((thenFinalize E st cs w).world.flush .to).host.to_file =
      ((thenFinalize E st cs w1).world.flush .to).host.to_file
    rw [output_within _ hfull.within, output_within _ hfull.within1, hfull.same]

/-! ## The output of a run on the finalize path -/

theorem main_end_finalize_output (E : Engine) (v : Locals E) (w1 : World)
    (hc : to_size_t (v.offset + v.size) = v.patch_size) :
    (main_end E v w1).world.host.to_file = output (exec (E.finalize v.apply_patch) w1) := by
  obtain ⟨r, w2, he, hf, e⟩ := finalize_apply E v.apply_patch w1
  rw [he]
  show _ = (w2.flush .to).host.to_file
  by_cases hr : r.1 < 0
  · simp only [main_end, hc, ↓reduceIte, bind_apply, e, hr, ite_app, printf_apply,
      clean_and_exit_apply, Run.world, World.flushed]
    rw [flush_state_to_file]
    exact flush_to_file_congr _ _ rfl rfl rfl
  · simp only [main_end, hc, ↓reduceIte, bind_apply, e, hr, ite_app, printf_apply,
      remove_state_apply, pure_apply, fclose_apply, flush_from, flush_patch, Run.world]
    exact flush_to_file_congr _ _ rfl rfl rfl

theorem log_sameStreams (w : World) (e : Event) : SameStreams w (w.log e) :=
  ⟨rfl, rfl, rfl, rfl, rfl, rfl⟩

/-- A run that reads the rest of the patch as its first chunk ends with the
output of: `process` on that chunk, then finalize unless `process` failed. -/
theorem main_finalize_output (E : Engine) (argv : List CStr) (w0 wa wb wr wp : World)
    (size sad off : Int) (P : Nat) (st0 str : E.σ) (buf : List Nat)
    (h1 : parse_args argv w0 = .ret (size, sad) wa)
    (h2 : get_file_size .patch wa = .ret P wb)
    (h3 : E.init P = (0, st0))
    (h4 : restore E st0 (wb.log (.init 0)) = .ret (str, off) wr)
    (h5 : read_file .patch off size
      { wr with stdout := wr.stdout ++
          ["Processing %d byte(s) patch data starting at offset %d.\n"] } = .ret buf wp)
    (hc : to_size_t (off + size) = P) :
    (main E argv w0).world.host.to_file = output (thenFinalize E str [buf] wp) := by
  obtain ⟨r, w2, he, hf, e⟩ := process_apply E str buf wp
  by_cases hr : r.1 < 0
  · have hm : main E argv w0 = .exit 1
        { (w2.log (.process buf.length r.1)) with
            stdout := (w2.log (.process buf.length r.1)).stdout ++
              ["error: Process failed with '%s'.\n"] }.removed.flushed := by
      simp [main, main_begin, h1, h2, h3, detools_apply_patch_init, h4, h5, e, hr]
    rw [hm]
    have ho : output (thenFinalize E str [buf] wp) = (w2.flush .to).host.to_file := by
      simp [thenFinalize, feed, he, hr, output, Run.world]
    rw [ho]
    simp only [Run.world, World.flushed]
    rw [flush_state_to_file]
    exact flush_to_file_congr _ _ rfl rfl rfl
  · have hb : main_begin E argv w0 = .ret
        { apply_patch := r.2, res := r.1, offset := off, size := size, size_after_dump := sad,
          patch_size := P, patch_buf := buf } (w2.log (.process buf.length r.1)) := by
      simp [main_begin, h1, h2, h3, detools_apply_patch_init, h4, h5, e, hr]
    rw [main_of_begin E argv w0 _ _ hb, main_end_finalize_output E _ _ hc]
    obtain ⟨rf, u, u1, f, f1, hu⟩ := exec_congr (E.finalize r.2) w2
      (w2.log (.process buf.length r.1)) (log_sameStreams _ _)
    simp only [thenFinalize, feed, bind_apply, he, hr, ↓reduceIte, ite_app, pure_apply]
    simp only [show ¬ ((0 : Int) < 0) from by omega, ↓reduceIte, f, f1]
    exact (flush_to_file_congr u u1 hu.to_file hu.to_buf hu.to_capacity).symm

/-! ## C1: runs of `main` step by step -/

theorem parse_args_ok (size sad : String) (w : World) (d1 d2 d3 : List Nat)
    (h1 : w.host.from_file = some d1) (h2 : w.host.patch_file = some d2)
    (h3 : w.host.to_file = some d3) :
    ∃ wa, parse_args (argv0 size sad) w = .ret (atoi size, atoi sad) wa ∧
      wa.host = w.host ∧ wa.from_pos = 0 ∧ wa.to_buf = [] ∧ wa.lost = w.lost := by
  rcases parse_args_cases (argv0 size sad) w with ⟨_, _, _, _, e⟩ | ⟨wx, e⟩
  · exact ⟨_, e, rfl, rfl, rfl, rfl⟩
  · exfalso
    have hx : parse_args (argv0 size sad) w =
        .ret (atoi size, atoi sad) { w with from_pos := 0, patch_pos := 0, to_buf := [] } := by
      simp [parse_args, argv0, open_file, fopen, Host.file, h1, h2, h3, World.setPos,
        World.setBuf, parse_non_negative_integer_apply]
    rw [hx] at e
    cases e

theorem get_file_size_ok (w : World) (d : List Nat) (h : w.host.patch_file = some d)
    (hd : 0 < d.length) :
    ∃ wb, get_file_size .patch w = .ret d.length wb ∧ wb.host = w.host ∧
      wb.from_pos = w.from_pos ∧ wb.to_buf = w.to_buf ∧ wb.lost = w.lost := by
  have hlen : (w.data .patch).length = d.length := by simp [World.data, Host.file, h]
  rcases get_file_size_cases .patch w (by decide) with ⟨_, e⟩ | ⟨h0, _⟩
  · rw [hlen] at e
    exact ⟨_, e, rfl, rfl, rfl, rfl⟩
  · omega

theorem restore_none_ok (E : Engine) (st : E.σ) (w : World) (h : w.host.state_bin = none) :
    ∃ wr, restore E st w = .ret (st, 0) wr ∧
      wr.host = { w.host with to_file := some [] } ∧ wr.from_pos = w.from_pos ∧
      wr.to_buf = w.to_buf ∧ wr.lost = w.lost := by
  refine ⟨_, restore_none E st w h, ?_, rfl, rfl, rfl⟩
  simp [World.truncated, World.log, World.setData, Host.setFile]

theorem read_file_patch_ok (w : World) (d : List Nat) (off n : Nat)
    (h : w.host.patch_file = some d) (hn0 : 0 < n) (hfit : off + n ≤ d.length)
    (hheap : n ≤ w.host.heap) (hn : n < 2 ^ 31) :
    ∃ wp, read_file .patch (off : Int) (n : Int) w = .ret ((d.drop off).take n) wp ∧
      wp.host = w.host ∧ wp.from_pos = w.from_pos ∧ wp.to_buf = w.to_buf ∧
      wp.lost = w.lost := by
  have hsz : to_size_t (n : Int) = n := by
    rw [to_size_t_nonneg _ (by omega) (by omega)]
    simp
  have hdata : w.data .patch = d := by simp [World.data, Host.file, h]
  rcases read_file_cases .patch (off : Int) (n : Int) w (by decide) with ⟨_, e⟩ | ⟨hbad, _⟩
  · rw [hsz, hdata] at e
    simp only [Int.toNat_ofNat] at e
    exact ⟨_, e, rfl, rfl, rfl, rfl⟩
  · exfalso
    apply hbad
    refine ⟨?_, ?_, by omega, ?_, ?_⟩
    · rw [hsz]; exact hheap
    · rw [hsz]; unfold PTRDIFF_MAX; omega
    · rw [hsz]; exact hn0
    · rw [hsz, hdata]
      simpa using hfit

theorem restore_some_ok (E : Engine) (st st2 : E.σ) (w wr1 : World) (d : List Nat)
    (h : w.host.state_bin = some d)
    (he : execRestore (E.restore st) w.restoring = .ret (0, st2) wr1) :
    ∃ wr, restore E st w = .ret (st2, to_int (E.get_patch_offset st2)) wr ∧
      wr.from_pos = wr1.from_pos ∧ wr.to_buf = w.to_buf ∧
      wr.host = { w.host with to_file := some ((w.data .to).take (E.get_to_offset st2) ++
        List.replicate (E.get_to_offset st2 - (w.data .to).length) 0) } := by
  obtain ⟨r1, fp, sp, hfr⟩ := execRestore_frame (E.restore st) w.restoring
  rw [hfr] at he
  simp only [Run.ret.injEq] at he
  obtain ⟨hr1, hw⟩ := he
  rcases restore_cases E st w with ⟨hn, _⟩ | ⟨d2, r, w2, _, he2, ⟨hr, e⟩ | ⟨hr, e⟩⟩
  · rw [h] at hn
    cases hn
  · rw [hfr] at he2
    simp only [Run.ret.injEq] at he2
    obtain ⟨hr2, hw2⟩ := he2
    have hst : r.2 = st2 := by rw [← hr2, hr1]
    rw [hst] at e
    refine ⟨_, e, ?_, ?_, ?_⟩
    · rw [← hw2, ← hw]
      rfl
    · rw [← hw2]
      rfl
    · rw [← hw2]
      simp [World.restored, World.truncated, World.log, World.setData, Host.setFile,
        World.data, Host.file, World.restoring]
  · rw [hfr] at he2
    simp only [Run.ret.injEq] at he2
    rw [← he2.1, hr1] at hr
    exact absurd rfl hr

/-- The first `process` call of a run decides how `main_begin` ends. -/
theorem main_begin_forward (E : Engine) (argv : List CStr) (w0 wa wb wr wp w2 : World)
    (size sad off : Int) (P : Nat) (st0 str : E.σ) (buf : List Nat) (r : Int × E.σ)
    (h1 : parse_args argv w0 = .ret (size, sad) wa)
    (h2 : get_file_size .patch wa = .ret P wb)
    (h3 : E.init P = (0, st0))
    (h4 : restore E st0 (wb.log (.init 0)) = .ret (str, off) wr)
    (h5 : read_file .patch off size
      { wr with stdout := wr.stdout ++
          ["Processing %d byte(s) patch data starting at offset %d.\n"] } = .ret buf wp)
    (h6 : exec (E.process str buf) wp = .ret r w2) :
    (r.1 < 0 → (main E argv w0).returned = false) ∧
    (0 ≤ r.1 → main_begin E argv w0 = .ret
        { apply_patch := r.2, res := r.1, offset := off, size := size, size_after_dump := sad,
          patch_size := P, patch_buf := buf } (w2.log (.process buf.length r.1))) := by
  have e : detools_apply_patch_process E str buf wp =
      .ret r (w2.log (.process buf.length r.1)) := by
    simp [detools_apply_patch_process, h6]
  constructor
  · intro hr
    simp [main, main_begin, h1, h2, h3, detools_apply_patch_init, h4, h5, e, hr, Run.returned]
  · intro hr
    have hr2 : ¬ r.1 < 0 := by omega
    simp [main_begin, h1, h2, h3, detools_apply_patch_init, h4, h5, e, hr2]

theorem main_init_failed (E : Engine) (argv : List CStr) (w0 wa wb : World)
    (size sad : Int) (P : Nat)
    (h1 : parse_args argv w0 = .ret (size, sad) wa)
    (h2 : get_file_size .patch wa = .ret P wb)
    (h3 : (E.init P).1 ≠ 0) : (main E argv w0).returned = false := by
  simp [main, main_begin, h1, h2, h3, detools_apply_patch_init, Run.returned]

theorem thenFinalize_cons (E : Engine) (st : E.σ) (c : List Nat) (cs : List (List Nat))
    (w u : World) (r : Int × E.σ) (he : exec (E.process st c) w = .ret r u) (hr : 0 ≤ r.1) :
    thenFinalize E st (c :: cs) w = thenFinalize E r.2 cs u := by
  have hr2 : ¬ r.1 < 0 := by omega
  simp [thenFinalize, feed, he, hr2]

/-- The world in which a run without `state.bin` makes its first `process`
call, reading `n` bytes. -/
theorem fresh_steps (E : Engine) (h : Host) (F Pt T : List Nat) (size sad : String) (n : Nat)
    (st0 : E.σ)
    (hfrom : h.from_file = some F) (hpatch : h.patch_file = some Pt)
    (hto : h.to_file = some T) (hstate : h.state_bin = none)
    (hn : atoi size = (n : Int)) (hn0 : 0 < n) (hnP : n ≤ Pt.length) (hheap : n ≤ h.heap) :
    ∃ wa wb wr wp,
      parse_args (argv0 size sad) (World.boot h) = .ret ((n : Int), atoi sad) wa ∧
      get_file_size .patch wa = .ret Pt.length wb ∧
      restore E st0 (wb.log (.init 0)) = .ret (st0, 0) wr ∧
      read_file .patch 0 (n : Int)
        { wr with stdout := wr.stdout ++
            ["Processing %d byte(s) patch data starting at offset %d.\n"] } =
          .ret (Pt.take n) wp ∧
      wp.host = { h with to_file := some [] } ∧ wp.from_pos = 0 ∧ wp.to_buf = [] ∧
      wp.lost = 0 := by
  have hnr := atoi_range size
  rw [hn] at hnr
  obtain ⟨wa, e1, hwa, hwaf, hwab, hwal⟩ :=
    parse_args_ok size sad (World.boot h) F Pt T hfrom hpatch hto
  rw [hn] at e1
  obtain ⟨wb, e2, hwb, hwbf, hwbb, hwbl⟩ :=
    get_file_size_ok wa Pt (by rw [hwa]; exact hpatch) (by omega)
  obtain ⟨wr, e4, hwr, hwrf, hwrb, hwrl⟩ := restore_none_ok E st0 (wb.log (.init 0))
    (by show wb.host.state_bin = none; rw [hwb, hwa]; exact hstate)
  have hwrh : wr.host = { h with to_file := some [] } := by
    rw [hwr]
    show ({ wb.host with to_file := some [] } : Host) = _
    rw [hwb, hwa]
    rfl
  obtain ⟨wp, e5, hwp, hwpf, hwpb, hwpl⟩ := read_file_patch_ok
    { wr with stdout := wr.stdout ++
        ["Processing %d byte(s) patch data starting at offset %d.\n"] } Pt 0 n
    (by show wr.host.patch_file = some Pt; rw [hwrh]; exact hpatch) hn0 (by omega)
    (by show n ≤ wr.host.heap; rw [hwrh]; exact hheap) (by omega)
  simp only [Nat.cast_zero, List.drop_zero] at e5
  refine ⟨wa, wb, wr, wp, e1, e2, e4, e5, ?_, ?_, ?_, ?_⟩
  · rw [hwp]
    exact hwrh
  · rw [hwpf]
    show wr.from_pos = 0
    rw [hwrf]
    show wb.from_pos = 0
    rw [hwbf, hwaf]
  · rw [hwpb]
    show wr.to_buf = []
    rw [hwrb]
    show wb.to_buf = []
    rw [hwbb, hwab]
  · rw [hwpl]
    show wr.lost = 0
    rw [hwrl]
    show wb.lost = 0
    rw [hwbl, hwal]
    rfl

theorem sameMachine_refl (h : Host) : SameMachine h h := ⟨rfl, rfl, rfl, rfl, rfl, rfl, rfl⟩

theorem sameMachine_trans {h h1 h2 : Host} (a : SameMachine h h1) (b : SameMachine h1 h2) :
    SameMachine h h2 :=
  ⟨b.from_file.trans a.from_file, b.patch_file.trans a.patch_file,
    b.to_capacity.trans a.to_capacity, b.state_capacity.trans a.state_capacity,
    b.state_writable.trans a.state_writable, b.heap.trans a.heap, b.bufsiz.trans a.bufsiz⟩

theorem sameMachine_procFrame {w w1 : World} (h : ProcFrame w w1) :
    SameMachine w.host w1.host :=
  ⟨h.from_file, h.patch_file, h.to_capacity, h.state_capacity, h.state_writable, h.heap,
    h.bufsiz⟩

theorem sameMachine_flush_to (w : World) : SameMachine w.host (w.flush .to).host := by
  cases hto : w.host.to_file with
  | none =>
    unfold World.flush
    split
    · exact sameMachine_refl _
    · rw [transmit_none w _ _ (by simpa [Host.file] using hto)]
      exact sameMachine_refl _
  | some d =>
    rw [flush_to w d hto]
    exact ⟨rfl, rfl, rfl, rfl, rfl, rfl, rfl⟩

theorem sameMachine_flush_state (w : World) : SameMachine w.host (w.flush .state).host := by
  cases hsb : w.host.state_bin with
  | none =>
    unfold World.flush
    split
    · exact sameMachine_refl _
    · rw [transmit_none w _ _ (by simpa [Host.file] using hsb)]
      exact sameMachine_refl _
  | some d =>
    rw [flush_state w d hsb]
    exact ⟨rfl, rfl, rfl, rfl, rfl, rfl, rfl⟩

theorem sent_congr (w w1 : World) (h1 : w1.host.to_file = w.host.to_file)
    (h2 : w1.to_buf = w.to_buf) : w1.sent = w.sent := by
  simp [World.sent, World.data, Host.file, h1, h2]

theorem within_congr (w w1 : World) (h1 : w1.host.to_file = w.host.to_file)
    (h2 : w1.host.to_capacity = w.host.to_capacity) (hw : w.within) : w1.within := by
  obtain ⟨d, hd, hl⟩ := hw
  exact ⟨d, by rw [h1, hd], by rw [h2]; exact hl⟩

/-- What a returning `main_after_dump` leaves of the host and of the output. -/
theorem main_after_dump_frame (E : Engine) (v : Locals E) (w : World) (r : Int) (wf : World)
    (h : main_after_dump E v w = .ret r wf) :
    SameMachine w.host wf.host ∧ wf.host.state_bin = w.host.state_bin ∧ w.lost ≤ wf.lost ∧
      (wf.lost = w.lost → ∃ app, wf.sent = w.sent ++ app) ∧ (w.within → wf.within) := by
  rcases main_after_dump_cases E v w with ⟨_, e⟩ | ⟨_, wx, e⟩ |
    ⟨_, buf, wp, r3, w3, e1, _, hfr, _, e⟩
  · rw [e] at h
    simp only [Run.ret.injEq] at h
    rw [← h.2]
    exact ⟨sameMachine_refl _, rfl, le_refl _, fun _ => ⟨[], by simp⟩, id⟩
  · rw [e] at h
    cases h
  · rw [e] at h
    simp only [Run.ret.injEq] at h
    rw [← h.2]
    have hwp : wp = w.announced.setPos .patch ((v.offset + v.size).toNat +
        to_size_t v.size_after_dump) := by
      rcases read_file_cases .patch (v.offset + v.size) v.size_after_dump w.announced
        (by decide) with ⟨_, e2⟩ | ⟨_, wx, e2⟩
      · rw [e2] at e1
        simp only [Run.ret.injEq] at e1
        exact e1.2.symm
      · rw [e2] at e1
        cases e1
    subst hwp
    exact ⟨⟨hfr.from_file, hfr.patch_file, hfr.to_capacity, hfr.state_capacity,
      hfr.state_writable, hfr.heap, hfr.bufsiz⟩, hfr.state_bin, hfr.lost, hfr.sent,
      hfr.within⟩

/-- What a returning first run (no `state.bin`, `s` bytes, then the dump) that
lost no byte has done. -/
theorem first_run (E : Engine) (h : Host) (F Pt T : List Nat) (s : Nat) (size sad : String)
    (hfrom : h.from_file = some F) (hpatch : h.patch_file = some Pt)
    (hto : h.to_file = some T) (hstate : h.state_bin = none)
    (hs : 0 < s) (hsP : s < Pt.length) (h1s : atoi size = (s : Int))
    (hheap : Pt.length ≤ h.heap)
    (hrun : (main E (argv0 size sad) (World.boot h)).returned = true)
    (hkept : (main E (argv0 size sad) (World.boot h)).world.lost = 0) :
    ∃ (st0 : E.σ) (wp w1 : World) (r1 : Int × E.σ) (app : List Nat),
      E.init Pt.length = (0, st0) ∧
      wp.host = { h with to_file := some [] } ∧ wp.from_pos = 0 ∧ wp.to_buf = [] ∧
      exec (E.process st0 (Pt.take s)) wp = .ret r1 w1 ∧ 0 ≤ r1.1 ∧ ProcFrame wp w1 ∧
      SameMachine h (main E (argv0 size sad) (World.boot h)).world.host ∧
      (main E (argv0 size sad) (World.boot h)).world.host.to_file = some (w1.sent ++ app) ∧
      (main E (argv0 size sad) (World.boot h)).world.host.state_bin =
        some (dumped (E.dump r1.2)) ∧
      (w1.sent ++ app).length ≤ h.to_capacity := by
  have hnr := atoi_range size
  rw [h1s] at hnr
  cases hinit : E.init Pt.length with
  | mk r0 st0 =>
    obtain ⟨wa, wb, wr, wp, e1, e2, e4, e5, hwp, hwpf, hwpb, hwpl⟩ :=
      fresh_steps E h F Pt T size sad s st0 hfrom hpatch hto hstate h1s hs (by omega) (by omega)
    by_cases hr0 : r0 = 0
    · subst hr0
      obtain ⟨r1, w1, e6, hfr1⟩ := exec_frame (E.process st0 (Pt.take s)) wp
      obtain ⟨hneg, hpos⟩ := main_begin_forward E (argv0 size sad) (World.boot h) wa wb wr wp w1
        s (atoi sad) 0 Pt.length st0 st0 (Pt.take s) r1 e1 e2 hinit e4 e5 e6
      by_cases hr1 : r1.1 < 0
      · rw [hneg hr1] at hrun
        cases hrun
      · have hr1p : 0 ≤ r1.1 := by omega
        have hb1 := hpos hr1p
        have hm1 := main_of_begin _ _ _ _ _ hb1
        have hc1 : to_size_t ((0 : Int) + (s : Int)) ≠ Pt.length := by
          rw [to_size_t_nonneg _ (by omega) (by omega)]
          simp
          omega
        rcases main_end_dump E
          { apply_patch := r1.2, res := r1.1, offset := 0, size := s,
            size_after_dump := atoi sad, patch_size := Pt.length, patch_buf := Pt.take s }
          (w1.log (.process (Pt.take s).length r1.1)) hc1 with
          ⟨wx, t, e, _⟩ | ⟨wd, r, wf, hd, _, e7, e8⟩
        · rw [hm1, e] at hrun
          cases hrun
        · rw [hm1, e8] at hkept ⊢
          simp only [Run.world] at hkept ⊢
          -- the dump
          obtain ⟨rd, sb, b, l, hdf, _, _⟩ := execDump_frame (E.dump r1.2)
            (w1.log (.process (Pt.take s).length r1.1)).dumping
          have hwd : wd = { (w1.log (.process (Pt.take s).length r1.1)).dumping with
              host := { (w1.log (.process (Pt.take s).length r1.1)).dumping.host with
                state_bin := sb }, state_buf := b, lost := l } := by
            rw [hdf] at hd
            simp only [Run.ret.injEq] at hd
            exact hd.2.symm
          obtain ⟨d1, hd1, hcap, _, hl1, hkeep, _, _⟩ :=
            execDump_content (E.dump r1.2)
              (w1.log (.process (Pt.take s).length r1.1)).dumping [] 0 wd rfl hd
          have hl2 := flush_lost wd .state
          obtain ⟨hm3, hsb3, hl3, hsent3, hwithin3⟩ :=
            main_after_dump_frame E _ (wd.flush .state) r wf e7
          have hl4 := flush_lost wf .to
          have hl0 := hfr1.lost
          have hw1l : (w1.log (.process (Pt.take s).length r1.1)).dumping.lost = w1.lost := rfl
          have hwdl : wd.lost = w1.lost := by omega
          have hfsl : (wd.flush .state).lost = wd.lost := by omega
          have hwfl : wf.lost = (wd.flush .state).lost := by omega
          have hffl : (wf.flush .to).lost = wf.lost := by omega
          -- state.bin holds the whole dump
          have hstream : d1 ++ wd.state_buf = dumped (E.dump r1.2) := by
            have := hkeep (by rw [hwdl, hw1l])
            simpa [World.dumping] using this
          have hfs := flush_state wd d1 hd1
          have hsbfit : wd.state_buf.length ≤ wd.host.state_capacity - d1.length := by
            rw [hfs] at hfsl
            simp only at hfsl
            omega
          have hsbin : (wd.flush .state).host.state_bin = some (dumped (E.dump r1.2)) := by
            rw [hfs]
            show some (d1 ++ List.take _ wd.state_buf) = _
            rw [List.take_of_length_le hsbfit, hstream]
          -- the output file holds all the bytes written
          have hwpw : wp.within := ⟨[], by rw [hwp], by simp⟩
          have hw1w : w1.within := hfr1.within hwpw
          have hwdto : wd.host.to_file = w1.host.to_file := by rw [hwd]; rfl
          have hwdcap : wd.host.to_capacity = w1.host.to_capacity := by rw [hwd]; rfl
          have hwdbuf : wd.to_buf = w1.to_buf := by rw [hwd]; rfl
          have hfsw : (wd.flush .state).within :=
            within_congr w1 _ (by rw [flush_state_to_file, hwdto])
              (by rw [flush_state_to_capacity, hwdcap]) hw1w
          have hfss : (wd.flush .state).sent = w1.sent :=
            sent_congr w1 _ (by rw [flush_state_to_file, hwdto])
              (by rw [flush_state_to_buf, hwdbuf])
          obtain ⟨app, happ⟩ := hsent3 hwfl
          rw [hfss] at happ
          obtain ⟨dF, hdF, hlF⟩ := hwithin3 hfsw
          have hff := flush_to wf dF hdF
          have htofit : wf.to_buf.length ≤ wf.host.to_capacity - dF.length := by
            rw [hff] at hffl
            simp only at hffl
            omega
          have hwfs : wf.sent = dF ++ wf.to_buf := sent_of_some wf dF hdF
          have hmach : SameMachine h (wf.flush .to).host := by
            have a1 : SameMachine h wp.host := by
              rw [hwp]
              exact ⟨rfl, rfl, rfl, rfl, rfl, rfl, rfl⟩
            have a2 : SameMachine wp.host w1.host := sameMachine_procFrame hfr1
            have a3 : SameMachine w1.host wd.host := by
              rw [hwd]
              exact ⟨rfl, rfl, rfl, rfl, rfl, rfl, rfl⟩
            exact sameMachine_trans a1 (sameMachine_trans a2 (sameMachine_trans a3
              (sameMachine_trans (sameMachine_flush_state wd)
                (sameMachine_trans hm3 (sameMachine_flush_to wf)))))
          refine ⟨st0, wp, w1, r1, app, rfl, hwp, hwpf, hwpb, e6, hr1p, hfr1, hmach, ?_, ?_, ?_⟩
          · rw [hff]
            show some (dF ++ List.take _ wf.to_buf) = _
            rw [List.take_of_length_le htofit, ← hwfs, happ]
          · rw [flush_to_state_bin, hsb3, hsbin]
          · rw [← happ, hwfs, List.length_append]
            have hc : wf.host.to_capacity = h.to_capacity := by
              have := hmach.to_capacity
              rw [hff] at this
              exact this
            omega
    · have := main_init_failed E (argv0 size sad) (World.boot h) wa wb s (atoi sad) Pt.length
        e1 e2 (by rw [hinit]; exact hr0)
      rw [this] at hrun
      cases hrun

/-- The run that resumes from the state dumped by `first_run` ends with the
output of the dumped engine continuing on the rest of the patch. -/
theorem second_run (E : Engine) (hC : Contract E) (h h1 : Host) (F Pt : List Nat) (s : Nat)
    (size sad : String) (st0 : E.σ) (wp w1 : World) (r1 : Int × E.σ) (app : List Nat)
    (hfrom : h.from_file = some F) (hpatch : h.patch_file = some Pt)
    (hs : 0 < s) (hsP : s < Pt.length) (hP : Pt.length < 2 ^ 31)
    (h2s : atoi size = ((Pt.length - s : Nat) : Int)) (hheap : Pt.length ≤ h.heap)
    (hinit : E.init Pt.length = (0, st0))
    (hwp : wp.host = { h with to_file := some [] }) (hwpf : wp.from_pos = 0)
    (hwpb : wp.to_buf = [])
    (e6 : exec (E.process st0 (Pt.take s)) wp = .ret r1 w1) (hr1 : 0 ≤ r1.1)
    (hfr1 : ProcFrame wp w1)
    (hm : SameMachine h h1) (hto1 : h1.to_file = some (w1.sent ++ app))
    (hsb1 : h1.state_bin = some (dumped (E.dump r1.2)))
    (hlen : (w1.sent ++ app).length ≤ h.to_capacity) :
    (main E (argv0 size sad) (World.boot h1)).world.host.to_file =
      output (thenFinalize E r1.2 [Pt.drop s] w1) := by
  have hfrom1 : h1.from_file = some F := by rw [hm.from_file]; exact hfrom
  have hpatch1 : h1.patch_file = some Pt := by rw [hm.patch_file]; exact hpatch
  obtain ⟨wa, f1, hwa, hwaf, hwab, _⟩ := parse_args_ok size sad (World.boot h1)
    F Pt (w1.sent ++ app) hfrom1 hpatch1 hto1
  rw [h2s] at f1
  obtain ⟨wb, f2, hwb, hwbf, hwbb, _⟩ :=
    get_file_size_ok wa Pt (by rw [hwa]; exact hpatch1) (by omega)
  have hwbh : wb.host = h1 := by
    rw [hwb, hwa]
    rfl
  obtain ⟨st2, wr1, g1, g2, g3, g4, g5⟩ := hC.fidelity Pt.length st0 (Pt.take s) wp r1.1 r1.2 w1
    hinit hwpf e6 hr1 (wb.log (.init 0)).restoring
    (by show wb.host.state_bin = _; rw [hwbh, hsb1])
    rfl
    (by show wb.from_pos = 0; rw [hwbf, hwaf])
    (by show wb.host.from_file = _; rw [hwbh, hwp, hfrom1]; exact hfrom.symm)
  obtain ⟨o1, o2⟩ := hC.offsets Pt.length st0 (Pt.take s) wp r1.1 r1.2 w1 hinit
    (by rw [hwp]; simp) e6 hr1
  have hlen1 : (Pt.take s).length = s := by simp; omega
  have hwps : wp.sent = [] := by simp [World.sent, World.data, Host.file, hwp, hwpb]
  rw [hwps] at o2
  simp only [List.length_nil, Nat.zero_add] at o2
  obtain ⟨wr, f4, hwrf, hwrb, hwrh⟩ := restore_some_ok E st0 st2 (wb.log (.init 0)) wr1
    (dumped (E.dump r1.2)) (by show wb.host.state_bin = _; rw [hwbh, hsb1]) g1
  have hoff : to_int (E.get_patch_offset st2 : Int) = (s : Int) := by
    rw [g4, o1, hlen1]
    exact to_int_of_lt s (by omega)
  rw [hoff] at f4
  clear hoff
  have hwrto : wr.host.to_file = some w1.sent := by
    rw [hwrh, g3, o2]
    have hdata : (wb.log (.init 0)).data .to = w1.sent ++ app := by
      simp [World.data, World.log, Host.file, hwbh, hto1]
    rw [hdata]
    simp
  have hwrm : SameMachine h1 wr.host := by
    rw [hwrh]
    show SameMachine h1 { wb.host with to_file := _ }
    rw [hwbh]
    exact ⟨rfl, rfl, rfl, rfl, rfl, rfl, rfl⟩
  have hwrb2 : wr.to_buf = [] := by
    rw [hwrb]
    show wb.to_buf = []
    rw [hwbb, hwab]
  obtain ⟨wp2, f5, hwp2, hwp2f, hwp2b, _⟩ := read_file_patch_ok
    { wr with stdout := wr.stdout ++
        ["Processing %d byte(s) patch data starting at offset %d.\n"] } Pt s (Pt.length - s)
    (by show wr.host.patch_file = some Pt; rw [hwrm.patch_file]; exact hpatch1) (by omega)
    (by omega)
    (by show Pt.length - s ≤ wr.host.heap; rw [hwrm.heap, hm.heap]; omega) (by omega)
  have htake : List.take (Pt.length - s) (List.drop s Pt) = List.drop s Pt := by
    apply List.take_of_length_le
    simp
  rw [htake] at f5
  have hc : to_size_t ((s : Int) + ((Pt.length - s : Nat) : Int)) = Pt.length := by
    rw [to_size_t_nonneg _ (by omega) (by omega)]
    omega
  rw [main_finalize_output E (argv0 size sad) _ wa wb wr wp2 _ _ _ Pt.length st0 st2
    (Pt.drop s) f1 f2 hinit f4 f5 hc, g5]
  apply output_sim
  have hwp2h : wp2.host = wr.host := hwp2
  have hwp2to : wp2.host.to_file = some w1.sent := by rw [hwp2h, hwrto]
  have hwp2cap : wp2.host.to_capacity = h.to_capacity := by
    rw [hwp2h, hwrm.to_capacity, hm.to_capacity]
  have hw1cap : w1.host.to_capacity = h.to_capacity := by
    rw [hfr1.to_capacity, hwp]
  refine ⟨?_, ?_, ?_, ?_, ?_, ?_⟩
  · rw [hwp2h, hwrm.from_file, hm.from_file, hfr1.from_file, hwp]
  · rw [hwp2f]
    show wr.from_pos = _
    rw [hwrf, g2]
  · rw [hwp2cap, hw1cap]
  · have hb : wp2.to_buf = [] := by
      rw [hwp2b]
      exact hwrb2
    simp [World.sent, World.data, Host.file, hwp2to, hb]
  · refine ⟨w1.sent, hwp2to, ?_⟩
    rw [hwp2cap]
    simp only [List.length_append] at hlen
    omega
  · exact hfr1.within ⟨[], by rw [hwp], by simp⟩

/-- The uninterrupted run ends with the output of the engine continuing from
the state reached on the first `s` patch bytes. -/
theorem single_run (E : Engine) (hC : Contract E) (h : Host) (F Pt : List Nat) (s : Nat)
    (size sad : String) (st0 : E.σ) (wp w1 : World) (r1 : Int × E.σ)
    (hfrom : h.from_file = some F) (hpatch : h.patch_file = some Pt)
    (hstate : h.state_bin = none) (hs : 0 < s) (hsP : s < Pt.length)
    (hAs : atoi size = (Pt.length : Int)) (hheap : Pt.length ≤ h.heap)
    (hinit : E.init Pt.length = (0, st0))
    (hwp : wp.host = { h with to_file := some [] }) (hwpf : wp.from_pos = 0)
    (hwpb : wp.to_buf = [])
    (e6 : exec (E.process st0 (Pt.take s)) wp = .ret r1 w1) (hr1 : 0 ≤ r1.1) :
    (main E (argv0 size sad) (World.boot { h with to_file := some [] })).world.host.to_file =
      output (thenFinalize E r1.2 [Pt.drop s] w1) := by
  obtain ⟨wa, wb, wr, wpA, e1, e2, e4, e5, hwpA, hwpAf, hwpAb, _⟩ :=
    fresh_steps E { h with to_file := some [] } F Pt [] size sad Pt.length st0 hfrom hpatch rfl
      hstate hAs (by omega) (le_refl _) hheap
  have hPr := atoi_range size
  rw [hAs] at hPr
  have hc : to_size_t ((0 : Int) + (Pt.length : Int)) = Pt.length := by
    rw [to_size_t_nonneg _ (by omega) (by omega)]
    omega
  rw [List.take_length] at e5
  rw [main_finalize_output E (argv0 size sad) _ wa wb wr wpA _ _ _ Pt.length st0 st0 Pt
    e1 e2 hinit e4 e5 hc]
  have hsplit : Pt = Pt.take s ++ Pt.drop s := (List.take_append_drop s Pt).symm
  rw [show thenFinalize E st0 [Pt] wpA = thenFinalize E st0 [Pt.take s ++ Pt.drop s] wpA from by
    rw [← hsplit]]
  rw [hC.chunk_invariant Pt.length st0 _ _ wpA hinit]
  have hsame : SameStreams wp wpA := by
    refine ⟨?_, ?_, ?_, ?_, ?_, ?_⟩
    · rw [hwp, hwpA]
    · rw [hwpf, hwpAf]
    · rw [hwp, hwpA]
    · rw [hwpb, hwpAb]
    · rw [hwp, hwpA]
    · rw [hwp, hwpA]
  obtain ⟨r, v, v1, f, f1, hv⟩ := exec_congr (E.process st0 (Pt.take s)) wp wpA hsame
  rw [e6] at f
  cases f
  rw [thenFinalize_cons E st0 _ _ wpA v1 r1 f1 hr1]
  exact (output_congr E r1.2 _ _ _ hv).symm

/-! ## The small engine satisfies the contract -/

theorem from_read_one (w : World) :
    (∃ x, from_read 1 w = .ret (0, [x]) { w with from_pos := w.from_pos + 1 }) ∨
    (∃ buf p, from_read 1 w = .ret (-1, buf) { w with from_pos := p }) := by
  by_cases hfit : w.from_pos + 1 ≤ (w.data .from).length
  · have e := fread_full .from w 1 (by omega) hfit
    have hlen : (List.take 1 (List.drop (w.pos .from) (w.data .from))).length = 1 := by
      simp [World.pos]; omega
    obtain ⟨x, hx⟩ := List.length_eq_one.mp hlen
    refine Or.inl ⟨x, ?_⟩
    simp only [from_read, gt_iff_lt, Nat.lt_one_iff, pos_of_gt, ↓reduceIte, bind_apply, e, hx]
    rfl
  · obtain ⟨buf, p, e, _⟩ := fread_short .from w 1 (Or.inr (by simp [World.pos]; omega))
    refine Or.inr ⟨buf, p, ?_⟩
    simp only [from_read, gt_iff_lt, Nat.lt_one_iff, pos_of_gt, ↓reduceIte, bind_apply, e]
    rfl

/-- One step of `addProcess`: a negative result whatever follows, or the byte
is handled, handed to the output stream, and the rest of the chunk is processed
in the next world. -/
theorem addProcess_cons (ok : Int) (st : AddState) (b : Nat) (w : World) :
    (∃ r st1 w1, r < 0 ∧
      ∀ bs, exec (addProcess ok st (b :: bs)) w = .ret (r, st1) w1) ∨
    (∃ x, (w.added b x).from_pos = w.from_pos + 1 ∧
      (w.host.to_file ≠ none → (w.added b x).host.to_file ≠ none ∧
        (w.added b x).sent = w.sent ++ [(b + x) % 256]) ∧
      ∀ bs, exec (addProcess ok st (b :: bs)) w =
        exec (addProcess ok st.next bs) (w.added b x)) := by
  by_cases hb : b = 255
  · exact Or.inl ⟨-1, st, w, by omega, fun bs => by simp [addProcess, hb, exec]⟩
  · rcases from_read_one w with ⟨x, e⟩ | ⟨buf, p, e⟩
    · rcases to_write_cases [(b + x) % 256] { w with from_pos := w.from_pos + 1 } with
        ⟨h0, _⟩ | ⟨_, ht, e2⟩ | ⟨_, _, e2⟩
      · simp at h0
      · refine Or.inr ⟨x, written_from_pos _ _ _, ?_, fun bs => ?_⟩
        · intro hsome
          obtain ⟨d, hd⟩ := Option.ne_none_iff_exists'.mp hsome
          obtain ⟨h1, _, _⟩ := written_sent
            { w with from_pos := w.from_pos + 1, to_offset := w.to_offset + 1 }
            [(b + x) % 256] d hd ht
          refine ⟨?_, h1⟩
          have hfr := procFrame_written { w with from_pos := w.from_pos + 1 }
            (w.to_offset + 1) [(b + x) % 256]
          rcases hfr.to_file with h2 | ⟨app, h2⟩
          · show (World.written _ _ _).host.to_file ≠ none
            rw [h2]
            exact hsome
          · show (World.written _ _ _).host.to_file ≠ none
            rw [h2]
            simp
        · simp only [addProcess, hb, ↓reduceIte, exec, bind_apply, e, List.headD_cons, e2,
            ne_eq, not_true_eq_false]
          rfl
      · exact Or.inl ⟨-3, st, _, by omega, fun bs => by
          simp only [addProcess, hb, ↓reduceIte, exec, bind_apply, e, List.headD_cons, e2]
          rfl⟩
    · exact Or.inl ⟨-2, st, _, by omega, fun bs => by
        simp only [addProcess, hb, ↓reduceIte, exec, bind_apply, e]
        rfl⟩

theorem addProcess_inv (ok : Int) (c : List Nat) :
    ∀ (st : AddState) (w : World) (r : Int) (st1 : AddState) (w1 : World),
      exec (addProcess ok st c) w = .ret (r, st1) w1 → 0 ≤ r →
        r = ok ∧ st1.patch_offset = st.patch_offset + c.length ∧
        (w.host.to_file ≠ none →
          st1.to_offset + w.sent.length = st.to_offset + w1.sent.length) ∧
        st1.from_offset + w.from_pos = st.from_offset + w1.from_pos := by
  induction c with
  | nil =>
    intro st w r st1 w1 he _
    simp only [addProcess, exec, pure_apply, Run.ret.injEq, Prod.mk.injEq] at he
    obtain ⟨⟨h1, h2⟩, h3⟩ := he
    subst h1 h2 h3
    simp
  | cons b bs ih =>
    intro st w r st1 w1 he hr
    rcases addProcess_cons ok st b w with ⟨r2, st2, w2, hneg, e⟩ | ⟨x, hfp, hsent, e⟩
    · rw [e bs] at he
      simp only [Run.ret.injEq, Prod.mk.injEq] at he
      omega
    · rw [e bs] at he
      obtain ⟨h1, h2, h3, h4⟩ := ih _ _ _ _ _ he hr
      refine ⟨h1, ?_, ?_, ?_⟩
      · simp only [AddState.next] at h2
        simp only [List.length_cons]
        omega
      · intro hsome
        obtain ⟨hs1, hs2⟩ := hsent hsome
        have h3' := h3 hs1
        rw [hs2] at h3'
        simp only [AddState.next, List.length_append, List.length_singleton] at h3'
        omega
      · rw [hfp] at h4
        simp only [AddState.next] at h4
        omega

theorem addProcess_res (ok : Int) (c : List Nat) :
    ∀ (st : AddState) (w : World) (r : Int) (st1 : AddState) (w1 : World),
      exec (addProcess ok st c) w = .ret (r, st1) w1 → r < 0 ∨ r = ok := by
  intro st w r st1 w1 he
  by_cases hr : r < 0
  · exact Or.inl hr
  · exact Or.inr (addProcess_inv ok c st w r st1 w1 he (by omega)).1

theorem addProcess_append (b : List Nat) (a : List Nat) :
    ∀ (st : AddState) (w : World),
      (∃ r st1 w1, r < 0 ∧ exec (addProcess 0 st a) w = .ret (r, st1) w1 ∧
        exec (addProcess 0 st (a ++ b)) w = .ret (r, st1) w1) ∨
      (∃ st1 w1, exec (addProcess 0 st a) w = .ret (0, st1) w1 ∧
        exec (addProcess 0 st (a ++ b)) w = exec (addProcess 0 st1 b) w1) := by
  induction a with
  | nil => intro st w; exact Or.inr ⟨st, w, rfl, rfl⟩
  | cons x a ih =>
    intro st w
    rcases addProcess_cons 0 st x w with ⟨r2, st2, w2, hneg, e⟩ | ⟨y, _, _, e⟩
    · exact Or.inl ⟨r2, st2, w2, hneg, e a, by rw [List.cons_append]; exact e (a ++ b)⟩
    · rcases ih st.next (w.added x y) with ⟨r, st1, w1, hneg, e1, e2⟩ | ⟨st1, w1, e1, e2⟩
      · exact Or.inl ⟨r, st1, w1, hneg, by rw [e a]; exact e1,
          by rw [List.cons_append, e (a ++ b)]; exact e2⟩
      · exact Or.inr ⟨st1, w1, by rw [e a]; exact e1,
          by rw [List.cons_append, e (a ++ b)]; exact e2⟩

theorem add_feed_one (st : AddState) (c : List Nat) (w : World) :
    feed addEngine st [c] w = exec (addProcess 0 st c) w := by
  obtain ⟨r, w1, he, _⟩ := exec_frame (addProcess 0 st c) w
  have hres := addProcess_res 0 c st w r.1 r.2 w1 he
  show (exec (addProcess 0 st c) >>= fun r =>
    if r.1 < 0 then pure r else feed addEngine r.2 []) w = _
  rw [bind_apply, he]
  by_cases hr : r.1 < 0
  · simp [hr]
  · have h0 : r.1 = 0 := by omega
    simp only [hr, ↓reduceIte, feed, pure_apply]
    rw [← h0]
    rfl

theorem add_feed_two (st : AddState) (a b : List Nat) (w : World) :
    feed addEngine st [a, b] w = feed addEngine st [a ++ b] w := by
  rw [add_feed_one]
  show (exec (addProcess 0 st a) >>= fun r =>
    if r.1 < 0 then pure r else feed addEngine r.2 [b]) w = _
  rw [bind_apply]
  rcases addProcess_append b a st w with ⟨r, st1, w1, hneg, e1, e2⟩ | ⟨st1, w1, e1, e2⟩
  · rw [e1, e2]
    simp [hneg]
  · rw [e1, e2]
    simp [add_feed_one]

theorem add_dumped (st : AddState) :
    dumped (addDump st) = [st.patch_size, st.patch_offset, st.to_offset, st.from_offset] := by
  simp [addDump, dumped, accepted]

theorem add_restore (st0 : AddState) (wr : World) (a b c d : Nat)
    (hsb : wr.host.state_bin = some [a, b, c, d]) (hsp : wr.state_pos = 0)
    (hfp : wr.from_pos = 0) :
    execRestore (addRestore st0) wr =
      .ret (0, ⟨a, b, c, d⟩) { wr with state_pos := 4, from_pos := d } := by
  have hdata : wr.data .state = [a, b, c, d] := by simp [World.data, Host.file, hsb]
  simp [addRestore, execRestore, state_read, fread, hdata, World.pos, hsp, World.setPos,
    from_seek, fseek, hfp]

theorem addEngine_contract : Contract addEngine := by
  refine ⟨?_, ?_, ?_⟩
  · intro P st0 c w r st1 w1 hinit hsome he hr
    have h0 : st0 = ⟨P, 0, 0, 0⟩ := by
      have := congrArg Prod.snd hinit
      exact this.symm
    subst h0
    obtain ⟨_, h2, h3, _⟩ := addProcess_inv 0 c _ w r st1 w1 he hr
    refine ⟨by simpa using h2, ?_⟩
    have h3' := h3 hsome
    show w.sent.length + st1.to_offset = _
    simp only at h3'
    omega
  · intro P st0 a b w _
    show output (thenFinalize addEngine st0 [a ++ b] w) =
      output (thenFinalize addEngine st0 [a, b] w)
    simp only [thenFinalize, bind_apply, add_feed_two]
  · intro P st0 c w r st1 w1 hinit hw0 he hr wr hsb hsp hfp hff
    have h0 : st0 = ⟨P, 0, 0, 0⟩ := by
      have := congrArg Prod.snd hinit
      exact this.symm
    subst h0
    obtain ⟨_, _, _, h4⟩ := addProcess_inv 0 c _ w r st1 w1 he hr
    simp only [hw0, Nat.add_zero, Nat.zero_add] at h4
    have hsb2 : wr.host.state_bin =
        some [st1.patch_size, st1.patch_offset, st1.to_offset, st1.from_offset] := by
      rw [hsb]
      exact congrArg some (add_dumped st1)
    refine ⟨st1, _, add_restore _ wr _ _ _ _ hsb2 hsp hfp, ?_, rfl, rfl, fun _ _ => rfl⟩
    exact h4

/-! ## C1: a resumed run reproduces the output of the uninterrupted run -/

/-- C1, the claim as stated fails; the engine `addEngine` satisfies the
contract, the patch has six bytes and is split at `s = 2` with `a = 3`.

On a host whose `state.bin` cannot grow beyond three bytes the first run
`main from patch to 2 3` reports no failure and returns 0, but it leaves
`state.bin` cut to `[6, 2, 2]`: the byte that did not fit is lost when `fclose`
flushes the stream.  The second run `main from patch to 4 0` on the files it
left fails in the engine's restore and exits with the output
`[66, 68, 70, 72, 70]`, where the single run `main from patch to 6 0` leaves
`[66, 68, 70, 72, 70, 72]`.

On a machine that grants no block larger than four bytes the two runs succeed
and leave the whole output, where the single run cannot allocate its six byte
chunk and leaves an empty output.

On the patch `[1, 2, 3, 255]` split at `s = 3` with `a = 1` the first run fails
on the byte processed after the dump, which removes `state.bin`; the second run
(`size = 1`) restarts at offset 0 and leaves `[66]`, where the single run leaves
`[66, 68, 70]`. -/
theorem resumed_run_differs :
    Contract addEngine ∧ (0 < 2 ∧ 2 < 6 ∧ 3 ≤ 6 - 2) ∧
      ((main addEngine (argv0 "2" "3") (World.boot hostSmallState)).status = 0 ∧
        (main addEngine (argv0 "2" "3") (World.boot hostSmallState)).returned = true ∧
        (main addEngine (argv0 "2" "3") (World.boot hostSmallState)).world.host.state_bin =
          some [6, 2, 2] ∧
        (main addEngine (argv0 "4" "0")
          (World.boot (main addEngine (argv0 "2" "3")
            (World.boot hostSmallState)).world.host)).world.host.to_file =
          some [66, 68, 70, 72, 70] ∧
        (main addEngine (argv0 "6" "0")
          (World.boot hostSmallState.emptied)).world.host.to_file =
          some [66, 68, 70, 72, 70, 72]) ∧
      ((main addEngine (argv0 "2" "3") (World.boot hostSmallHeap)).status = 0 ∧
        (main addEngine (argv0 "2" "3") (World.boot hostSmallHeap)).world.lost = 0 ∧
        (main addEngine (argv0 "4" "0")
          (World.boot (main addEngine (argv0 "2" "3")
            (World.boot hostSmallHeap)).world.host)).world.host.to_file =
          some [66, 68, 70, 72, 70, 72] ∧
        (main addEngine (argv0 "6" "0")
          (World.boot hostSmallHeap.emptied)).world.host.to_file =
          some []) ∧
      ((0 < 3 ∧ 3 < 4 ∧ 1 ≤ 4 - 3) ∧
        (main addEngine (argv0 "3" "1") (World.boot hostBad)).status = 1 ∧
        (main addEngine (argv0 "1" "0")
          (World.boot (main addEngine (argv0 "3" "1")
            (World.boot hostBad)).world.host)).world.host.to_file = some [66] ∧
        (main addEngine (argv0 "4" "0")
          (World.boot hostBad.emptied)).world.host.to_file =
          some [66, 68, 70]) :=
  ⟨addEngine_contract, by decide, by decide!, by decide!, by decide!⟩

/-- C1, amended: let the engine satisfy the contract, let the host hold a
source, a patch of length `P`, an output file and no `state.bin`, and let the
machine grant a block of `P` bytes.  The sizes reach `main` as its arguments,
whose values are `s`, `a`, `P - s` and `P`.  For every split `0 < s < P` and
every `a ≤ P - s`, if the first run (`size = s`, `size-after-dump = a`) returns
and none of the bytes it wrote to the output file and to `state.bin` was lost,
then the run with `size = P - s` on the host it leaves ends with an output file
byte-identical to that of the single run with `size = P` on an empty output
file. -/
theorem resumed_run_reproduces_output (E : Engine) (hC : Contract E) (h : Host)
    (F Pt T : List Nat) (s a : Nat) (size1 sad1 size2 sad2 sizeA sadA : String)
    (hfrom : h.from_file = some F) (hpatch : h.patch_file = some Pt)
    (hto : h.to_file = some T) (hstate : h.state_bin = none)
    (hs : 0 < s) (hsP : s < Pt.length) (_ha : a ≤ Pt.length - s)
    (h1s : atoi size1 = (s : Int)) (_h1a : atoi sad1 = (a : Int))
    (h2s : atoi size2 = ((Pt.length - s : Nat) : Int))
    (hAs : atoi sizeA = (Pt.length : Int))
    (hheap : Pt.length ≤ h.heap)
    (hrun : (main E (argv0 size1 sad1) (World.boot h)).returned = true)
    (hkept : (main E (argv0 size1 sad1) (World.boot h)).world.lost = 0) :
    (main E (argv0 size2 sad2)
        (World.boot (main E (argv0 size1 sad1) (World.boot h)).world.host)).world.host.to_file =
      (main E (argv0 sizeA sadA) (World.boot h.emptied)).world.host.to_file := by
  show _ = (main E (argv0 sizeA sadA) (World.boot { h with to_file := some [] })).world.host.to_file
  have hPr := atoi_range sizeA
  rw [hAs] at hPr
  obtain ⟨st0, wp, w1, r1, app, hinit, hwp, hwpf, hwpb, e6, hr1, hfr1, hm, hto1, hsb1, hlen⟩ :=
    first_run E h F Pt T s size1 sad1 hfrom hpatch hto hstate hs hsP h1s hheap hrun hkept
  rw [second_run E hC h _ F Pt s size2 sad2 st0 wp w1 r1 app hfrom hpatch hs hsP
      (by omega) h2s hheap hinit hwp hwpf hwpb e6 hr1 hfr1 hm hto1 hsb1 hlen,
    single_run E hC h F Pt s sizeA sadA st0 wp w1 r1 hfrom hpatch hstate hs hsP hAs hheap
      hinit hwp hwpf hwpb e6 hr1]

theorem resumed_run_reproduces_output_witness :
    ((main addEngine (argv0 "2" "3") (World.boot host0)).returned = true ∧
      (main addEngine (argv0 "2" "3") (World.boot host0)).world.lost = 0) ∧
      (main addEngine (argv0 "4" "0")
        (World.boot (main addEngine (argv0 "2" "3")
          (World.boot host0)).world.host)).world.host.to_file =
      (main addEngine (argv0 "6" "0") (World.boot host0.emptied)).world.host.to_file :=
  ⟨by decide!,
    resumed_run_reproduces_output addEngine addEngine_contract host0
      [65, 66, 67, 68, 65, 66, 67, 68] [1, 2, 3, 4, 5, 6] [] 2 3 "2" "3" "4" "0" "6" "0"
      rfl rfl rfl rfl (by decide) (by decide) (by decide) (by decide!) (by decide!)
      (by decide!) (by decide!) (by decide) (by decide!) (by decide!)⟩

end Detools
